import Mathlib

/-
  Verification development for the siembol config-editor UI.

  Shallow embedding of:
  - the JSON-Schema-to-formly-field compiler (`FormlyJsonschema` in
    config-editor-ui/src/app/ngx-formly/components/textarea.type.component.ts),
  - the union-selector visibility logic of `resolveMultiSchema`,
  - the selection operations of `ConfigStoreService`
    (config-editor-ui/src/app/services/config-store.service.ts).

  Modelling conventions:
  - JavaScript numbers are modelled as rationals (the schemas carry JSON
    numbers; no NaN or infinity arises in the modelled code paths).
  - Fallible code paths (thrown Errors) are modelled with `Except`.
  - Functions that recurse through `$ref` chains take an explicit fuel
    argument; the JS code would loop or blow the stack on cyclic refs.
-/

namespace Siembol

/-- JPrim is a primitive JavaScript/JSON value. -/
inductive JPrim where
  | undef : JPrim
  | null : JPrim
  | bool : Bool → JPrim
  | num : ℚ → JPrim
  | str : String → JPrim
deriving DecidableEq

/-- JVal models a runtime JavaScript/JSON value as far as the compiler's
validator predicates inspect one: a primitive, or one level of array
(the modelled validators look only at an array's length and at duplicate
elements, so array nesting is flattened to primitive elements). -/
inductive JVal where
  | prim : JPrim → JVal
  | arr : List JPrim → JVal
deriving DecidableEq

/-- Shorthand injections. -/
def JVal.undef : JVal := .prim .undef

def JVal.null : JVal := .prim .null

def JVal.bool (b : Bool) : JVal := .prim (.bool b)

def JVal.num (q : ℚ) : JVal := .prim (.num q)

def JVal.str (s : String) : JVal := .prim (.str s)

/-- Source `isEmpty` (textarea.type.component.ts line 207):
`v === '' || v === undefined || v === null`. -/
def isEmptyVal : JVal → Bool
  | .prim (.str "") => true
  | .prim .undef => true
  | .prim .null => true
  | _ => false

/-- JavaScript strict equality `===` restricted to the values of `JVal`.
Primitives compare structurally; two distinct array literals are never
strictly equal in JS (reference semantics), so array-array comparison is
modelled as false. `undefined === null` is false. -/
def jsStrictEq : JVal → JVal → Bool
  | .prim .undef, .prim .undef => true
  | .prim .null, .prim .null => true
  | .prim (.bool a), .prim (.bool b) => a == b
  | .prim (.num a), .prim (.num b) => a == b
  | .prim (.str a), .prim (.str b) => a == b
  | _, _ => false

/-- Truncating division used to model the JS `%` remainder on numbers. -/
def ratTrunc (q : ℚ) : ℤ := if 0 ≤ q then ⌊q⌋ else ⌈q⌉

/-- JS `a % b` on finite numbers with `b ≠ 0`: remainder with the sign of
the dividend. -/
def jsMod (a b : ℚ) : ℚ := a - b * (ratTrunc (a / b) : ℚ)

/-- Validator attached for `type: null` (line 267):
`({ value }) => value === null`. -/
def nullValidator (value : JVal) : Bool := jsStrictEq value .null

/-- Validator attached for `exclusiveMinimum` (line 289):
`({ value }) => isEmpty(value) || (value > schema.exclusiveMinimum)`.
Non-numeric, non-empty runtime values compare false (the field's parser
has already coerced the control value to a number or null). -/
def exclusiveMinimumValidator (bound : ℚ) (value : JVal) : Bool :=
  isEmptyVal value ||
    (match value with | .prim (.num q) => decide (bound < q) | _ => false)

/-- Validator attached for `exclusiveMaximum` (line 294):
`({ value }) => isEmpty(value) || (value < schema.exclusiveMaximum)`. -/
def exclusiveMaximumValidator (bound : ℚ) (value : JVal) : Bool :=
  isEmptyVal value ||
    (match value with | .prim (.num q) => decide (q < bound) | _ => false)

/-- Validator attached for `multipleOf` (line 299):
`({ value }) => isEmpty(value) || (value % schema.multipleOf === 0)`.
A zero `multipleOf` yields `NaN === 0`, i.e. false. -/
def multipleOfValidator (step : ℚ) (value : JVal) : Bool :=
  isEmptyVal value ||
    (match value with
     | .prim (.num q) => if step = 0 then false else decide (jsMod q step = 0)
     | _ => false)

/-- Validator attached for `minItems` (line 403):
`({ value }) => isEmpty(value) || (value.length >= schema.minItems)`. -/
def minItemsValidator (n : ℚ) (value : JVal) : Bool :=
  isEmptyVal value ||
    (match value with | .arr xs => decide (n ≤ (xs.length : ℚ)) | _ => false)

/-- Validator attached for `maxItems` (line 407):
`({ value }) => isEmpty(value) || (value.length <= schema.maxItems)`. -/
def maxItemsValidator (n : ℚ) (value : JVal) : Bool :=
  isEmptyVal value ||
    (match value with | .arr xs => decide ((xs.length : ℚ) ≤ n) | _ => false)

/-- Validator attached for `uniqueItems` (lines 411-421): vacuously true on
empty values or when `uniqueItems` is false; otherwise the list of
`JSON.stringify`-images must be duplicate-free, modelled as structural
deduplication of the elements. -/
def uniqueItemsValidator (uniq : Bool) (value : JVal) : Bool :=
  if isEmptyVal value || !uniq then true
  else match value with
    | .arr xs => xs.dedup.length == xs.length
    | _ => true

/-- Validator attached for `const` (line 463):
`({ value }) => value === schema.const`. -/
def constValidator (c : JVal) (value : JVal) : Bool := jsStrictEq value c

/-!  Union branch reconciliation (`resolveMultiSchema`, lines 556-609).

A compiled formly field is abstracted to the data the two helper functions
`totalMatchedFields` and `isFieldValid` (lines 215-228) read from it:
whether it has a `key`, whether it has a `fieldGroup`, whether its initial
model value is defined (`getFieldInitialValue(field) !== undefined`), and
whether its form control is currently valid. -/

/-- FTree abstracts a compiled formly field for the branch-reconciliation
algorithm: `key` presence, control validity, whether the live model holds a
defined value at the field's key path, and the optional `fieldGroup`. -/
inductive FTree where
  | node : Option String → Bool → Bool → Option (List FTree) → FTree

/-- Key presence of the field. -/
def FTree.key : FTree → Option String
  | .node k _ _ _ => k

instance : Inhabited FTree := ⟨.node none false false none⟩

mutual

/-- Source `totalMatchedFields` (lines 215-220): a keyed field without a
`fieldGroup` counts 1 when its initial model value is defined; otherwise the
counts of the `fieldGroup` members are summed.  (A field with neither key
nor fieldGroup would crash in JS; such fields are never produced by the
compiler, and the model returns 0 there.) -/
def totalMatchedFields : FTree → Nat
  | .node (some _) _ hasInit none => if hasInit then 1 else 0
  | .node (some _) _ _ (some g) => totalMatchedList g
  | .node none _ _ (some g) => totalMatchedList g
  | .node none _ _ none => 0

/-- Sum of `totalMatchedFields` over a `fieldGroup`
(`field.fieldGroup.reduce((s, f) => totalMatchedFields(f) + s, 0)`). -/
def totalMatchedList : List FTree → Nat
  | [] => 0
  | f :: fs => totalMatchedFields f + totalMatchedList fs

end

mutual

/-- Source `isFieldValid` (lines 222-228): a keyed field reports its form
control's validity; otherwise every `fieldGroup` member must be valid. -/
def isFieldValid : FTree → Bool
  | .node (some _) valid _ _ => valid
  | .node none _ _ (some g) => allFieldsValid g
  | .node none _ _ none => true

/-- Conjunction of `isFieldValid` over a `fieldGroup`
(`field.fieldGroup.every(f => isFieldValid(f))`). -/
def allFieldsValid : List FTree → Bool
  | [] => true
  | f :: fs => isFieldValid f && allFieldsValid fs

end

/-- Pair each branch with its index, starting at `n`
(`f.parent.fieldGroup.map((f, i) => [f, i])`). -/
def withIdx : List FTree → Nat → List (FTree × Nat)
  | [], _ => []
  | f :: fs, n => (f, n) :: withIdx fs (n + 1)

/-- One insertion step of a stable descending sort on
`totalMatchedFields`: the inserted element passes an element already in
place only when its count is strictly greater, so elements with equal
counts keep their original relative order.  This models the
`Array.prototype.sort` call of lines 582-590, whose comparator returns 0 on
equal counts and which ECMAScript guarantees to be stable. -/
def insertRanked (x : FTree × Nat) : List (FTree × Nat) → List (FTree × Nat)
  | [] => [x]
  | y :: ys =>
    if totalMatchedFields x.1 > totalMatchedFields y.1 then x :: y :: ys
    else y :: insertRanked x ys

/-- Stable descending sort by `totalMatchedFields`. -/
def rankSort (l : List (FTree × Nat)) : List (FTree × Nat) :=
  l.foldl (fun acc x => insertRanked x acc) []

/-- The `value` array of lines 579-592: indices of the branches whose
compiled field is currently valid, sorted by matched-field count
descending (stable, so ties keep ascending index order). -/
def selectorRanking (branches : List FTree) : List Nat :=
  (rankSort ((withIdx branches 0).filter (fun p => isFieldValid p.1))).map (fun p => p.2)

/-- Union mode: `oneOf` or `anyOf`. -/
inductive UnionMode where
  | oneOf : UnionMode
  | anyOf : UnionMode
deriving DecidableEq

/-- Runtime value of the selector's form control: a single index for
`oneOf`, an array of indices for `anyOf` (the code dispatches on
`Array.isArray(control.value)`). -/
inductive CtrlVal where
  | single : Nat → CtrlVal
  | multi : List Nat → CtrlVal
deriving DecidableEq

/-- Lines 594-596: `normalizedValue = [value.length === 0 ? 0 : value[0]]`,
`formattedValue = mode === 'anyOf' ? normalizedValue : normalizedValue[0]`. -/
def selectorInitValue (mode : UnionMode) (branches : List FTree) : CtrlVal :=
  let value := selectorRanking branches
  let normalizedValue : List Nat := [if value = [] then 0 else value.headI]
  match mode with
  | .anyOf => .multi normalizedValue
  | .oneOf => .single normalizedValue.headI

/-- Lines 601-603: the branch with index `i` is hidden when the selector's
current value is an array not containing `i`, or a scalar different from
`i`. -/
def branchHidden (cv : CtrlVal) (i : Nat) : Bool :=
  match cv with
  | .multi l => !(l.contains i)
  | .single n => n != i

/-- One evaluation of the `hideExpression` closure of branch `i`
(lines 576-604).  The shared selector control is modelled as explicit
state: `none` means `selectField.formControl` has not been created yet.
On the first evaluation the initial value is computed and stored; on every
later evaluation the stored value is read back and only the membership
test runs. -/
def evalHideExpression (mode : UnionMode) (branches : List FTree)
    (selectorState : Option CtrlVal) (i : Nat) : Option CtrlVal × Bool :=
  match selectorState with
  | none =>
    let v := selectorInitValue mode branches
    (some v, branchHidden v i)
  | some v => (some v, branchHidden v i)

/-- Modelled from the spec (§4.4, the ranked-reconciliation step): among the
valid branches, the earliest index attaining the maximal matched-field
count; branch 0 when no branch is valid.  This is the spec-side
formulation that the code's filter-sort-head pipeline is compared
against. -/
def specTopRankedBranch (branches : List FTree) : Nat :=
  match (withIdx branches 0).filter (fun p => isFieldValid p.1) with
  | [] => 0
  | c :: cs =>
    (cs.foldl
      (fun best x =>
        if totalMatchedFields x.1 > totalMatchedFields best.1 then x else best)
      c).2

/-!  Schema data model (`JSONSchema7` as consumed by `FormlyJsonschema`).

Only the keys the compiler reads are modelled.  Key presence
(`hasOwnProperty` / truthiness checks on the JS side) is modelled with
`Option`; a JSON key explicitly set to `null` is not representable (the
compiler treats a null-valued bound like an absent one through `isEmpty`,
so nothing is lost for the modelled paths).  JS objects reached by JSON
pointer navigation (for example the `definitions` block) are modelled by
the generic `defs` children; pointer navigation through `properties` or
array indices is not modelled. -/

/-- Vendor extension condition block
(`x-schema-form.condition`): `hideExpression` carries the raw textual
condition source; `disableAutoClear` records mere key presence (the code
checks `hasOwnProperty` only, never the value). -/
structure XsfCondition where
  hideExpressionSrc : Option String := none
  disableAutoClear : Bool := false
deriving DecidableEq

/-- Vendor extension block `x-schema-form`. -/
structure Xsf where
  xtype : Option String := none
  wrappers : Option (List String) := none
  condition : Option XsfCondition := none
deriving DecidableEq

/-- The JSON `type` keyword: a single type name or an array of names. -/
inductive TypeSpec where
  | single : String → TypeSpec
  | multi : List String → TypeSpec
deriving DecidableEq

/-- The runtime value stored in `field.type`: a type-name string, or —
when `guessType` falls through and returns the whole `type` array — that
array itself. -/
inductive TypeTag where
  | tname : String → TypeTag
  | tlist : List String → TypeTag
deriving DecidableEq

/-- Scalar (non-recursive) schema keys. -/
structure SBase where
  typ : Option TypeSpec := none
  title : Option String := none
  descr : Option String := none
  dflt : Option JVal := none
  readOnly : Option Bool := none
  ref : Option String := none
  requiredL : Option (List String) := none
  enumL : Option (List JVal) := none
  constV : Option JVal := none
  minimum : Option ℚ := none
  maximum : Option ℚ := none
  exclusiveMinimum : Option ℚ := none
  exclusiveMaximum : Option ℚ := none
  multipleOf : Option ℚ := none
  minLength : Option ℚ := none
  maxLength : Option ℚ := none
  minItems : Option ℚ := none
  maxItems : Option ℚ := none
  minProperties : Option ℚ := none
  maxProperties : Option ℚ := none
  pattern : Option String := none
  uniqueItems : Option Bool := none
  xsf : Option Xsf := none
deriving DecidableEq

/-- Recursive schema keys, parameterized so the knot can be tied below.
`depsP` and `depsS` model the `dependencies` map with array-valued and
schema-valued entries kept apart (exactly the split `resolveDependencies`
performs by a runtime `Array.isArray` check); each list preserves the
JS object's insertion order.  `items` models the single-schema form of
`items` only (the compiler's tuple-form handling lives inside the lazy
`fieldArray` getter, which is not part of the compiled tree). -/
structure SchemaShape (α : Type) where
  base : SBase := {}
  allOfL : Option (List α) := none
  oneOfL : Option (List α) := none
  anyOfL : Option (List α) := none
  properties : Option (List (String × α)) := none
  items : Option α := none
  depsP : List (String × List String) := []
  depsS : List (String × α) := []
  defs : List (String × α) := []

/-- A schema document node. -/
inductive JSchema where
  | mk : SchemaShape JSchema → JSchema

/-- Unwrap a schema node to its shape. -/
def JSchema.sh : JSchema → SchemaShape JSchema
  | .mk s => s

/-- Errors a compile pass can signal.  The first three correspond to the
`throw Error(...)` sites of `resolveAllOf` (line 523) and
`resolveDefinition` (lines 614 and 623); `jsCrash` marks inputs on which
the JS code would die with a TypeError (e.g. reading the last segment of
an empty key path); `outOfFuel` is an artifact of the explicit
recursion-depth bound and corresponds to non-termination or stack
exhaustion on cyclically referenced schemas. -/
inductive SchemaError where
  | emptyComposition : SchemaError
  | unsupportedReference : String → SchemaError
  | unresolvedReference : String → SchemaError
  | jsCrash : SchemaError
  | outOfFuel : SchemaError
deriving DecidableEq

/-- Split a character list at the first occurrence of the two-character
fragment separator of a `$ref` string: returns the part before the first
occurrence and, when one exists, the remainder after it. -/
def splitRefChars : List Char → (List Char × Option (List Char))
  | [] => ([], none)
  | '#' :: '/' :: rest => ([], some rest)
  | c :: cs =>
    let p := splitRefChars cs
    (c :: p.1, p.2)

/-- The first two elements of `ref.split('#/')` (line 612): the remote
part and the fragment pointer (`none` when the string contains no
separator; for a string with several separators the pointer is the part
between the first and the second, as in JS). -/
def splitRef (ref : String) : String × Option String :=
  let p := splitRefChars ref.data
  (String.mk p.1,
   match p.2 with
   | none => none
   | some rest => some (String.mk (splitRefChars rest).1))

/-- `pointer.split('/')` on character lists, structurally recursive so
concrete instances evaluate in the kernel. -/
def splitSlashChars : List Char → List (List Char)
  | [] => [[]]
  | '/' :: cs => [] :: splitSlashChars cs
  | c :: cs =>
    match splitSlashChars cs with
    | [] => [[c]]
    | r :: rs => (c :: r) :: rs

/-- Generic child lookup used by JSON-pointer navigation
(`def && def.hasOwnProperty(path) ? def[path] : null`). -/
def childAt (s : JSchema) (k : String) : Option JSchema :=
  s.sh.defs.lookup k

/-- The root document as pointer navigation sees it: its object-valued
children (`options.schema` is only ever read through `def[path]` lookups
during `$ref` resolution, so the navigable child map is all of it the
resolver consumes). -/
abbrev RootDefs := List (String × JSchema)

/-- Walk a fragment pointer (already split from the `#/` separator)
against the root document: `pointer.split('/').reduce(...)`
(lines 617-620); the first segment is looked up among the root's
children, later segments in each node's children. -/
def resolvePointer (root : RootDefs) (pointer : String) : Option JSchema :=
  match (splitSlashChars pointer.data).map String.mk with
  | [] => none
  | seg :: rest =>
    rest.foldl (fun acc seg2 => acc.bind (fun d => childAt d seg2))
      (root.lookup seg)

/-- Reverse-merge on one key: the destination's value wins when defined,
otherwise the source's fills in (`!isDefined(dest[k])` in
`reverseDeepMerge`). -/
def fillFrom {α : Type} (b s : Option α) : Option α :=
  match b with
  | some v => some v
  | none => s

/-- Copy `title`/`description`/`default` from the referencing node over
the resolved target when present on the referencing node
(lines 630-639). -/
def applyAnnotations (referencing target : JSchema) : JSchema :=
  .mk { target.sh with
        base := { target.sh.base with
                  title := fillFrom referencing.sh.base.title target.sh.base.title,
                  descr := fillFrom referencing.sh.base.descr target.sh.base.descr,
                  dflt := fillFrom referencing.sh.base.dflt target.sh.base.dflt } }

/-- Source `resolveDefinition` (lines 611-640).  The `$ref` string is
split on the fragment separator; a non-empty remote part fails; a missing
or unresolvable fragment pointer fails; a target that itself carries
`$ref` is resolved recursively (note: in that case the outer node's
annotations are NOT applied — the code returns the recursive result
directly); otherwise the target is returned with the referencing node's
`title`/`description`/`default` layered on top. -/
def resolveDefinitionF : Nat → JSchema → RootDefs → Except SchemaError JSchema
  | 0, _, _ => .error .outOfFuel
  | fuel + 1, s, root =>
    let refStr := (s.sh.base.ref).getD ""
    let parts := splitRef refStr
    let uri := parts.1
    if uri ≠ "" then .error (.unsupportedReference refStr)
    else
      let definition : Option JSchema :=
        match parts.2 with
        | none => none
        | some "" => none
        | some pointer => resolvePointer root pointer
      match definition with
      | none => .error (.unresolvedReference refStr)
      | some d =>
        if d.sh.base.ref.isSome then resolveDefinitionF fuel d root
        else .ok (applyAnnotations s d)

/-- The `max`-family tightening step of `resolveAllOf` (lines 537-542):
when both sides carry the key, keep the smaller value. -/
def tightenMax (b s : Option ℚ) : Option ℚ :=
  match b, s with
  | some bv, some sv => some (if bv < sv then bv else sv)
  | bv, _ => bv

/-- The `min`-family tightening step of `resolveAllOf` (lines 544-550):
when both sides carry the key, keep the larger value. -/
def tightenMin (b s : Option ℚ) : Option ℚ :=
  match b, s with
  | some bv, some sv => some (if bv > sv then bv else sv)
  | bv, _ => bv

/-- Reverse deep merge (`ɵreverseDeepMerge` from ngx-formly) specialized
to schema nodes: a key defined on `base` wins; keys absent on `base` are
filled from `source`; `properties` and `defs` objects merge recursively
per key (new keys appended in source order); other composite keys are
kept whole from `base` when present.  (The JS original would also merge
arrays index-wise; no modelled code path relies on that.) -/
def reverseDeepMergeSchema : Nat → JSchema → JSchema → JSchema
  | 0, base, _ => base
  | fuel + 1, base, src =>
    let b := base.sh
    let s := src.sh
    let mergeAssoc : List (String × JSchema) → List (String × JSchema) →
        List (String × JSchema) :=
      fun bl sl =>
        bl.map (fun kv =>
          match sl.lookup kv.1 with
          | some sv => (kv.1, reverseDeepMergeSchema fuel kv.2 sv)
          | none => kv)
        ++ sl.filter (fun kv => (bl.lookup kv.1).isNone)
    .mk {
      base := {
        typ := fillFrom b.base.typ s.base.typ,
        title := fillFrom b.base.title s.base.title,
        descr := fillFrom b.base.descr s.base.descr,
        dflt := fillFrom b.base.dflt s.base.dflt,
        readOnly := fillFrom b.base.readOnly s.base.readOnly,
        ref := fillFrom b.base.ref s.base.ref,
        requiredL := fillFrom b.base.requiredL s.base.requiredL,
        enumL := fillFrom b.base.enumL s.base.enumL,
        constV := fillFrom b.base.constV s.base.constV,
        minimum := fillFrom b.base.minimum s.base.minimum,
        maximum := fillFrom b.base.maximum s.base.maximum,
        exclusiveMinimum := fillFrom b.base.exclusiveMinimum s.base.exclusiveMinimum,
        exclusiveMaximum := fillFrom b.base.exclusiveMaximum s.base.exclusiveMaximum,
        multipleOf := fillFrom b.base.multipleOf s.base.multipleOf,
        minLength := fillFrom b.base.minLength s.base.minLength,
        maxLength := fillFrom b.base.maxLength s.base.maxLength,
        minItems := fillFrom b.base.minItems s.base.minItems,
        maxItems := fillFrom b.base.maxItems s.base.maxItems,
        minProperties := fillFrom b.base.minProperties s.base.minProperties,
        maxProperties := fillFrom b.base.maxProperties s.base.maxProperties,
        pattern := fillFrom b.base.pattern s.base.pattern,
        uniqueItems := fillFrom b.base.uniqueItems s.base.uniqueItems,
        xsf := fillFrom b.base.xsf s.base.xsf },
      allOfL := fillFrom b.allOfL s.allOfL,
      oneOfL := fillFrom b.oneOfL s.oneOfL,
      anyOfL := fillFrom b.anyOfL s.anyOfL,
      properties :=
        match b.properties, s.properties with
        | some bp, some sp => some (mergeAssoc bp sp)
        | some bp, none => some bp
        | none, sp => sp,
      items :=
        match b.items, s.items with
        | some bi, some si => some (reverseDeepMergeSchema fuel bi si)
        | some bi, none => some bi
        | none, si => si,
      depsP := if b.depsP.isEmpty && b.depsS.isEmpty then s.depsP else b.depsP,
      depsS := if b.depsP.isEmpty && b.depsS.isEmpty then s.depsS else b.depsS,
      defs :=
        match b.defs, s.defs with
        | [], sd => sd
        | bd, sd => bd.map (fun kv =>
            match sd.lookup kv.1 with
            | some sv => (kv.1, reverseDeepMergeSchema fuel kv.2 sv)
            | none => kv)
          ++ sd.filter (fun kv => (bd.lookup kv.1).isNone) }

/-- One fold step of `resolveAllOf` (lines 526-553) applied to `base` and
an already-resolved member `s`: concatenate `required` when both are
present, adopt a truthy `uniqueItems`, tighten the `max`-family bounds to
the minimum and the `min`-family bounds to the maximum when both sides
carry the key, then reverse-deep-merge the member underneath. -/
def mergeAllOfStep (fuel : Nat) (base s : JSchema) : JSchema :=
  let b0 := base.sh
  let step1 : SchemaShape JSchema :=
    { b0 with base := { b0.base with
        requiredL :=
          match b0.base.requiredL, s.sh.base.requiredL with
          | some br, some sr => some (br ++ sr)
          | br, _ => br,
        uniqueItems :=
          if s.sh.base.uniqueItems = some true then some true
          else b0.base.uniqueItems,
        maxLength := tightenMax b0.base.maxLength s.sh.base.maxLength,
        maximum := tightenMax b0.base.maximum s.sh.base.maximum,
        exclusiveMaximum :=
          tightenMax b0.base.exclusiveMaximum s.sh.base.exclusiveMaximum,
        maxItems := tightenMax b0.base.maxItems s.sh.base.maxItems,
        maxProperties :=
          tightenMax b0.base.maxProperties s.sh.base.maxProperties,
        minLength := tightenMin b0.base.minLength s.sh.base.minLength,
        minimum := tightenMin b0.base.minimum s.sh.base.minimum,
        exclusiveMinimum :=
          tightenMin b0.base.exclusiveMinimum s.sh.base.exclusiveMinimum,
        minItems := tightenMin b0.base.minItems s.sh.base.minItems,
        minProperties :=
          tightenMin b0.base.minProperties s.sh.base.minProperties } }
  reverseDeepMergeSchema fuel (.mk step1) s

/-- Source `resolveSchema` (lines 509-519) with an explicit recursion
bound: resolve `$ref` first, then fold a present `allOf` (empty `allOf`
throws; each member is itself resolved before merging). -/
def resolveSchemaF : Nat → JSchema → RootDefs → Except SchemaError JSchema
  | 0, _, _ => .error .outOfFuel
  | fuel + 1, s, root => do
    let s1 ← if s.sh.base.ref.isSome
             then resolveDefinitionF (fuel + 1) s root
             else pure s
    match s1.sh.allOfL with
    | none => pure s1
    | some l =>
      if l.isEmpty then .error .emptyComposition
      else
        let base : JSchema := .mk { s1.sh with allOfL := none }
        l.foldlM
          (fun b m => do
            let r ← resolveSchemaF fuel m root
            pure (mergeAllOfStep fuel b r))
          base

/-!  Type classification, labels, and enum detection. -/

/-- Source `guessType` (lines 666-683): absent `type` with `properties`
infers `object`; a one-element `type` array collapses to its element; a
two-element array containing `"null"` collapses to the other element;
any other array is returned as-is (and then matches no switch case). -/
def guessType (s : JSchema) : Option TypeTag :=
  match s.sh.base.typ with
  | none => if s.sh.properties.isSome then some (.tname "object") else none
  | some (.single t) => some (.tname t)
  | some (.multi l) =>
    match l with
    | [t] => some (.tname t)
    | [a, b] =>
      if a = "null" then some (.tname b)
      else if b = "null" then some (.tname a)
      else some (.tlist l)
    | _ => some (.tlist l)

/-- Capitalize one word the way Angular's `TitleCasePipe` does: first
character upper-cased, the rest lower-cased. -/
def capitalizeWordChars : List Char → List Char
  | [] => []
  | c :: cs => c.toUpper :: cs.map Char.toLower

/-- Split on single spaces (the word boundaries relevant after the
compiler's underscore-to-space replacement). -/
def splitSpaceChars : List Char → List (List Char)
  | [] => [[]]
  | ' ' :: cs => [] :: splitSpaceChars cs
  | c :: cs =>
    match splitSpaceChars cs with
    | [] => [[c]]
    | r :: rs => (c :: r) :: rs

/-- Re-join words with single spaces. -/
def joinSpaceChars : List (List Char) → List Char
  | [] => []
  | [w] => w
  | w :: ws => w ++ ' ' :: joinSpaceChars ws

/-- `this.titleCasePipe.transform(...)`. -/
def titleCase (s : String) : String :=
  String.mk (joinSpaceChars ((splitSpaceChars s.data).map capitalizeWordChars))

/-- `.replace(/_/g, ' ')`. -/
def underscoreToSpace (s : String) : String :=
  String.mk (s.data.map (fun c => if c = '_' then ' ' else c))

/-- Base label from the schema's `title` (line 254):
`schema.title ? titleCase(schema.title.replace(/_/g, ' ')) : ''`
(an empty-string title is falsy and yields the empty label). -/
def titleLabel (title : Option String) : String :=
  match title with
  | some t => if t = "" then "" else titleCase (underscoreToSpace t)
  | none => ""

/-- Label from the last key-path segment
(`titleCase(propKey[propKey.length - 1].replace(/_/g, ' '))`, used
unconditionally by the boolean, number and array cases); on an empty key
path the JS code dies reading `.replace` of `undefined`. -/
def segLabelE (pk : List String) : Except SchemaError String :=
  match pk.getLast? with
  | none => .error .jsCrash
  | some seg => .ok (titleCase (underscoreToSpace seg))

/-- Source `isConst` (lines 211-213):
`schema.hasOwnProperty('const') || (schema.enum && schema.enum.length === 1)`. -/
def isConstS (s : JSchema) : Bool :=
  s.sh.base.constV.isSome ||
    (match s.sh.base.enumL with
     | some l => l.length == 1
     | none => false)

/-- Source `isEnum` (lines 690-695): a present `enum` key (even an empty
list is truthy in JS), or `anyOf`/`oneOf` whose members are all constants,
or a `uniqueItems` array whose single-schema `items` is itself an enum. -/
def isEnumF : Nat → JSchema → Bool
  | 0, _ => false
  | fuel + 1, s =>
    s.sh.base.enumL.isSome
    || (match s.sh.anyOfL with | some l => l.all isConstS | none => false)
    || (match s.sh.oneOfL with | some l => l.all isConstS | none => false)
    || ((s.sh.base.uniqueItems.getD false)
        && (match s.sh.items with | some it => isEnumF fuel it | none => false))

/-- One `toEnum` conversion (lines 702-706): value is `const` when
present, else `enum[0]` (JS yields `undefined` on a missing element);
label is `s.title || value`. -/
def toEnumValue (s : JSchema) : JVal × JVal :=
  let v := s.sh.base.constV.getD ((s.sh.base.enumL.getD []).headD JVal.undef)
  (v, match s.sh.base.title with
      | some t => if t = "" then v else .str t
      | none => v)

/-- Source `toEnumOptions` (lines 697-717), producing (value, label)
pairs; recursion into `items` is bounded by fuel, and a schema on which
none of the four branches applies makes the JS code crash (modelled as
`none`). -/
def toEnumOptionsF : Nat → JSchema → Option (List (JVal × JVal))
  | 0, _ => none
  | fuel + 1, s =>
    match s.sh.base.enumL with
    | some l => some (l.map (fun v => (v, v)))
    | none =>
      match s.sh.anyOfL with
      | some l => some (l.map toEnumValue)
      | none =>
        match s.sh.oneOfL with
        | some l => some (l.map toEnumValue)
        | none =>
          match s.sh.items with
          | some it => toEnumOptionsF fuel it
          | none => none

/-!  Field descriptors (the shape of a compiled `FormlyFieldConfig`).

Function-valued members of the real field object (validator closures,
`parsers`, `expressionProperties`, the compiled `hideExpression`
predicates, and the lazy `fieldArray` getter of the array case) are not
part of the structural shape; the names of attached validators and the
presence of a `hideExpression` key are recorded instead.  The predicates
themselves are modelled separately (validator section above, union
section above, condition section below). -/

/-- The shape-relevant part of `templateOptions`. `enumOptions` holds
(value, label) pairs. -/
structure TOpts where
  label : String := ""
  readonly : Option Bool := none
  descr : Option String := none
  required : Option Bool := none
  tmin : Option ℚ := none
  tmax : Option ℚ := none
  exclusiveMinimum : Option ℚ := none
  exclusiveMaximum : Option ℚ := none
  step : Option ℚ := none
  minLength : Option ℚ := none
  maxLength : Option ℚ := none
  pattern : Option String := none
  minItems : Option ℚ := none
  maxItems : Option ℚ := none
  uniqueItems : Option Bool := none
  constV : Option JVal := none
  multiple : Option Bool := none
  enumOptions : Option (List (JVal × JVal)) := none
deriving DecidableEq

/-- Field-descriptor shape, parameterized to tie the knot below. -/
structure FieldShape (α : Type) where
  type_ : Option TypeTag := none
  key : Option String := none
  defaultValue : Option JVal := none
  tmplOpts : TOpts := {}
  autoClear : Option Bool := none
  wrappers : Option (List String) := none
  hasHideExpression : Bool := false
  validatorNames : List String := []
  fieldGroup : Option (List α) := none

/-- A compiled field descriptor. -/
inductive FieldOut where
  | mk : FieldShape FieldOut → FieldOut

/-- Unwrap a field descriptor to its shape. -/
def FieldOut.sh : FieldOut → FieldShape FieldOut
  | .mk s => s

/-- Shape effect of `addValidator` (lines 685-688). -/
def addValidatorName (f : FieldOut) (n : String) : FieldOut :=
  .mk { f.sh with validatorNames := f.sh.validatorNames ++ [n] }

/-- Compile-time options (`IOptions`): the root document for `$ref`
resolution, the `autoClear` override, plus two fixed environment pieces —
an oracle telling which condition sources `new Function` accepts, and the
`testSpec` override member of the service (normally unset).  The
`options.map` hook and the `widget.formlyConfig` overlay are not
modelled. -/
structure CompileOptions where
  rootDefs : RootDefs
  autoClearOpt : Option Bool := none
  exprCompiles : String → Bool
  testSpec : Option FieldOut := none

/-- Ordered-insert accumulation of the inverted property-dependency map
(`deps[dep].push(prop)` with JS object insertion order). -/
def pushAssoc : List (String × List String) → String → String → List (String × List String)
  | [], dep, prop => [(dep, [prop])]
  | (k, v) :: rest, dep, prop =>
    if k = dep then (k, v ++ [prop]) :: rest
    else (k, v) :: pushAssoc rest dep prop

/-- Source `resolveDependencies` (lines 642-664): array-valued entries
are inverted into dependent-property → trigger-properties; schema-valued
entries pass through keyed by trigger property. -/
def resolveDependencies (s : JSchema) :
    List (String × List String) × List (String × JSchema) :=
  (s.sh.depsP.foldl
    (fun m pd => pd.2.foldl (fun m d => pushAssoc m d pd.1) m) [],
   s.sh.depsS)

/-- Base descriptor (lines 250-263). -/
def mkBaseField (opts : CompileOptions) (r : JSchema) : FieldOut :=
  .mk
    { type_ := guessType r,
      defaultValue := r.sh.base.dflt,
      tmplOpts :=
        { label := titleLabel r.sh.base.title,
          readonly := r.sh.base.readOnly,
          descr := r.sh.base.descr },
      autoClear := some (opts.autoClearOpt != some false) }

/-- Number/integer case of the switch (lines 275-302). -/
def numberCase (f0 : FieldOut) (r : JSchema) (pk : List String) :
    Except SchemaError FieldOut := do
  let lab ← segLabelE pk
  let f1 : FieldOut := .mk { f0.sh with tmplOpts := { f0.sh.tmplOpts with label := lab } }
  let f2 : FieldOut := match r.sh.base.minimum with
    | some v => .mk { f1.sh with tmplOpts := { f1.sh.tmplOpts with tmin := some v } }
    | none => f1
  let f3 : FieldOut := match r.sh.base.maximum with
    | some v => .mk { f2.sh with tmplOpts := { f2.sh.tmplOpts with tmax := some v } }
    | none => f2
  let f4 : FieldOut := match r.sh.base.exclusiveMinimum with
    | some v =>
      addValidatorName
        (.mk { f3.sh with tmplOpts := { f3.sh.tmplOpts with exclusiveMinimum := some v } })
        "exclusiveMinimum"
    | none => f3
  let f5 : FieldOut := match r.sh.base.exclusiveMaximum with
    | some v =>
      addValidatorName
        (.mk { f4.sh with tmplOpts := { f4.sh.tmplOpts with exclusiveMaximum := some v } })
        "exclusiveMaximum"
    | none => f4
  let f6 : FieldOut := match r.sh.base.multipleOf with
    | some v =>
      addValidatorName
        (.mk { f5.sh with tmplOpts := { f5.sh.tmplOpts with step := some v } })
        "multipleOf"
    | none => f5
  pure f6

/-- String case of the switch (lines 303-318); the nullable-type parser
is a function and not shape.  The label check compares the raw last
segment against the synthetic array-template segment before any
transformation. -/
def stringCase (f0 : FieldOut) (r : JSchema) (pk : List String) :
    Except SchemaError FieldOut := do
  let f1 : FieldOut := match r.sh.base.minLength with
    | some v => .mk { f0.sh with tmplOpts := { f0.sh.tmplOpts with minLength := some v } }
    | none => f0
  let f2 : FieldOut := match r.sh.base.maxLength with
    | some v => .mk { f1.sh with tmplOpts := { f1.sh.tmplOpts with maxLength := some v } }
    | none => f1
  let f3 : FieldOut := match r.sh.base.pattern with
    | some v => .mk { f2.sh with tmplOpts := { f2.sh.tmplOpts with pattern := some v } }
    | none => f2
  match pk.getLast? with
  | none => .error .jsCrash
  | some seg =>
    let lab := if seg = "-" then "" else titleCase (underscoreToSpace seg)
    pure (.mk { f3.sh with tmplOpts := { f3.sh.tmplOpts with label := lab } })

/-- Array case of the switch (lines 397-458): label from the last key
path segment, length/uniqueness constraints, and the in-place resolution
of a single-schema `items` (line 426) — the one document mutation the
compiler performs.  The lazy `fieldArray` getter it installs afterwards
is a function, not shape. -/
def arrayBounds (f0 : FieldOut) (r : JSchema) (lab : String) : FieldOut :=
  let f1 : FieldOut := .mk
    { f0.sh with fieldGroup := some [],
                 tmplOpts := { f0.sh.tmplOpts with label := lab } }
  let f2 : FieldOut := match r.sh.base.minItems with
    | some v =>
      addValidatorName
        (.mk { f1.sh with tmplOpts := { f1.sh.tmplOpts with minItems := some v } })
        "minItems"
    | none => f1
  let f3 : FieldOut := match r.sh.base.maxItems with
    | some v =>
      addValidatorName
        (.mk { f2.sh with tmplOpts := { f2.sh.tmplOpts with maxItems := some v } })
        "maxItems"
    | none => f2
  match r.sh.base.uniqueItems with
  | some v =>
    addValidatorName
      (.mk { f3.sh with tmplOpts := { f3.sh.tmplOpts with uniqueItems := some v } })
      "uniqueItems"
  | none => f3

def arrayCase (fuel : Nat) (root : RootDefs) (f0 : FieldOut) (r : JSchema)
    (pk : List String) : Except SchemaError (FieldOut × JSchema) := do
  let lab ← segLabelE pk
  let f4 : FieldOut := arrayBounds f0 r lab
  match r.sh.items with
  | some it => do
    let it' ← resolveSchemaF fuel it root
    pure (f4, (.mk { r.sh with items := some it' } : JSchema))
  | none => pure (f4, r)

/-- Shape effect of the `const` block (lines 461-467). -/
def applyConstBlock (r : JSchema) (f : FieldOut) : FieldOut :=
  match r.sh.base.constV with
  | none => f
  | some c =>
    let f1 : FieldOut := .mk { f.sh with
      tmplOpts := { f.sh.tmplOpts with constV := some c },
      validatorNames := f.sh.validatorNames ++ ["const"] }
    match f1.sh.type_ with
    | none => .mk { f1.sh with defaultValue := some c }
    | some _ => f1

/-- Shape effect of the `x-schema-form` block (lines 468-491): optional
type override, wrappers (objects default to a panel wrapper when the
block is present but carries none), the compiled `hideExpression`
(attached only when `new Function` accepts the source — the catch leaves
the field untouched), and the `disableAutoClear` presence check. -/
def applyXsfBlock (ec : String → Bool) (r : JSchema) (f : FieldOut) : FieldOut :=
  match r.sh.base.xsf with
  | none => f
  | some x =>
    let f1 : FieldOut := match x.xtype with
      | some t => .mk { f.sh with type_ := some (.tname t) }
      | none => f
    let f2 : FieldOut := match x.wrappers with
      | some w => .mk { f1.sh with wrappers := some w }
      | none =>
        if f1.sh.type_ = some (.tname "object")
        then .mk { f1.sh with wrappers := some ["panel"] }
        else f1
    match x.condition with
    | none => f2
    | some cond =>
      let f3 : FieldOut := match cond.hideExpressionSrc with
        | some src =>
          if ec src then .mk { f2.sh with hasHideExpression := true } else f2
        | none => f2
      if cond.disableAutoClear then .mk { f3.sh with autoClear := some false }
      else f3

/-- Shape effect of the enum override (lines 493-497): `multiple` records
whether the pre-override type was `array`, the type becomes `enum`, and
the option list is derived from the schema. -/
def applyEnumBlock (fuel : Nat) (r : JSchema) (f : FieldOut) :
    Except SchemaError FieldOut :=
  if isEnumF fuel r then
    match toEnumOptionsF fuel r with
    | none => .error .jsCrash
    | some eo =>
      .ok (.mk { f.sh with
        tmplOpts := { f.sh.tmplOpts with
                multiple := some (f.sh.type_ = some (.tname "array")),
                enumOptions := some eo },
        type_ := some (.tname "enum") })
  else .ok f

/-- Accumulator for the object case's property loop. -/
structure ObjFoldSt where
  fields : List FieldOut := []
  props : List (String × JSchema) := []
  deps : List (String × JSchema) := []

/-- The type of a recursive-compilation closure handed to the object-case
loops (a partial application of `compileField` at smaller fuel). -/
abbrev Recur := JSchema → List String → Except SchemaError (FieldOut × JSchema)

/-- Shape effect of spreading a compiled field with a `hideExpression`
key (`{ ...this._toFieldConfig(...), hideExpression: ... }`). -/
def markHide (f : FieldOut) : FieldOut :=
  .mk { f.sh with hasHideExpression := true }

/-- The discriminated-union test of lines 357-360: every `oneOf` member
of the schema dependency carries the trigger property as a constant. -/
def discOkCheck (key : String) (dep : JSchema) : Bool :=
  match dep.sh.oneOfL with
  | some lo => lo.all (fun o =>
      match o.sh.properties with
      | some ps =>
        match ps.lookup key with
        | some cs => isConstS cs
        | none => false
      | none => false)
  | none => false

/-- `const { [key]: constSchema, ...properties } = item.properties`
followed by `{ ...item, properties }`: the member without its
discriminator property. -/
def stripKey (key : String) (o : JSchema) : JSchema :=
  .mk { o.sh with
        properties := some ((o.sh.properties.getD []).filter
          (fun p => p.1 ≠ key)) }

/-- The `oneOfSchema.forEach` push loop of lines 361-367 (each stripped
member compiled with `autoClear: true` and marked with a
`hideExpression`). -/
def discItemsFold (recurAC : Recur) (key : String) (newPk : List String) :
    List JSchema → List FieldOut → Except SchemaError (List FieldOut)
  | [], acc => pure acc
  | o :: rest, acc => do
    let fr2 ← recurAC (stripKey key o) newPk
    discItemsFold recurAC key newPk rest (acc ++ [markHide fr2.1])

/-- Key and required-flag decoration of a compiled property (lines
337-343 inside the property loop). -/
def setKeyReq (requiredL : Option (List String)) (key : String)
    (f : FieldOut) : FieldOut :=
  let cf1 : FieldOut := .mk { f.sh with key := some key }
  let isReq := match requiredL with
    | some lr => lr.contains key
    | none => false
  if isReq then
    .mk { cf1.sh with
          tmplOpts := { cf1.sh.tmplOpts with required := some true } }
  else cf1

/-- The `Object.keys(schema.properties).forEach` loop of lines 336-376:
compile each property (recording its updated subtree), set its key and
required flag, then handle a schema dependency keyed by this property —
either the discriminated shortcut or a plain compiled dependency push
whose in-place subtree update lands back in the dependencies map. -/
def objPropsFold (recurS recurAC : Recur) (requiredL : Option (List String))
    (pk : List String) :
    List (String × JSchema) → ObjFoldSt → Except SchemaError ObjFoldSt
  | [], st => pure st
  | kv :: rest, st => do
    let key := kv.1
    let newPk := pk ++ [key]
    let frc ← recurS kv.2 newPk
    let cf2 : FieldOut := setKeyReq requiredL key frc.1
    let st1 : ObjFoldSt := { st with
      fields := st.fields ++ [cf2],
      props := st.props ++ [(key, frc.2)] }
    let st2 ←
      match st1.deps.lookup key with
      | none => pure st1
      | some dep =>
        if discOkCheck key dep then do
          let discFields ← discItemsFold recurAC key newPk
            (dep.sh.oneOfL.getD []) []
          pure { st1 with fields := st1.fields ++ discFields }
        else do
          let fr2 ← recurS dep newPk
          pure { st1 with
            fields := st1.fields ++ [markHide fr2.1],
            deps := st1.deps.map
              (fun p => if p.1 = key then (key, fr2.2) else p) }
    objPropsFold recurS recurAC requiredL pk rest st2

/-- Branch compilation of `resolveMultiSchema` (lines 574-605): each
branch compiled with `autoClear: true`, marked with a `hideExpression`,
collecting the updated branch subtrees. -/
def unionBranchesFold (recurAC : Recur) (pk : List String) :
    List JSchema → List FieldOut × List JSchema →
    Except SchemaError (List FieldOut × List JSchema)
  | [], acc => pure acc
  | b :: rest, acc => do
    let frb ← recurAC b pk
    unionBranchesFold recurAC pk rest (acc.1 ++ [markHide frb.1], acc.2 ++ [frb.2])

/-- The selector member of a union (lines 565-572): an enum over branch
indices labelled by branch titles, multiple for `anyOf`. -/
def selectorField (mode : UnionMode) (schemas : List JSchema) : FieldOut :=
  .mk
    { type_ := some (.tname "enum"),
      tmplOpts :=
        { multiple := some (mode = .anyOf),
          enumOptions := some (schemas.enum.map (fun p =>
            (JVal.num (p.1 : ℚ),
             match p.2.sh.base.title with
             | some t => JVal.str t
             | none => JVal.undef))) } }

/-- Source `resolveMultiSchema` (lines 556-609): the union field with its
selector and branch-group children, plus the updated branch subtrees. -/
def buildUnion (recurAC : Recur) (pk : List String) (mode : UnionMode)
    (schemas : List JSchema) :
    Except SchemaError (FieldOut × List JSchema) := do
  let br ← unionBranchesFold recurAC pk schemas ([], [])
  let branchesField : FieldOut := .mk { fieldGroup := some br.1 }
  let unionField : FieldOut := .mk
    { type_ := some (.tname "union"),
      fieldGroup := some [selectorField mode schemas, branchesField] }
  pure (unionField, br.2)

/-- Source `_toFieldConfig` (lines 247-507) with an explicit recursion
bound.  Besides the compiled field, the updated document node is
returned: the JS code mutates `schema.items` in place (line 426) and the
recursive calls mutate property/branch subtrees; those mutations land in
the caller's document only when the node was not replaced by `$ref` or
`allOf` resolution (a resolved node is a fresh spread copy, and the model
treats the copy as fully detached, so mutations under it are discarded —
in JS some of them would leak through shared sub-objects of the shallow
copy, but as proved below those writes are idempotent re-resolutions that
never change a later compile's output). -/
def compileField : Nat → CompileOptions → JSchema → List String →
    Except SchemaError (FieldOut × JSchema)
  | 0, _, _, _ => .error .outOfFuel
  | fuel + 1, opts, s, pk => do
    -- line 248: schema = this.resolveSchema(schema, options)
    let r ← resolveSchemaF (fuel + 1) s opts.rootDefs
    -- lines 250-263: base descriptor
    let f0 := mkBaseField opts r
    -- lines 265-459: the kind switch
    let fr ←
      match guessType r with
      | some (.tname "null") =>
        pure (addValidatorName f0 "null", r)
      | some (.tname "boolean") => do
        let lab ← segLabelE pk
        pure ((.mk { f0.sh with
          tmplOpts := { f0.sh.tmplOpts with label := lab, descr := r.sh.base.descr } } :
            FieldOut), r)
      | some (.tname "number") => do
        let f ← numberCase f0 r pk
        pure (f, r)
      | some (.tname "integer") => do
        let f ← numberCase f0 r pk
        pure (f, r)
      | some (.tname "string") => do
        let f ← stringCase f0 r pk
        pure (f, r)
      | some (.tname "array") => arrayCase fuel opts.rootDefs f0 r pk
      | some (.tname "object") => do
        let rdeps := resolveDependencies r
        let propDeps := rdeps.1
        -- `propDeps` feeds only `expressionProperties` (a predicate over
        -- sibling values, lines 345-349), which is not shape.
        let _ := propDeps
        if r.sh.properties.isNone && r.sh.oneOfL.isNone then
          -- lines 325-333: raw payload field, or the test override
          match opts.testSpec with
          | some t => pure (t, r)
          | none =>
            let fRaw : FieldOut := .mk
              { f0.sh with type_ := some (.tname "rawobject"),
                           fieldGroup := some [] }
            pure (fRaw, r)
        else do
          -- lines 336-376: property loop with dependency pushes
          let st ← objPropsFold
            (fun c p => compileField fuel opts c p)
            (fun c p => compileField fuel
              { opts with autoClearOpt := some true } c p)
            r.sh.base.requiredL pk (r.sh.properties.getD [])
            ({ deps := (resolveDependencies r).2 } : ObjFoldSt)
          -- lines 378-394: oneOf/anyOf unions via resolveMultiSchema
          let u1 ← match r.sh.oneOfL with
            | some lo => do
              let u ← buildUnion (fun c p => compileField fuel
                { opts with autoClearOpt := some true } c p) pk .oneOf lo
              pure ([u.1], some u.2)
            | none => pure (([], none) : List FieldOut × Option (List JSchema))
          let u2 ← match r.sh.anyOfL with
            | some la => do
              let u ← buildUnion (fun c p => compileField fuel
                { opts with autoClearOpt := some true } c p) pk .anyOf la
              pure ([u.1], some u.2)
            | none => pure (([], none) : List FieldOut × Option (List JSchema))
          let fObj : FieldOut := .mk { f0.sh with
            fieldGroup := some (st.fields ++ u1.1 ++ u2.1) }
          let rUpd : JSchema := .mk { r.sh with
            properties := match r.sh.properties with
              | some _ => some st.props
              | none => none,
            depsS := st.deps,
            oneOfL := match u1.2 with
              | some l => some l
              | none => r.sh.oneOfL,
            anyOfL := match u2.2 with
              | some l => some l
              | none => r.sh.anyOfL }
          pure (fObj, rUpd)
      | _ => pure (f0, r)
    -- lines 461-497: const, x-schema-form, enum-override blocks
    let f2 := applyConstBlock fr.2 fr.1
    let f3 := applyXsfBlock opts.exprCompiles fr.2 f2
    let f4 ← applyEnumBlock (fuel + 1) fr.2 f3
    -- the `widget.formlyConfig` reverse-merge (lines 500-502) and the
    -- `options.map` hook (line 506) are not modelled
    pure (f4, if s.sh.base.ref.isNone && s.sh.allOfL.isNone then fr.2 else s)

/-- The tail of `_toFieldConfig` shared by every switch arm (the
`const`, `x-schema-form` and enum blocks, lines 461-497, followed by the
in-place-update bookkeeping of the returned document node). -/
def postPipe (fuel : Nat) (opts : CompileOptions) (s : JSchema)
    (fr : FieldOut × JSchema) : Except SchemaError (FieldOut × JSchema) := do
  let f2 := applyConstBlock fr.2 fr.1
  let f3 := applyXsfBlock opts.exprCompiles fr.2 f2
  let f4 ← applyEnumBlock (fuel + 1) fr.2 f3
  pure (f4, if s.sh.base.ref.isNone && s.sh.allOfL.isNone then fr.2 else s)

/-- Assembly of the object case's result from the property-loop state
and the two union results (lines 380-394 and the update bookkeeping). -/
def objFinish (g : Nat) (opts : CompileOptions) (s r : JSchema)
    (st : ObjFoldSt) (u1 u2 : List FieldOut × Option (List JSchema)) :
    Except SchemaError (FieldOut × JSchema) :=
  postPipe g opts s
    ((.mk { (mkBaseField opts r).sh with
      fieldGroup := some (st.fields ++ u1.1 ++ u2.1) } : FieldOut),
     (.mk { r.sh with
       properties := match r.sh.properties with
         | some _ => some st.props
         | none => none,
       depsS := st.deps,
       oneOfL := match u1.2 with
         | some l => some l
         | none => r.sh.oneOfL,
       anyOfL := match u2.2 with
         | some l => some l
         | none => r.sh.anyOfL } : JSchema))

/-- The `anyOf` step of the object case (lines 388-394), continued by
the assembly. -/
def objAnyStep (g : Nat) (opts : CompileOptions) (s r : JSchema)
    (pk : List String) (st : ObjFoldSt)
    (u1 : List FieldOut × Option (List JSchema)) :
    Except SchemaError (FieldOut × JSchema) :=
  match r.sh.anyOfL with
  | some la => do
    let u ← buildUnion (fun c p => compileField g
      { opts with autoClearOpt := some true } c p) pk .anyOf la
    objFinish g opts s r st u1 ([u.1], some u.2)
  | none => objFinish g opts s r st u1 ([], none)

/-- The updated document node the object case writes back (the
`properties`/`dependencies`/`oneOf`/`anyOf` mutations of lines 366-393). -/
def objUpdate (s : JSchema) (st : ObjFoldSt)
    (u1 u2 : List FieldOut × Option (List JSchema)) : JSchema :=
  .mk { s.sh with
    properties := match s.sh.properties with
      | some _ => some st.props
      | none => none,
    depsS := st.deps,
    oneOfL := match u1.2 with
      | some l => some l
      | none => s.sh.oneOfL,
    anyOfL := match u2.2 with
      | some l => some l
      | none => s.sh.anyOfL }

/-- Source `toFieldConfig` (lines 241-245): seed the options with the
document itself as `$ref` root and start with an empty key path. -/
def toFieldConfigF (fuel : Nat) (ec : String → Bool) (ts : Option FieldOut)
    (schema : JSchema) : Except SchemaError (FieldOut × JSchema) :=
  compileField fuel
    { rootDefs := schema.sh.defs, autoClearOpt := none, exprCompiles := ec,
      testSpec := ts } schema []

/-- A concrete object document with one number property, used to witness
the recompilation fixpoint. -/
def c9Schema : JSchema :=
  .mk { base := { typ := some (.single "object") },
        properties := some [("num_key",
          .mk { base := { typ := some (.single "number") } })] }

/-- The compile result of the concrete document (descriptor and mutated
document). -/
def c9Result : FieldOut × JSchema :=
  match toFieldConfigF 2 (fun _ => false) none c9Schema with
  | .ok r => r
  | .error _ =>
    (mkBaseField { rootDefs := [], exprCompiles := fun _ => false } c9Schema,
     c9Schema)

/-!  Custom visibility conditions (`x-schema-form.condition.hideExpression`,
lines 477-490).

`new Function('model', 'localFields', 'field', src)` either yields a
callable or throws a SyntaxError at construction time; the outcome is
modelled as an `Option`-valued compilation result over the two model
arguments the wrapper forwards (the `field` argument is dropped from the
model).  The `try`/`catch` around it is the object of claim C7. -/

/-- Well-formedness of a document as a faithful image of JS objects: a
`dependencies` map cannot carry the same key twice (the model's assoc
lists could).  The condition is required hereditarily of every child
schema. -/
inductive WfD : JSchema → Prop where
  | mk : ∀ (s : SchemaShape JSchema),
      (s.depsS.map Prod.fst).Nodup →
      (∀ c ∈ s.oneOfL.getD [], WfD c) →
      (∀ c ∈ s.anyOfL.getD [], WfD c) →
      (∀ p ∈ s.properties.getD [], WfD p.2) →
      (∀ p ∈ s.depsS, WfD p.2) →
      WfD (.mk s)

/-- Property skeleton preservation: same key presence, same keys in
order, scalar keys of each property value preserved. -/
def PropsSkel (s t : JSchema) : Prop :=
  t.sh.properties.isNone = s.sh.properties.isNone ∧
  List.Forall₂ (fun p q : String × JSchema => p.1 = q.1 ∧ q.2.sh.base = p.2.sh.base)
    (s.sh.properties.getD []) (t.sh.properties.getD [])

/-- What the fixpoint argument needs of a recursive-compilation closure:
re-running it on its own updated schema reproduces the same field and
schema, the discriminated-union check is stable, and well-formedness is
preserved. -/
def RecurGood (rS : Recur) : Prop :=
  ∀ (s : JSchema) (p : List String) (f : FieldOut) (s' : JSchema),
    WfD s → rS s p = .ok (f, s') →
    rS s' p = .ok (f, s') ∧ (∀ k, discOkCheck k s' = discOkCheck k s) ∧ WfD s'

/-- How a dependency entry can differ between the start and the end of a
property loop: unchanged, or replaced once by its own compilation. -/
def depRel (rS : Recur) (pk : List String) :
    (String × JSchema) → (String × JSchema) → Prop :=
  fun p q => p.1 = q.1 ∧
    (q.2 = p.2 ∨
     (discOkCheck p.1 p.2 = false ∧
      ∃ f, rS p.2 (pk ++ [p.1]) = .ok (f, q.2)))

/-- How a produced property entry relates to the consumed one: same key,
value replaced by the compiled subtree. -/
def propRel (rS : Recur) (pk : List String) :
    (String × JSchema) → (String × JSchema) → Prop :=
  fun p q => p.1 = q.1 ∧ ∃ f, rS p.2 (pk ++ [p.1]) = .ok (f, q.2)

/-- Skeleton-preservation bundle of a recursive-compilation closure. -/
def RecurPres (r : Recur) : Prop :=
  ∀ (s : JSchema) (p : List String) (f : FieldOut) (s' : JSchema),
    WfD s → r s p = .ok (f, s') →
    s'.sh.base = s.sh.base ∧ PropsSkel s s'

/-- Outcome of one `oneOf`/`anyOf` step: either the keyword is absent,
or its branch list was compiled into a union result. -/
def UnionRes (rAC : Recur) (pk : List String) (mode : UnionMode)
    (o : Option (List JSchema))
    (U : List FieldOut × Option (List JSchema)) : Prop :=
  (o = none ∧ U = ([], none)) ∨
  (∃ lo u, o = some lo ∧ buildUnion rAC pk mode lo = .ok u ∧
    U = ([u.1], some u.2))

/-- A field as far as the condition block manipulates it: its structural
shape plus the optional visibility predicate slot
(`hideExpression(localModel, formState, field)`, modelled over
(local model, main model)). -/
structure CondField where
  shape : FieldOut
  hideExpr : Option (JVal → JVal → Bool)

/-- The `try { dynFunc = new Function(...); field.hideExpression = ... }
catch { console.warn(...) }` block: a failed compilation (outcome `none`)
leaves the field untouched and reports `true` in the warning flag; a
successful one installs the wrapper
`(model, formState, f) => dynFunc(formState.mainModel, model, f)`. -/
def applyHideCondition (outcome : Option (JVal → JVal → Bool))
    (f : CondField) : CondField × Bool :=
  match outcome with
  | none => (f, true)
  | some dynFunc =>
    ({ f with hideExpr := some (fun model mainModel => dynFunc mainModel model) },
     false)

/-- Formly visibility: a field with no `hideExpression` is always
visible; otherwise the predicate's negation decides (spec §3:
"absent means always visible"). -/
def condFieldVisible (f : CondField) (model mainModel : JVal) : Bool :=
  match f.hideExpr with
  | none => true
  | some h => !(h model mainModel)

/-!  Heap model for the config store (`ConfigStoreService`).

`setEditedConfigByName` / `setEditedClonedConfigByName` rely on lodash
`cloneDeep` to decouple the edited config from the store.  To make the
aliasing claim (C10) meaningful, JS objects are modelled with an explicit
heap: an address-indexed list of objects whose fields hold primitives or
references.  (JSON arrays are represented as objects as well; `cloneDeep`
treats both uniformly for the properties the claims touch.) -/

/-- Heap address. -/
abbrev Addr := Nat

/-- A heap value: a primitive, or a reference to a heap object. -/
inductive HVal where
  | vprim : JPrim → HVal
  | vref : Addr → HVal
deriving DecidableEq

/-- A heap object: ordered named fields. -/
abbrev HObj := List (String × HVal)

/-- The heap: object at address `i` is the `i`-th entry; allocation
appends. -/
abbrev Heap := List HObj

/-- JS `obj[k] = v`: overwrite an existing field in place or append a new
one. -/
def setObjField (o : HObj) (k : String) (v : HVal) : HObj :=
  if (o.lookup k).isSome then o.map (fun kv => if kv.1 = k then (k, v) else kv)
  else o ++ [(k, v)]

/-- A single mutation `heap[a][k] = v`; out-of-range addresses leave the
heap unchanged. -/
def setHeapField (h : Heap) (a : Addr) (k : String) (v : HVal) : Heap :=
  match h.get? a with
  | none => h
  | some o => h.set a (setObjField o k v)

/-- The value tree a heap value denotes, up to a depth bound; `dfail`
marks exhausted depth or a dangling reference. -/
inductive DTree where
  | dprim : JPrim → DTree
  | dobj : List (String × DTree) → DTree
  | dfail : DTree

/-- Read out the object graph below a value as a tree. -/
def denoteV : Nat → Heap → HVal → DTree
  | 0, _, _ => .dfail
  | fuel + 1, h, v =>
    match v with
    | .vprim p => .dprim p
    | .vref a =>
      match h.get? a with
      | none => .dfail
      | some o => .dobj (o.map (fun kv => (kv.1, denoteV fuel h kv.2)))

/-- lodash `cloneDeep`: primitives are returned as-is; an object is
cloned field by field (threading the heap through the fields) and the
copy is allocated fresh.  `none` on a dangling reference or exhausted
fuel. -/
def cloneVal : Nat → Heap → HVal → Option (Heap × HVal)
  | 0, _, _ => none
  | fuel + 1, h, v =>
    match v with
    | .vprim p => some (h, .vprim p)
    | .vref a =>
      match h.get? a with
      | none => none
      | some o => do
        let r ← o.foldlM
          (fun (acc : Heap × HObj) kv => do
            let hv ← cloneVal fuel acc.1 kv.2
            pure (hv.1, acc.2 ++ [(kv.1, hv.2)]))
          (h, ([] : HObj))
        pure (r.1 ++ [r.2], .vref r.1.length)

/-- Does the value stay inside the first `n` addresses? -/
def refBelowB (n : Nat) : HVal → Bool
  | .vprim _ => true
  | .vref a => decide (a < n)

/-- Well-formed heap: every stored reference points inside the heap. -/
def heapWFB (h : Heap) : Bool :=
  h.all (fun o => o.all (fun kv => refBelowB h.length kv.2))

/-- Is the value a primitive or a reference at address `≥ n`
(i.e. freshly allocated relative to a heap of former length `n`)? -/
def refAtLeastB (n : Nat) : HVal → Bool
  | .vprim _ => true
  | .vref a => decide (n ≤ a)

/-- Every object stored at address `≥ n` keeps its references at `≥ n`:
the freshly allocated clone region is closed in itself. -/
def regionClosedFrom (h : Heap) (n : Nat) : Prop :=
  ∀ i o, n ≤ i → h.get? i = some o → ∀ kv ∈ o, refAtLeastB n kv.2 = true

/-- Transitive reachability of an address from a value through the
heap. -/
inductive Reaches (h : Heap) : HVal → Addr → Prop where
  | here (a : Addr) : Reaches h (.vref a) a
  | step (a : Addr) (o : HObj) (k : String) (v : HVal) (b : Addr) :
      h.get? a = some o → (k, v) ∈ o → Reaches h v b → Reaches h (.vref a) b

/-- The full correctness bundle of a deep clone at a given recursion
budget: the heap only grows, stays well formed, the result is fresh,
in range, its fresh region is closed, primitives are returned as-is,
and the denotation is preserved at every depth within budget. -/
def CSpec (fuel : Nat) : Prop :=
  ∀ (h : Heap) (v : HVal) (h2 : Heap) (v2 : HVal),
    heapWFB h = true → refBelowB h.length v = true →
    cloneVal fuel h v = some (h2, v2) →
    (∃ ext, h2 = h ++ ext) ∧
    heapWFB h2 = true ∧
    refAtLeastB h.length v2 = true ∧
    refBelowB h2.length v2 = true ∧
    regionClosedFrom h2 h.length ∧
    (∀ p, v = .vprim p → v2 = .vprim p) ∧
    (∀ d, d ≤ fuel → denoteV d h2 v2 = denoteV d h v)

/-- Name lookup on a stored config
(`currentState.configs.find(x => x.name === configName)` reads the
`name` property). -/
def readName (h : Heap) (c : HVal) : Option String :=
  match c with
  | .vref a =>
    match h.get? a with
    | some o =>
      match o.lookup "name" with
      | some (.vprim (.str s)) => some s
      | _ => none
    | none => none
  | _ => none

/-- The configs slice of the store state. -/
structure StoreSt where
  heap : Heap
  configs : List HVal

/-- Source `getConfigByName` (lines 285-293): find the config by name and
return a deep clone of it (`none` models the thrown
`Error("no config with such name")` and clone failure). -/
def getConfigByName (fuel : Nat) (st : StoreSt) (nm : String) :
    Option (Heap × HVal) :=
  match st.configs.find? (fun c => readName st.heap c == some nm) with
  | none => none
  | some c => cloneVal fuel st.heap c

/-- Source `setEditedConfigByName` (lines 231-234): the edited config
becomes the deep clone; the configs list itself is not touched (the
heap only grows by the clone). -/
def setEditedConfigByName (fuel : Nat) (st : StoreSt) (nm : String) :
    Option (Heap × HVal) :=
  getConfigByName fuel st nm

/-- Source `setEditedClonedConfigByName` (lines 236-252): fetch a deep
clone, deep-clone its `configData` once more, overlay the UI-metadata
name/version keys via `Object.assign` into a fresh object, and build the
cloned wrapper literal (version 0, `isNew`, suffixed name, empty
`testCases`). -/
def setEditedClonedConfigByName (fuel : Nat) (st : StoreSt) (nm : String)
    (metaName metaVersion user : String) : Option (Heap × HVal) := do
  let hc ← getConfigByName fuel st nm
  let h1 := hc.1
  let a ← match hc.2 with | .vref a => some a | _ => none
  let o ← h1.get? a
  let cname ← readName h1 hc.2
  let cd := (o.lookup "configData").getD (.vprim .undef)
  let hcd ← cloneVal fuel h1 cd
  let h2 := hcd.1
  -- `Object.assign({}, cloneDeep(configData), overrides)`: fresh object
  -- with the clone's (shallowly shared) fields, then the two overrides
  let cdFields : HObj :=
    match hcd.2 with
    | .vref b => (h2.get? b).getD []
    | .vprim _ => []
  let assigned :=
    setObjField (setObjField cdFields metaName (.vprim (.str (cname ++ "_clone"))))
      metaVersion (.vprim (.num 0))
  let cdAddr := h2.length
  let h3 := h2 ++ [assigned]
  -- `testCases: []` — a fresh empty container
  let tcAddr := h3.length
  let h4 := h3 ++ [([] : HObj)]
  let clonedObj : HObj :=
    [("isNew", .vprim (.bool true)),
     ("configData", .vref cdAddr),
     ("savedInBackend", .vprim (.bool false)),
     ("name", .vprim (.str (cname ++ "_clone"))),
     ("author", .vprim (.str user)),
     ("version", .vprim (.num 0)),
     ("description", .vprim (.str ("cloned from " ++ cname))),
     ("testCases", .vref tcAddr)]
  pure (h4 ++ [clonedObj], .vref h4.length)

/-- A concrete two-object store: one config whose `configData` points at
a second heap object. -/
def c10Store : StoreSt :=
  { heap := [[("name", HVal.vprim (.str "cfg")),
              ("configData", HVal.vref 1)],
             [("x", HVal.vprim (.num 1))]],
    configs := [HVal.vref 0] }

/-- The edited slot produced by selecting the concrete config. -/
def c10Res : Heap × HVal :=
  (setEditedConfigByName 4 c10Store "cfg").getD
    (c10Store.heap, HVal.vprim .undef)

/-- Does the schema carry only numeric-bound keys (the `minimum`/`maximum`
families)?  Hypothesis of claim C2. -/
def boundOnlySchema (s : JSchema) : Bool :=
  s.sh.base.typ == none && s.sh.base.title == none && s.sh.base.descr == none &&
  s.sh.base.dflt == none && s.sh.base.readOnly == none &&
  s.sh.base.ref == none && s.sh.base.requiredL == none &&
  s.sh.base.enumL == none && s.sh.base.constV == none &&
  s.sh.base.multipleOf == none && s.sh.base.pattern == none &&
  s.sh.base.uniqueItems == none && s.sh.base.xsf == none &&
  s.sh.allOfL.isNone && s.sh.oneOfL.isNone && s.sh.anyOfL.isNone &&
  s.sh.properties.isNone && s.sh.items.isNone &&
  s.sh.depsP.isEmpty && s.sh.depsS.isEmpty && s.sh.defs.isEmpty

/-- Tighter bound for the `max` family: the minimum of both operands when
both are present, otherwise whichever is present. -/
def tightMax (b s : Option ℚ) : Option ℚ :=
  match b, s with
  | some bv, some sv => some (if bv < sv then bv else sv)
  | some bv, none => some bv
  | none, sv => sv

/-- Tighter bound for the `min` family: the maximum of both operands when
both are present, otherwise whichever is present. -/
def tightMin (b s : Option ℚ) : Option ℚ :=
  match b, s with
  | some bv, some sv => some (if bv > sv then bv else sv)
  | some bv, none => some bv
  | none, sv => sv

/-- The effective schema the spec predicts for `allOf:[A,B]` over
bound-only schemas: min-family keys take the tighter (larger) bound,
max-family keys the tighter (smaller) bound. -/
def tighterBounds (A B : JSchema) : JSchema :=
  .mk { base := {
    minimum := tightMin A.sh.base.minimum B.sh.base.minimum,
    exclusiveMinimum :=
      tightMin A.sh.base.exclusiveMinimum B.sh.base.exclusiveMinimum,
    minLength := tightMin A.sh.base.minLength B.sh.base.minLength,
    minItems := tightMin A.sh.base.minItems B.sh.base.minItems,
    minProperties := tightMin A.sh.base.minProperties B.sh.base.minProperties,
    maximum := tightMax A.sh.base.maximum B.sh.base.maximum,
    exclusiveMaximum :=
      tightMax A.sh.base.exclusiveMaximum B.sh.base.exclusiveMaximum,
    maxLength := tightMax A.sh.base.maxLength B.sh.base.maxLength,
    maxItems := tightMax A.sh.base.maxItems B.sh.base.maxItems,
    maxProperties :=
      tightMax A.sh.base.maxProperties B.sh.base.maxProperties } }

/-- The schema a `$ref` fragment pointer designates, when the reference
is local and the pointer resolves (`none` captures both a missing
fragment pointer and an unresolvable one). -/
def refPointerTarget (root : RootDefs) (r : String) : Option JSchema :=
  match (splitRef r).2 with
  | none => none
  | some "" => none
  | some p => resolvePointer root p

/-- Replace the three annotation keys of a node (used to state that a
chained `$ref` ignores the outer node's annotations). -/
def withAnnotations (s : JSchema) (t dsc : Option String) (df : Option JVal) :
    JSchema :=
  .mk { s.sh with base := { s.sh.base with title := t, descr := dsc, dflt := df } }

/-!  Theorems. -/

/-- Inserting into a ranked list never yields the empty list. -/
theorem insertRanked_ne_nil (x : FTree × Nat) (l : List (FTree × Nat)) :
    insertRanked x l ≠ [] := by
  cases l with
  | nil => simp [insertRanked]
  | cons y ys =>
    simp only [insertRanked]
    split <;> simp

/-- Head of one ranked insertion: the inserted element takes the head
exactly when it strictly beats the current head. -/
theorem insertRanked_headI (x : FTree × Nat) (l : List (FTree × Nat))
    (h : l ≠ []) :
    (insertRanked x l).headI =
      if totalMatchedFields x.1 > totalMatchedFields l.headI.1 then x
      else l.headI := by
  cases l with
  | nil => exact absurd rfl h
  | cons y ys =>
    by_cases hc : totalMatchedFields y.1 < totalMatchedFields x.1 <;>
      simp [insertRanked, List.headI, hc]

/-- Ranked-insertion folds preserve non-emptiness. -/
theorem foldl_insertRanked_ne_nil (cs : List (FTree × Nat))
    (acc : List (FTree × Nat)) (h : acc ≠ []) :
    cs.foldl (fun a x => insertRanked x a) acc ≠ [] := by
  induction cs generalizing acc with
  | nil => simpa using h
  | cons c cs ih => exact ih _ (insertRanked_ne_nil c acc)

/-- The head of the ranked-insertion fold is the running best element
(first maximum, since only a strictly greater count displaces the
head). -/
theorem foldl_insertRanked_headI (cs : List (FTree × Nat))
    (acc : List (FTree × Nat)) (h : acc ≠ []) :
    (cs.foldl (fun a x => insertRanked x a) acc).headI =
      cs.foldl
        (fun best x =>
          if totalMatchedFields x.1 > totalMatchedFields best.1 then x
          else best)
        acc.headI := by
  induction cs generalizing acc with
  | nil => rfl
  | cons c cs ih =>
    simp only [List.foldl_cons]
    rw [ih _ (insertRanked_ne_nil c acc), insertRanked_headI c acc h]

/-- The normalized scalar the selector initialization computes equals the
spec-side first-ranked branch. -/
theorem selectorInit_normalized (bs : List FTree) :
    (if selectorRanking bs = [] then 0 else (selectorRanking bs).headI) =
      specTopRankedBranch bs := by
  unfold selectorRanking rankSort specTopRankedBranch
  cases hc : (withIdx bs 0).filter (fun p => isFieldValid p.1) with
  | nil => simp
  | cons c cs =>
    have hne : (cs.foldl (fun a x => insertRanked x a) [c]) ≠ [] :=
      foldl_insertRanked_ne_nil cs [c] (by simp)
    have hstep : (c :: cs).foldl (fun a x => insertRanked x a) [] =
        cs.foldl (fun a x => insertRanked x a) [c] := rfl
    rw [hstep]
    obtain ⟨d, ds, hd⟩ := List.exists_cons_of_ne_nil hne
    have hhead := foldl_insertRanked_headI cs [c] (by simp)
    rw [hd] at hhead
    simp only [List.headI] at hhead
    rw [hd]
    simp only [List.map_cons, List.headI]
    simp only [if_neg (by simp : ¬((d.2 :: ds.map (fun p => p.2)) = []))]
    rw [hhead]

/-- The selector's formatted initial value, for both modes, wraps the
spec-side first-ranked branch. -/
theorem selectorInitValue_eq (mode : UnionMode) (bs : List FTree) :
    selectorInitValue mode bs =
      (match mode with
       | .oneOf => .single (specTopRankedBranch bs)
       | .anyOf => .multi [specTopRankedBranch bs]) := by
  cases mode with
  | oneOf =>
    show CtrlVal.single
        (if selectorRanking bs = [] then 0 else (selectorRanking bs).headI) =
      CtrlVal.single (specTopRankedBranch bs)
    rw [selectorInit_normalized]
  | anyOf =>
    show CtrlVal.multi
        [if selectorRanking bs = [] then 0 else (selectorRanking bs).headI] =
      CtrlVal.multi [specTopRankedBranch bs]
    rw [selectorInit_normalized]

/-- C1: on the first visibility evaluation of a `oneOf`/`anyOf` union
with an uninitialized selector, the initial value is the valid branch
with the most matched live-model leaf fields, ties resolved to the
earliest branch index, defaulting to branch 0 when no branch is valid;
in particular for branches compiled from `properties x,y,z` and
`properties x` over a live model defining `x` and `y` (fully valid
against branch 0) the selector initializes to branch 0. -/
theorem c1_union_selector_initialization :
    (∀ bs : List FTree,
      selectorInitValue .oneOf bs = .single (specTopRankedBranch bs)) ∧
    (∀ bs : List FTree,
      selectorInitValue .anyOf bs = .multi [specTopRankedBranch bs]) ∧
    selectorInitValue .oneOf
      [.node none true true (some [.node (some "x") true true none,
                                   .node (some "y") true true none,
                                   .node (some "z") true false none]),
       .node none true true (some [.node (some "x") true true none])]
      = .single 0 ∧
    specTopRankedBranch
      [.node none true true (some [.node (some "x") true true none,
                                   .node (some "y") true true none,
                                   .node (some "z") true false none]),
       .node none true true (some [.node (some "x") true true none])] = 0 := by
  refine ⟨fun bs => ?_, fun bs => ?_, by decide, by decide⟩
  · rw [selectorInitValue_eq]
  · rw [selectorInitValue_eq]

/-- C4: the union selector's initial value is computed only when the
selector has no value yet; once a value exists every evaluation returns
it unchanged and is independent of the branch data (no recomputation of
the ranking), and a branch is visible (not hidden) precisely when its
index is a member of a list-valued selector value or equal to a
scalar-valued one. -/
theorem c4_selector_memoization :
    (∀ (m : UnionMode) (bs : List FTree) (i : Nat),
      evalHideExpression m bs none i =
        (some (selectorInitValue m bs),
         branchHidden (selectorInitValue m bs) i)) ∧
    (∀ (m m' : UnionMode) (bs bs' : List FTree) (v : CtrlVal) (i : Nat),
      evalHideExpression m bs (some v) i = (some v, branchHidden v i) ∧
      evalHideExpression m bs (some v) i =
        evalHideExpression m' bs' (some v) i) ∧
    (∀ (l : List Nat) (i : Nat), (branchHidden (.multi l) i = false ↔ i ∈ l)) ∧
    (∀ (n i : Nat), (branchHidden (.single n) i = false ↔ n = i)) := by
  refine ⟨fun m bs i => rfl, fun m m' bs bs' v i => ⟨rfl, rfl⟩, ?_, ?_⟩
  · intro l i
    simp [branchHidden]
  · intro n i
    simp [branchHidden]

/-- C3's counterexample: the `const` validator and the `null` validator
reject empty values — `''` is an empty value yet `'' === 'a'` is false,
and `undefined` is an empty value yet `undefined === null` is false —
contradicting "every attached validator returns true for every empty or
absent value". -/
theorem c3_counterexample_const_empty :
    isEmptyVal (JVal.str "") = true ∧
    constValidator (JVal.str "a") (JVal.str "") = false ∧
    isEmptyVal JVal.undef = true ∧
    nullValidator JVal.undef = false := by
  decide

/-- C3 (amended): every `isEmpty`-guarded validator the compiler attaches
(exclusiveMinimum, exclusiveMaximum, multipleOf, minItems, maxItems,
uniqueItems) is vacuously true on every empty or absent value; the
`const` and `null` validators are bare strict-equality tests and reject
empty values that differ from the constant (resp. from `null`). -/
theorem c3_empty_value_validators (b₁ b₂ m n₁ n₂ : ℚ) (u : Bool) (v : JVal)
    (hv : isEmptyVal v = true) :
    exclusiveMinimumValidator b₁ v = true ∧
    exclusiveMaximumValidator b₂ v = true ∧
    multipleOfValidator m v = true ∧
    minItemsValidator n₁ v = true ∧
    maxItemsValidator n₂ v = true ∧
    uniqueItemsValidator u v = true ∧
    constValidator (JVal.str "a") (JVal.str "") = false ∧
    nullValidator JVal.undef = false ∧
    nullValidator (JVal.str "") = false := by
  refine ⟨?_, ?_, ?_, ?_, ?_, ?_, by decide, by decide, by decide⟩ <;>
    simp [exclusiveMinimumValidator, exclusiveMaximumValidator,
      multipleOfValidator, minItemsValidator, maxItemsValidator,
      uniqueItemsValidator, hv]

/-- Witness for the amended C3 theorem at the empty value `null` and
concrete constraint parameters. -/
theorem c3_empty_value_validators_witness :
    exclusiveMinimumValidator 1 JVal.null = true ∧
    exclusiveMaximumValidator 2 JVal.null = true ∧
    multipleOfValidator 3 JVal.null = true ∧
    minItemsValidator 4 JVal.null = true ∧
    maxItemsValidator 5 JVal.null = true ∧
    uniqueItemsValidator true JVal.null = true ∧
    constValidator (JVal.str "a") (JVal.str "") = false ∧
    nullValidator JVal.undef = false ∧
    nullValidator (JVal.str "") = false :=
  c3_empty_value_validators 1 2 3 4 5 true JVal.null (by decide)

/-- C7: a visibility-condition source whose compilation fails is caught —
the field is returned unchanged (in particular its visibility slot stays
absent, i.e. always visible), only a warning flag is raised, and no error
propagates; a successful compilation installs the wrapper that feeds the
main model and the local model to the compiled predicate. -/
theorem c7_condition_failure_neutralized :
    (∀ f : CondField, applyHideCondition none f = (f, true)) ∧
    (∀ (sh : FieldOut) (model mainModel : JVal),
      condFieldVisible ⟨sh, none⟩ model mainModel = true) ∧
    (∀ (p : JVal → JVal → Bool) (f : CondField),
      (applyHideCondition (some p) f).1.hideExpr =
        some (fun model mainModel => p mainModel model) ∧
      (applyHideCondition (some p) f).2 = false) :=
  ⟨fun _ => rfl, fun _ _ _ => rfl, fun _ _ => ⟨rfl, rfl⟩⟩


/-- Plain-schema resolution is the identity: without `$ref` and without
`allOf`, `resolveSchema` returns its argument. -/
theorem resolve_plain (fuel : Nat) (s : JSchema) (root : RootDefs)
    (h1 : s.sh.base.ref = none) (h2 : s.sh.allOfL = none) :
    resolveSchemaF (fuel + 1) s root = .ok s := by
  rw [resolveSchemaF]
  simp only [h1, Option.isSome_none, Bool.false_eq_true, if_false, pure_bind, h2]
  rfl

/-- Resolving `allOf:[A,B]` over plain members folds the two merge
steps from the empty destructured base. -/
theorem resolveSchemaF_allOf_pair (fuel : Nat) (root : RootDefs) (A B : JSchema)
    (hA1 : A.sh.base.ref = none) (hA2 : A.sh.allOfL = none)
    (hB1 : B.sh.base.ref = none) (hB2 : B.sh.allOfL = none) :
    resolveSchemaF (fuel + 2) (.mk { allOfL := some [A, B] }) root =
      .ok (mergeAllOfStep (fuel + 1)
            (mergeAllOfStep (fuel + 1) (.mk {}) A) B) := by
  have hA := resolve_plain fuel A root hA1 hA2
  have hB := resolve_plain fuel B root hB1 hB2
  rw [resolveSchemaF]
  simp only [JSchema.sh, Option.isSome_none, Bool.false_eq_true, if_false,
    List.isEmpty_cons, List.foldlM, hA, hB, pure_bind, Except.map_ok,
    Functor.map, Except.map, map_pure, bind_pure_comp, Except.bind]
  rfl

/-- Merging a bound-only schema over the empty base returns it
unchanged. -/
theorem mergeAllOfStep_empty (fuel : Nat) (A : JSchema)
    (hA : boundOnlySchema A = true) :
    mergeAllOfStep (fuel + 1) (.mk {}) A = A := by
  obtain ⟨⟨bt, btt, bd, bdf, bro, bre, brq, ben, bco, bmin, bmax, bemin, bemax,
    bmo, bminl, bmaxl, bmini, bmaxi, bminp, bmaxp, bpa, bun, bxs⟩,
    aao, aoo, ayo, apr, ait, adp, ads, adfs⟩ := A
  simp only [boundOnlySchema, Bool.and_eq_true, beq_iff_eq,
    Option.isNone_iff_eq_none, List.isEmpty_iff, JSchema.sh, and_assoc] at hA
  obtain ⟨ht, htt, hd, hdf, hro, hre, hrq, hen, hco, hmo, hpa, hun, hxs,
    hao, hoo, hyo, hpr, hit, hdp, hds, hdfs⟩ := hA
  subst_vars
  rfl

/-- Tightening followed by reverse-merge fill equals the two-sided
tighter-bound combination (min family). -/
theorem fillFrom_tightenMin (x y : Option ℚ) :
    fillFrom (tightenMin x y) y = tightMin x y := by
  cases x <;> cases y <;> rfl

/-- Tightening followed by reverse-merge fill equals the two-sided
tighter-bound combination (max family). -/
theorem fillFrom_tightenMax (x y : Option ℚ) :
    fillFrom (tightenMax x y) y = tightMax x y := by
  cases x <;> cases y <;> rfl

/-- One `allOf` fold step over bound-only schemas computes exactly the
tighter-bound combination on every numeric-bound key. -/
theorem mergeAllOfStep_boundOnly (fuel : Nat) (A B : JSchema)
    (hA : boundOnlySchema A = true) (hB : boundOnlySchema B = true) :
    mergeAllOfStep (fuel + 1) A B = tighterBounds A B := by
  obtain ⟨⟨bt, btt, bd, bdf, bro, bre, brq, ben, bco, bmin, bmax, bemin, bemax,
    bmo, bminl, bmaxl, bmini, bmaxi, bminp, bmaxp, bpa, bun, bxs⟩,
    aao, aoo, ayo, apr, ait, adp, ads, adfs⟩ := A
  obtain ⟨⟨ct, ctt, cd, cdf, cro, cre, crq, cen, cco, cmin, cmax, cemin, cemax,
    cmo, cminl, cmaxl, cmini, cmaxi, cminp, cmaxp, cpa, cun, cxs⟩,
    cao, coo, cyo, cpr, cit, cdp, cds, cdfs⟩ := B
  simp only [boundOnlySchema, Bool.and_eq_true, beq_iff_eq,
    Option.isNone_iff_eq_none, List.isEmpty_iff, JSchema.sh, and_assoc] at hA hB
  obtain ⟨ht, htt, hd, hdf, hro, hre, hrq, hen, hco, hmo, hpa, hun, hxs,
    hao, hoo, hyo, hpr, hit, hdp, hds, hdfs⟩ := hA
  obtain ⟨gt, gtt, gd, gdf, gro, gre, grq, gen, gco, gmo, gpa, gun, gxs,
    gao, goo, gyo, gpr, git, gdp, gds, gdfs⟩ := hB
  subst_vars
  simp only [mergeAllOfStep, reverseDeepMergeSchema, tighterBounds, JSchema.sh,
    fillFrom_tightenMin, fillFrom_tightenMax]
  rfl

/-- The min-family tighter bound is commutative. -/
theorem tightMin_comm (x y : Option ℚ) : tightMin x y = tightMin y x := by
  rcases x with _ | xv <;> rcases y with _ | yv <;> simp [tightMin]
  rcases lt_trichotomy xv yv with h | h | h
  · simp [h, not_lt_of_gt h, le_of_lt h]
  · simp [h]
  · simp [h, not_lt_of_gt h, le_of_lt h]

/-- The max-family tighter bound is commutative. -/
theorem tightMax_comm (x y : Option ℚ) : tightMax x y = tightMax y x := by
  rcases x with _ | xv <;> rcases y with _ | yv <;> simp [tightMax]
  rcases lt_trichotomy xv yv with h | h | h
  · simp [h, not_lt_of_gt h, le_of_lt h]
  · simp [h]
  · simp [h, not_lt_of_gt h, le_of_lt h]

/-- The predicted effective bounds are symmetric in the operands. -/
theorem tighterBounds_comm (A B : JSchema) :
    tighterBounds A B = tighterBounds B A := by
  simp only [tighterBounds, tightMin_comm, tightMax_comm]

/-- Bound-only schemas are plain (no ref, no allOf). -/
theorem boundOnly_ref_allOf (A : JSchema) (h : boundOnlySchema A = true) :
    A.sh.base.ref = none ∧ A.sh.allOfL = none := by
  simp only [boundOnlySchema, Bool.and_eq_true, beq_iff_eq,
    Option.isNone_iff_eq_none, List.isEmpty_iff, and_assoc] at h
  exact ⟨h.2.2.2.2.2.1, h.2.2.2.2.2.2.2.2.2.2.2.2.2.1⟩

/-- C2: for bound-only schemas A and B, resolving `allOf:[A,B]` and
`allOf:[B,A]` yields the same effective bounds — min-family keys take the
maximum of the operands, max-family keys the minimum (most restrictive
wins). -/
theorem c2_allOf_bound_tightening_commutes (fuel : Nat) (root : RootDefs)
    (A B : JSchema)
    (hA : boundOnlySchema A = true) (hB : boundOnlySchema B = true) :
    resolveSchemaF (fuel + 2) (.mk { allOfL := some [A, B] }) root =
      .ok (tighterBounds A B) ∧
    resolveSchemaF (fuel + 2) (.mk { allOfL := some [B, A] }) root =
      .ok (tighterBounds B A) ∧
    tighterBounds A B = tighterBounds B A ∧
    (∀ a b : ℚ, tightMin (some a) (some b) = some (max a b)) ∧
    (∀ a b : ℚ, tightMax (some a) (some b) = some (min a b)) := by
  obtain ⟨hAr, hAa⟩ := boundOnly_ref_allOf A hA
  obtain ⟨hBr, hBa⟩ := boundOnly_ref_allOf B hB
  refine ⟨?_, ?_, tighterBounds_comm A B, ?_, ?_⟩
  · rw [resolveSchemaF_allOf_pair fuel root A B hAr hAa hBr hBa,
      mergeAllOfStep_empty fuel A hA, mergeAllOfStep_boundOnly fuel A B hA hB]
  · rw [resolveSchemaF_allOf_pair fuel root B A hBr hBa hAr hAa,
      mergeAllOfStep_empty fuel B hB, mergeAllOfStep_boundOnly fuel B A hB hA]
  · intro a b
    rcases le_or_lt a b with h | h
    · simp [tightMin, max_eq_right h, not_lt_of_ge h]
    · simp [tightMin, max_eq_left (le_of_lt h), h]
  · intro a b
    rcases le_or_lt a b with h | h
    · by_cases he : a = b
      · simp [tightMax, he]
      · simp [tightMax, lt_of_le_of_ne h he, min_eq_left h]
    · simp [tightMax, min_eq_right (le_of_lt h), not_lt_of_gt h]

/-- Witness for C2 at the spec's concrete instance: merging
`minimum 1` and `minimum 5` in either order yields effective
`minimum = 5`. -/
theorem c2_allOf_bound_tightening_commutes_witness :
    resolveSchemaF 2
      (.mk { allOfL := some [.mk { base := { minimum := some 1 } },
                             .mk { base := { minimum := some 5 } }] }) [] =
      .ok (tighterBounds (.mk { base := { minimum := some 1 } })
            (.mk { base := { minimum := some 5 } })) ∧
    resolveSchemaF 2
      (.mk { allOfL := some [.mk { base := { minimum := some 5 } },
                             .mk { base := { minimum := some 1 } }] }) [] =
      .ok (tighterBounds (.mk { base := { minimum := some 5 } })
            (.mk { base := { minimum := some 1 } })) ∧
    (tighterBounds (.mk { base := { minimum := some 1 } })
      (.mk { base := { minimum := some 5 } })).sh.base.minimum = some 5 ∧
    (tighterBounds (.mk { base := { minimum := some 5 } })
      (.mk { base := { minimum := some 1 } })).sh.base.minimum = some 5 := by
  have h := c2_allOf_bound_tightening_commutes 0 []
    (.mk { base := { minimum := some 1 } })
    (.mk { base := { minimum := some 5 } }) (by decide) (by decide)
  have h2 := c2_allOf_bound_tightening_commutes 0 []
    (.mk { base := { minimum := some 5 } })
    (.mk { base := { minimum := some 1 } }) (by decide) (by decide)
  exact ⟨h.1, h2.1, by decide, by decide⟩

/-- Characterization of one `resolveDefinition` step on a node carrying a
`$ref`. -/
theorem resolveDefinitionF_char (fuel : Nat) (s : JSchema) (root : RootDefs)
    (r : String) (h : s.sh.base.ref = some r) :
    resolveDefinitionF (fuel + 1) s root =
      (if (splitRef r).1 = "" then
        (match refPointerTarget root r with
         | none => .error (.unresolvedReference r)
         | some d =>
           if d.sh.base.ref.isSome then resolveDefinitionF fuel d root
           else .ok (applyAnnotations s d))
      else .error (.unsupportedReference r)) := by
  rw [resolveDefinitionF]
  simp only [h, Option.getD_some]
  by_cases hu : (splitRef r).1 = ""
  · simp only [hu, ne_eq, not_true_eq_false, if_false, if_pos rfl, ite_not]
    rcases hp : (splitRef r).2 with _ | p
    · simp [refPointerTarget, hp]
    · by_cases hpe : p = "" <;> simp [refPointerTarget, hp, hpe]
  · simp [hu]


/-- Bind of a successful `Except` computation. -/
theorem okBind {ε α β : Type} (a : α) (f : α → Except ε β) :
    (do let y ← (Except.ok a : Except ε α); f y) = f a := rfl

/-- Annotation override never touches the target's `$ref`. -/
theorem applyAnnotations_ref (s d : JSchema) :
    (applyAnnotations s d).sh.base.ref = d.sh.base.ref := rfl

/-- Annotation override never touches the target's `allOf`. -/
theorem applyAnnotations_allOf (s d : JSchema) :
    (applyAnnotations s d).sh.allOfL = d.sh.allOfL := rfl

/-- The `allOf` fold succeeds over plain members and computes the plain
merge fold. -/
theorem allOf_fold_ok (fuel : Nat) (root : RootDefs) (l : List JSchema)
    (hm : ∀ m ∈ l, m.sh.base.ref = none ∧ m.sh.allOfL = none) (b : JSchema) :
    List.foldlM
      (fun b m => do
        let r ← resolveSchemaF (fuel + 1) m root
        pure (mergeAllOfStep (fuel + 1) b r)) b l =
    .ok (l.foldl (fun b m => mergeAllOfStep (fuel + 1) b m) b) := by
  induction l generalizing b with
  | nil => rfl
  | cons m ms ih =>
    have hp := hm m (List.mem_cons_self m ms)
    simp only [List.foldlM, List.foldl_cons,
      resolve_plain fuel m root hp.1 hp.2, pure_bind]
    exact ih (fun x hx => hm x (List.mem_cons_of_mem m hx)) _

/-- C6: compilation fails fatally exactly on the three schema authoring
defects — a present but empty `allOf` (EmptyCompositionError), a `$ref`
with a non-empty remote part (UnsupportedReferenceError), and a local
`$ref` whose fragment pointer does not resolve (UnresolvedReferenceError);
absent those defects, resolution of a reference or of a non-empty `allOf`
over plain members succeeds. -/
theorem c6_fatal_schema_errors :
    (∀ (fuel : Nat) (s : JSchema) (root : RootDefs),
      s.sh.base.ref = none → s.sh.allOfL = some [] →
      resolveSchemaF (fuel + 1) s root = .error .emptyComposition) ∧
    (∀ (fuel : Nat) (s : JSchema) (root : RootDefs) (r : String),
      s.sh.base.ref = some r → ¬((splitRef r).1 = "") →
      resolveSchemaF (fuel + 1) s root = .error (.unsupportedReference r)) ∧
    (∀ (fuel : Nat) (s : JSchema) (root : RootDefs) (r : String),
      s.sh.base.ref = some r → (splitRef r).1 = "" →
      refPointerTarget root r = none →
      resolveSchemaF (fuel + 1) s root = .error (.unresolvedReference r)) ∧
    (∀ (fuel : Nat) (s : JSchema) (root : RootDefs) (r : String) (d : JSchema),
      s.sh.base.ref = some r → (splitRef r).1 = "" →
      refPointerTarget root r = some d → d.sh.base.ref = none →
      d.sh.allOfL = none →
      resolveSchemaF (fuel + 1) s root = .ok (applyAnnotations s d)) ∧
    (∀ (fuel : Nat) (s : JSchema) (root : RootDefs) (l : List JSchema),
      s.sh.base.ref = none → s.sh.allOfL = some l → ¬(l = []) →
      (∀ m ∈ l, m.sh.base.ref = none ∧ m.sh.allOfL = none) →
      resolveSchemaF (fuel + 2) s root =
        .ok (l.foldl (fun b m => mergeAllOfStep (fuel + 1) b m)
              (.mk { s.sh with allOfL := none }))) := by
  refine ⟨?_, ?_, ?_, ?_, ?_⟩
  · intro fuel s root h1 h2
    rw [resolveSchemaF]
    simp [h1, h2]
  · intro fuel s root r h hu
    rw [resolveSchemaF]
    simp only [h, Option.isSome_some, if_true, if_pos rfl,
      resolveDefinitionF_char fuel s root r h, if_neg hu]
    rfl
  · intro fuel s root r h hu hn
    rw [resolveSchemaF]
    simp only [h, Option.isSome_some, if_true, if_pos rfl,
      resolveDefinitionF_char fuel s root r h, if_pos hu, hn]
    rfl
  · intro fuel s root r d h hu ht hdr hda
    rw [resolveSchemaF]
    simp only [h, Option.isSome_some, if_true, if_pos rfl,
      resolveDefinitionF_char fuel s root r h, if_pos hu, ht, hdr,
      Option.isSome_none, Bool.false_eq_true, if_false, okBind,
      applyAnnotations_allOf, hda]
    rfl
  · intro fuel s root l h1 h2 hne hm
    rw [resolveSchemaF]
    simp only [h1, Option.isSome_none, Bool.false_eq_true, if_false, pure_bind,
      h2, allOf_fold_ok fuel root l hm]
    simp [List.isEmpty_iff, hne]


/-- Replacing annotations never touches the node's `$ref`. -/
theorem withAnnotations_ref (s : JSchema) (t dsc : Option String) (df : Option JVal) :
    (withAnnotations s t dsc df).sh.base.ref = s.sh.base.ref := rfl

/-- C5 (amended): when a `$ref` resolves in one step (the target carries
no further `$ref`), the result is the target with `title`, `description`
and `default` present on the referencing node overriding the target's;
but when the target itself carries `$ref`, resolution recurses on the
target directly and the outer node's annotations are discarded — the
result is independent of them. -/
theorem c5_ref_annotation_override :
    (∀ (fuel : Nat) (s : JSchema) (root : RootDefs) (r : String) (d : JSchema),
      s.sh.base.ref = some r → (splitRef r).1 = "" →
      refPointerTarget root r = some d → d.sh.base.ref = none →
      resolveDefinitionF (fuel + 1) s root = .ok (applyAnnotations s d)) ∧
    (∀ s d : JSchema,
      applyAnnotations s d =
        .mk { d.sh with base := { d.sh.base with
          title := fillFrom s.sh.base.title d.sh.base.title,
          descr := fillFrom s.sh.base.descr d.sh.base.descr,
          dflt := fillFrom s.sh.base.dflt d.sh.base.dflt } }) ∧
    (∀ (fuel : Nat) (s : JSchema) (root : RootDefs) (r : String) (d : JSchema),
      s.sh.base.ref = some r → (splitRef r).1 = "" →
      refPointerTarget root r = some d → d.sh.base.ref.isSome = true →
      resolveDefinitionF (fuel + 1) s root = resolveDefinitionF fuel d root) ∧
    (∀ (fuel : Nat) (s : JSchema) (root : RootDefs) (r : String) (d : JSchema)
       (t dsc : Option String) (df : Option JVal),
      s.sh.base.ref = some r → (splitRef r).1 = "" →
      refPointerTarget root r = some d → d.sh.base.ref.isSome = true →
      resolveDefinitionF (fuel + 1) (withAnnotations s t dsc df) root =
        resolveDefinitionF (fuel + 1) s root) := by
  refine ⟨?_, fun s d => rfl, ?_, ?_⟩
  · intro fuel s root r d h hu ht hdr
    rw [resolveDefinitionF_char fuel s root r h]
    simp [hu, ht, hdr]
  · intro fuel s root r d h hu ht hds
    rw [resolveDefinitionF_char fuel s root r h]
    simp [hu, ht, hds]
  · intro fuel s root r d t dsc df h hu ht hds
    have h2 : (withAnnotations s t dsc df).sh.base.ref = some r := by
      rw [withAnnotations_ref, h]
    rw [resolveDefinitionF_char fuel _ root r h2,
      resolveDefinitionF_char fuel s root r h]
    simp [hu, ht, hds]

/-- C5's counterexample: across a `$ref` chain the outer node's
annotations do NOT override the final target — with outer title `OUTER`
and description `DOUT` referencing a middle node titled `MID` that
references a string node, the result carries `MID` and the inner
description, not the outer annotations the claim predicts. -/
theorem c5_counterexample_chain_annotations :
    resolveDefinitionF 5
      (.mk { base := { ref := some "#/definitions/a", title := some "OUTER",
                       descr := some "DOUT" } })
      [("definitions", .mk { defs := [
        ("a", .mk { base := { ref := some "#/definitions/b",
                              title := some "MID" } }),
        ("b", .mk { base := { typ := some (.single "string"),
                              title := some "INNER",
                              descr := some "DB" } })] })]
      = .ok (.mk { base := { typ := some (.single "string"),
                             title := some "MID", descr := some "DB" } }) ∧
    (some "MID" ≠ (some "OUTER" : Option String)) ∧
    (some "DB" ≠ (some "DOUT" : Option String)) := by
  refine ⟨by rfl, by decide, by decide⟩

/-- Witness for C6 at the spec's concrete instances: an empty `allOf`
throws, `#/definitions/missing` throws, a remote reference throws, and
the defect-free cases succeed. -/
theorem c6_fatal_schema_errors_witness :
    resolveSchemaF 1 (.mk { allOfL := some [] }) [] = .error .emptyComposition ∧
    resolveSchemaF 1
      (.mk { base := { ref := some "http://remote.example#/defs/a" } }) [] =
      .error (.unsupportedReference "http://remote.example#/defs/a") ∧
    resolveSchemaF 1
      (.mk { base := { ref := some "#/definitions/missing" } })
      [("definitions", .mk {})] =
      .error (.unresolvedReference "#/definitions/missing") ∧
    resolveSchemaF 1
      (.mk { base := { ref := some "#/definitions/a" } })
      [("definitions", .mk { defs :=
        [("a", .mk { base := { typ := some (.single "string") } })] })] =
      .ok (applyAnnotations (.mk { base := { ref := some "#/definitions/a" } })
            (.mk { base := { typ := some (.single "string") } })) ∧
    resolveSchemaF 2
      (.mk { allOfL := some [.mk { base := { minimum := some 1 } }] }) [] =
      .ok ([(.mk { base := { minimum := some 1 } } : JSchema)].foldl
            (fun b m => mergeAllOfStep 1 b m) (.mk {})) := by
  have h := c6_fatal_schema_errors
  refine ⟨h.1 0 _ [] rfl rfl, ?_, ?_, ?_, ?_⟩
  · exact h.2.1 0 _ [] "http://remote.example#/defs/a" rfl (by decide)
  · exact h.2.2.1 0 _ _ "#/definitions/missing" rfl (by decide) (by rfl)
  · exact h.2.2.2.1 0 _ _ "#/definitions/a" _ rfl (by decide) (by rfl) rfl rfl
  · exact h.2.2.2.2 0 _ [] _ rfl rfl (by simp)
      (by intro m hm; simp at hm; subst hm; exact ⟨rfl, rfl⟩)

/-- Witness for the amended C5 theorem at a concrete single-step
reference. -/
theorem c5_ref_annotation_override_witness :
    resolveDefinitionF 3
      (.mk { base := { ref := some "#/definitions/b", title := some "T0" } })
      [("definitions", .mk { defs :=
        [("b", .mk { base := { typ := some (.single "string"),
                               title := some "INNER" } })] })] =
      .ok (applyAnnotations
        (.mk { base := { ref := some "#/definitions/b", title := some "T0" } })
        (.mk { base := { typ := some (.single "string"),
                         title := some "INNER" } })) :=
  c5_ref_annotation_override.1 2 _ _ "#/definitions/b" _ rfl (by decide) (by rfl) rfl

theorem errBind {e : Type} {a b : Type} (er : e) (f : a → Except e b) :
    (do let y ← (Except.error er : Except e a); f y) = .error er := rfl

/-- Claim C8 counterexample: a number schema carrying title nice_title,
compiled at key path [foo_bar], gets the label Foo Bar derived from the key
segment; the title-derived label would have been Nice Title, so the title
does not take precedence as the claim states. -/
theorem c8_counterexample_title_ignored :
    (compileField 2
      { rootDefs := [], exprCompiles := fun _ => false }
      (.mk { base := { typ := some (.single "number"),
                       title := some "nice_title" } })
      ["foo_bar"]).map (fun p => p.1.sh.tmplOpts.label) = .ok "Foo Bar" ∧
    titleLabel (some "nice_title") = "Nice Title" ∧
    ("Foo Bar" : String) ≠ "Nice Title" := by
  refine ⟨by rfl, by rfl, by decide⟩

theorem applyConstBlock_label (r : JSchema) (f : FieldOut) :
    (applyConstBlock r f).sh.tmplOpts.label = f.sh.tmplOpts.label := by
  rcases hc : r.sh.base.constV with _ | c
  · simp [applyConstBlock, hc]
  · simp only [applyConstBlock, hc]
    split <;> rfl

theorem applyXsfBlock_tmplOpts (ec : String → Bool) (r : JSchema) (f : FieldOut) :
    (applyXsfBlock ec r f).sh.tmplOpts = f.sh.tmplOpts := by
  unfold applyXsfBlock
  rcases r.sh.base.xsf with _ | x
  · rfl
  · rcases x with ⟨xt, xw, xc⟩
    rcases xt with _ | t <;> rcases xw with _ | w <;> rcases xc with _ | c <;>
      first
        | rfl
        | (dsimp only []
           repeat' split <;> try rfl)

theorem applyEnumBlock_label (fuel : Nat) (r : JSchema) (f g : FieldOut)
    (h : applyEnumBlock fuel r f = .ok g) :
    g.sh.tmplOpts.label = f.sh.tmplOpts.label := by
  unfold applyEnumBlock at h
  split at h
  · split at h
    · exact absurd h (by simp)
    · cases h
      rfl
  · cases h
    rfl



theorem numberCase_label (f0 : FieldOut) (r : JSchema) (pk : List String)
    (seg : String) (hseg : pk.getLast? = some seg) (g : FieldOut)
    (h : numberCase f0 r pk = .ok g) :
    g.sh.tmplOpts.label = titleCase (underscoreToSpace seg) := by
  unfold numberCase segLabelE at h
  rw [hseg] at h
  simp only [okBind, pure_bind] at h
  rcases h1 : r.sh.base.minimum with _ | v1 <;>
    rcases h2 : r.sh.base.maximum with _ | v2 <;>
    rcases h3 : r.sh.base.exclusiveMinimum with _ | v3 <;>
    rcases h4 : r.sh.base.exclusiveMaximum with _ | v4 <;>
    rcases h5 : r.sh.base.multipleOf with _ | v5 <;>
    simp only [h1, h2, h3, h4, h5] at h <;> cases h <;> rfl

theorem stringCase_label (f0 : FieldOut) (r : JSchema) (pk : List String)
    (seg : String) (hseg : pk.getLast? = some seg) (g : FieldOut)
    (h : stringCase f0 r pk = .ok g) :
    g.sh.tmplOpts.label = (if seg = "-" then "" else titleCase (underscoreToSpace seg)) := by
  unfold stringCase at h
  rw [hseg] at h
  simp only [okBind, pure_bind] at h
  cases h
  rfl

theorem arrayBounds_label (f0 : FieldOut) (r : JSchema) (lab : String) :
    (arrayBounds f0 r lab).sh.tmplOpts.label = lab := by
  unfold arrayBounds
  rcases h1 : r.sh.base.minItems with _ | v1 <;>
    rcases h2 : r.sh.base.maxItems with _ | v2 <;>
    rcases h3 : r.sh.base.uniqueItems with _ | v3 <;>
    simp only [h1, h2, h3] <;> rfl

theorem arrayCase_label (fuel : Nat) (root : RootDefs) (f0 : FieldOut)
    (r : JSchema) (pk : List String) (seg : String)
    (hseg : pk.getLast? = some seg) (g : FieldOut) (s' : JSchema)
    (h : arrayCase fuel root f0 r pk = .ok (g, s')) :
    g.sh.tmplOpts.label = titleCase (underscoreToSpace seg) := by
  unfold arrayCase segLabelE at h
  rw [hseg] at h
  simp only [okBind, pure_bind] at h
  rcases hit : r.sh.items with _ | it <;> simp only [hit] at h
  · cases h
    exact arrayBounds_label f0 r _
  · rcases hres : resolveSchemaF fuel it root with e | it2 <;>
      simp only [hres, errBind, okBind] at h
    · exact (Except.noConfusion h)
    · cases h
      exact arrayBounds_label f0 r _



theorem post_label (fuel : Nat) (ec : String → Bool) (w : JSchema)
    (g : FieldOut) (E : JSchema) (f : FieldOut) (s' : JSchema)
    (h : (do
      let f4 ← applyEnumBlock fuel w (applyXsfBlock ec w (applyConstBlock w g))
      pure (f4, E) : Except SchemaError (FieldOut × JSchema)) = .ok (f, s')) :
    f.sh.tmplOpts.label = g.sh.tmplOpts.label := by
  rcases he : applyEnumBlock fuel w (applyXsfBlock ec w (applyConstBlock w g))
    with e | f4 <;> simp only [he, errBind, okBind, pure_bind] at h
  · exact (Except.noConfusion h)
  · cases h
    rw [applyEnumBlock_label fuel w _ _ he]
    rw [applyXsfBlock_tmplOpts ec w (applyConstBlock w g)]
    exact applyConstBlock_label w g

/-- Claim C8 (amended): for a schema with no local ref or allOf that
compiles successfully, the label of the resulting descriptor is: the
title-cased last key-path segment (underscores to spaces) for the boolean,
number, integer and array kinds, ignoring any title; the same for the string
kind except that the synthetic array-template segment yields the empty
label; and for the object kind (outside the test-specification hook) the
title-cased title, empty when the title is absent. -/
theorem c8_label_characterization (fuel : Nat) (opts : CompileOptions) (s : JSchema)
    (pk : List String) (seg : String) (f : FieldOut) (s' : JSchema)
    (href : s.sh.base.ref = none) (hallof : s.sh.allOfL = none)
    (hcomp : compileField (fuel + 1) opts s pk = .ok (f, s'))
    (hseg : pk.getLast? = some seg) :
    ((guessType s = some (.tname "boolean") ∨ guessType s = some (.tname "number") ∨
      guessType s = some (.tname "integer") ∨ guessType s = some (.tname "array")) →
      f.sh.tmplOpts.label = titleCase (underscoreToSpace seg)) ∧
    (guessType s = some (.tname "string") →
      f.sh.tmplOpts.label =
        (if seg = "-" then "" else titleCase (underscoreToSpace seg))) ∧
    (guessType s = some (.tname "object") → opts.testSpec = none →
      f.sh.tmplOpts.label = titleLabel s.sh.base.title) := by
  rw [compileField, resolve_plain fuel s opts.rootDefs href hallof] at hcomp
  simp only [okBind] at hcomp
  refine ⟨?_, ?_, ?_⟩
  · rintro (hg | hg | hg | hg) <;> simp only [hg] at hcomp
    · -- boolean
      unfold segLabelE at hcomp
      rw [hseg] at hcomp
      simp only [okBind, pure_bind] at hcomp
      exact post_label _ _ _ _ _ _ _ hcomp
    · rcases hnc : numberCase (mkBaseField opts s) s pk with e | g0 <;>
        simp only [hnc, errBind, okBind, pure_bind] at hcomp
      · exact (Except.noConfusion hcomp)
      · rw [post_label _ _ _ _ _ _ _ hcomp]
        exact numberCase_label _ _ _ _ hseg _ hnc
    · rcases hnc : numberCase (mkBaseField opts s) s pk with e | g0 <;>
        simp only [hnc, errBind, okBind, pure_bind] at hcomp
      · exact (Except.noConfusion hcomp)
      · rw [post_label _ _ _ _ _ _ _ hcomp]
        exact numberCase_label _ _ _ _ hseg _ hnc
    · rcases hac : arrayCase fuel opts.rootDefs (mkBaseField opts s) s pk
        with e | p <;> simp only [hac, errBind, okBind, pure_bind] at hcomp
      · exact (Except.noConfusion hcomp)
      · obtain ⟨g0, w⟩ := p
        rw [post_label _ _ _ _ _ _ _ hcomp]
        exact arrayCase_label _ _ _ _ _ _ hseg _ _ hac
  · intro hg
    simp only [hg] at hcomp
    rcases hsc : stringCase (mkBaseField opts s) s pk with e | g0 <;>
      simp only [hsc, errBind, okBind, pure_bind] at hcomp
    · exact (Except.noConfusion hcomp)
    · rw [post_label _ _ _ _ _ _ _ hcomp]
      exact stringCase_label _ _ _ _ hseg _ hsc
  · intro hg htest
    simp only [hg] at hcomp
    by_cases hraw : s.sh.properties.isNone && s.sh.oneOfL.isNone
    · simp only [hraw, if_true, htest, pure_bind] at hcomp
      rw [post_label _ _ _ _ _ _ _ hcomp]
      rfl
    · simp only [hraw, Bool.false_eq_true, if_false] at hcomp
      rcases hst : objPropsFold
          (fun c p => compileField fuel opts c p)
          (fun c p => compileField fuel
            { opts with autoClearOpt := some true } c p)
          s.sh.base.requiredL pk (s.sh.properties.getD [])
          { deps := (resolveDependencies s).2 }
        with e | st <;> simp only [hst, errBind, okBind] at hcomp
      · exact (Except.noConfusion hcomp)
      · rcases hone : s.sh.oneOfL with _ | lo <;> simp only [hone] at hcomp
        · rcases hany : s.sh.anyOfL with _ | la <;> simp only [hany, pure_bind] at hcomp
          · rw [post_label _ _ _ _ _ _ _ hcomp]
            rfl
          · rcases hu2 : buildUnion (fun c p => compileField fuel
                { opts with autoClearOpt := some true } c p) pk .anyOf la
              with e | u <;> simp only [hu2, errBind, okBind, pure_bind] at hcomp
            · exact (Except.noConfusion hcomp)
            · rw [post_label _ _ _ _ _ _ _ hcomp]
              rfl
        · rcases hu1 : buildUnion (fun c p => compileField fuel
              { opts with autoClearOpt := some true } c p) pk .oneOf lo
            with e | u <;> simp only [hu1, errBind, okBind, pure_bind] at hcomp
          · exact (Except.noConfusion hcomp)
          · rcases hany : s.sh.anyOfL with _ | la <;> simp only [hany, pure_bind] at hcomp
            · rw [post_label _ _ _ _ _ _ _ hcomp]
              rfl
            · rcases hu2 : buildUnion (fun c p => compileField fuel
                  { opts with autoClearOpt := some true } c p) pk .anyOf la
                with e | u2 <;> simp only [hu2, errBind, okBind, pure_bind] at hcomp
              · exact (Except.noConfusion hcomp)
              · rw [post_label _ _ _ _ _ _ _ hcomp]
                rfl



/-- Claim C8 witness: the concrete number schema compiles to a descriptor
whose label is the title-cased key segment. -/
theorem c8_label_characterization_witness :
    compileField 2 { rootDefs := [], exprCompiles := fun _ => false }
        (.mk { base := { typ := some (.single "number"), title := some "nice_title" } })
        ["foo_bar"]
      = .ok (.mk { type_ := some (.tname "number"),
                   tmplOpts := { label := "Foo Bar" }, autoClear := some true },
             .mk { base := { typ := some (.single "number"),
                             title := some "nice_title" } }) ∧
    (FieldOut.mk { type_ := some (.tname "number"),
                   tmplOpts := { label := "Foo Bar" },
                   autoClear := some true }).sh.tmplOpts.label
      = titleCase (underscoreToSpace "foo_bar") := by
  have hc : compileField 2 { rootDefs := [], exprCompiles := fun _ => false }
      (.mk { base := { typ := some (.single "number"), title := some "nice_title" } })
      ["foo_bar"]
    = .ok (.mk { type_ := some (.tname "number"),
                 tmplOpts := { label := "Foo Bar" }, autoClear := some true },
           .mk { base := { typ := some (.single "number"),
                           title := some "nice_title" } }) := by rfl
  exact ⟨hc, (c8_label_characterization 1 { rootDefs := [], exprCompiles := fun _ => false }
    (.mk { base := { typ := some (.single "number"), title := some "nice_title" } })
    ["foo_bar"] "foo_bar" _ _ rfl rfl hc rfl).1 (Or.inr (Or.inl rfl))⟩

/-!  Determinism of recompilation (claim C9).  The JS compiler mutates the
document (`schema.items`, dependency subtrees, union branches); a second
`toFieldConfig` invocation therefore runs on the updated document.  The
development below proves the update is a fixpoint: the second run returns
the same descriptor tree and leaves the document unchanged. -/

/-- Bind inversion for `Except`: a successful bind factors through a
successful first stage. -/
theorem bindOkInv {ε α β : Type} {m : Except ε α} {k : α → Except ε β}
    {b : β} (h : m >>= k = .ok b) : ∃ a, m = .ok a ∧ k a = .ok b := by
  cases m with
  | error e => exact absurd h (by simp [Bind.bind, Except.bind])
  | ok a => exact ⟨a, rfl, h⟩

theorem WfD.depsNodup {s : JSchema} (h : WfD s) :
    (s.sh.depsS.map Prod.fst).Nodup := by
  cases h; assumption

theorem WfD.oneOfMem {s : JSchema} (h : WfD s) :
    ∀ c ∈ s.sh.oneOfL.getD [], WfD c := by
  cases h; assumption

theorem WfD.anyOfMem {s : JSchema} (h : WfD s) :
    ∀ c ∈ s.sh.anyOfL.getD [], WfD c := by
  cases h; assumption

theorem WfD.propsMem {s : JSchema} (h : WfD s) :
    ∀ p ∈ s.sh.properties.getD [], WfD p.2 := by
  cases h; assumption

theorem WfD.depsMem {s : JSchema} (h : WfD s) :
    ∀ p ∈ s.sh.depsS, WfD p.2 := by
  cases h; assumption

/-- `resolveDefinition` never returns a node that still carries `$ref`
(a target with `$ref` is chased recursively). -/
theorem resolveDefinitionF_ref : ∀ (fuel : Nat) (s : JSchema) (root : RootDefs)
    (t : JSchema), resolveDefinitionF fuel s root = .ok t →
    t.sh.base.ref = none := by
  intro fuel
  induction fuel with
  | zero => intro s root t h; exact absurd h (by simp [resolveDefinitionF])
  | succ g ih =>
    intro s root t h
    rw [resolveDefinitionF] at h
    split at h
    · exact absurd h (by simp)
    · split at h
      · cases h
      · cases h
      · rename_i pointer hpz hptr
        rcases hdef : resolvePointer root pointer with _ | d
        · simp only [hdef] at h
          cases h
        · simp only [hdef] at h
          split at h
          · exact ih _ _ _ h
          · rename_i hnr
            cases h
            rw [applyAnnotations_ref]
            exact Option.not_isSome_iff_eq_none.mp hnr

/-- A merge step between two plain nodes (no `$ref`, no `allOf`) is
plain. -/
theorem mergeAllOfStep_plain (fuel : Nat) (b r : JSchema)
    (hbr : b.sh.base.ref = none) (hba : b.sh.allOfL = none)
    (hrr : r.sh.base.ref = none) (hra : r.sh.allOfL = none) :
    (mergeAllOfStep fuel b r).sh.base.ref = none ∧
    (mergeAllOfStep fuel b r).sh.allOfL = none := by
  cases fuel with
  | zero =>
    constructor
    · show b.sh.base.ref = none; exact hbr
    · show b.sh.allOfL = none; exact hba
  | succ g =>
    constructor
    · show fillFrom b.sh.base.ref r.sh.base.ref = none
      rw [hbr, hrr]; rfl
    · show fillFrom b.sh.allOfL r.sh.allOfL = none
      rw [hba, hra]; rfl

/-- The `allOf` reduction preserves plainness of the accumulator when
every member resolution is plain. -/
theorem allOfFold_plain (fuel : Nat) (root : RootDefs)
    (hm : ∀ m t, resolveSchemaF fuel m root = .ok t →
      t.sh.base.ref = none ∧ t.sh.allOfL = none) :
    ∀ (l : List JSchema) (b t : JSchema),
    b.sh.base.ref = none → b.sh.allOfL = none →
    l.foldlM (fun b m => do
      let r ← resolveSchemaF fuel m root
      pure (mergeAllOfStep fuel b r)) b = .ok t →
    t.sh.base.ref = none ∧ t.sh.allOfL = none := by
  intro l
  induction l with
  | nil =>
    intro b t hbr hba h
    cases h
    exact ⟨hbr, hba⟩
  | cons m rest ih =>
    intro b t hbr hba h
    rw [List.foldlM_cons] at h
    obtain ⟨b1, hb1, h2⟩ := bindOkInv h
    obtain ⟨r, hr, hpure⟩ := bindOkInv hb1
    cases hpure
    obtain ⟨hrr, hra⟩ := hm m r hr
    obtain ⟨h1, h2'⟩ := mergeAllOfStep_plain fuel b r hbr hba hrr hra
    exact ih _ _ h1 h2' h2

/-- `resolveSchema` output is plain: no `$ref` and no `allOf` remain. -/
theorem resolveSchemaF_plain : ∀ (fuel : Nat) (s : JSchema) (root : RootDefs)
    (t : JSchema), resolveSchemaF fuel s root = .ok t →
    t.sh.base.ref = none ∧ t.sh.allOfL = none := by
  intro fuel
  induction fuel with
  | zero => intro s root t h; exact absurd h (by simp [resolveSchemaF])
  | succ g ih =>
    intro s root t h
    rw [resolveSchemaF] at h
    rcases hrs : s.sh.base.ref.isSome with _ | _
    · simp only [hrs, Bool.false_eq_true, if_false, pure_bind] at h
      have hs1 : s.sh.base.ref = none :=
        Option.not_isSome_iff_eq_none.mp (by simp [hrs])
      split at h
      · rename_i heq
        cases h
        exact ⟨hs1, heq⟩
      · split at h
        · exact absurd h (by simp)
        · refine allOfFold_plain g root (fun m t => ih m root t) _ _ t ?_ ?_ h
          · exact hs1
          · rfl
    · simp only [hrs, if_true] at h
      obtain ⟨s1, h1, h2⟩ := bindOkInv h
      have hs1 : s1.sh.base.ref = none := resolveDefinitionF_ref _ _ _ _ h1
      split at h2
      · rename_i heq
        cases h2
        exact ⟨hs1, heq⟩
      · split at h2
        · exact absurd h2 (by simp)
        · refine allOfFold_plain g root (fun m t => ih m root t) _ _ t ?_ ?_ h2
          · exact hs1
          · rfl

/-- Resolution is idempotent: resolving an already-resolved node returns
it unchanged (its `$ref` and `allOf` are gone, so both branches of
`resolveSchema` are skipped). -/
theorem resolveSchemaF_idem (fuel : Nat) (s t : JSchema) (root : RootDefs)
    (h : resolveSchemaF fuel s root = .ok t) :
    resolveSchemaF fuel t root = .ok t := by
  cases fuel with
  | zero => exact absurd h (by simp [resolveSchemaF])
  | succ g =>
    obtain ⟨h1, h2⟩ := resolveSchemaF_plain _ _ _ _ h
    exact resolve_plain g t root h1 h2

/-- A successful association-list lookup locates a member pair. -/
theorem lookupMem {α : Type} : ∀ {l : List (String × α)} {k : String}
    {v : α}, l.lookup k = some v → (k, v) ∈ l := by
  intro l
  induction l with
  | nil => intro k v h; cases h
  | cons a t ih =>
    intro k v h
    rw [List.lookup] at h
    rcases hb : (k == a.1) with _ | _
    · rw [hb] at h
      exact List.mem_cons_of_mem a (ih h)
    · rw [hb] at h
      cases h
      have : k = a.1 := by simpa using hb
      subst this
      exact List.mem_cons_self _ _

/-- Keys are preserved along a pointwise key-respecting relation. -/
theorem forall₂_keys {α : Type} {R : (String × α) → (String × α) → Prop}
    (hk : ∀ p q, R p q → p.1 = q.1) :
    ∀ {l l' : List (String × α)}, List.Forall₂ R l l' →
    l.map Prod.fst = l'.map Prod.fst := by
  intro l l' h
  induction h with
  | nil => rfl
  | cons hpq _ ih => simp [List.map_cons, hk _ _ hpq, ih]

/-- Lookups align along a pointwise key-respecting relation. -/
theorem forall₂_lookup {α : Type} {R : (String × α) → (String × α) → Prop}
    (hk : ∀ p q, R p q → p.1 = q.1) :
    ∀ {l l' : List (String × α)}, List.Forall₂ R l l' → ∀ (k : String),
    (l.lookup k = none ∧ l'.lookup k = none) ∨
    (∃ v v', l.lookup k = some v ∧ l'.lookup k = some v' ∧ R (k, v) (k, v')) := by
  intro l l' h
  induction h with
  | nil => intro k; exact .inl ⟨rfl, rfl⟩
  | @cons p q t t' hpq _ ih =>
    intro k
    rcases hb : (k == p.1) with _ | _
    · have hb' : (k == q.1) = false := by
        rw [← hk _ _ hpq]; exact hb
      simpa [List.lookup, hb, hb'] using ih k
    · have hkp : k = p.1 := by simpa using hb
      have hb' : (k == q.1) = true := by
        rw [← hk _ _ hpq]; exact hb
      refine .inr ⟨p.2, q.2, ?_, ?_, ?_⟩
      · simp [List.lookup, hb]
      · simp [List.lookup, hb']
      · have h1 : (k, p.2) = p := by rw [hkp]
        have h2 : (k, q.2) = q := by rw [hkp, hk _ _ hpq]
        rw [h1, h2]
        exact hpq

/-- `all` is transported along a pointwise relation that makes the two
predicates agree. -/
theorem forall₂_all {α : Type} {R : α → α → Prop} {f g : α → Bool}
    (hfg : ∀ p q, R p q → f p = g q) :
    ∀ {l l' : List α}, List.Forall₂ R l l' → l.all f = l'.all g := by
  intro l l' h
  induction h with
  | nil => rfl
  | cons hpq _ ih => simp only [List.all_cons, hfg _ _ hpq, ih]

/-- Mapping the in-place dependency assignment over a list without the
key leaves it unchanged. -/
theorem assign_nomem {α : Type} {k : String} {v : α} :
    ∀ {l : List (String × α)}, k ∉ l.map Prod.fst →
    (l.map fun p => if p.1 = k then (k, v) else p) = l := by
  intro l
  induction l with
  | nil => intro _; rfl
  | cons a t ih =>
    intro hm
    simp only [List.map_cons, List.mem_cons] at hm ⊢
    push_neg at hm
    rw [if_neg (fun he => hm.1 he.symm), ih hm.2]

/-- Assigning the value a unique key already holds is the identity. -/
theorem assign_self {α : Type} {k : String} {v : α} :
    ∀ {l : List (String × α)}, (l.map Prod.fst).Nodup →
    l.lookup k = some v →
    (l.map fun p => if p.1 = k then (k, v) else p) = l := by
  intro l
  induction l with
  | nil => intro _ h; cases h
  | cons a t ih =>
    obtain ⟨a1, a2⟩ := a
    intro hnd hlk
    rw [List.map_cons] at hnd
    rw [List.lookup] at hlk
    rcases hb : (k == a1) with _ | _
    · rw [hb] at hlk
      have hne : a1 ≠ k := fun he => by simp [he] at hb
      simp only [List.map_cons, if_neg hne]
      rw [ih (List.Nodup.of_cons hnd) hlk]
    · rw [hb] at hlk
      cases hlk
      have hak : k = a1 := by simpa using hb
      have hnt : k ∉ t.map Prod.fst := by
        rw [hak]
        exact (List.nodup_cons.mp hnd).1
      simp only [List.map_cons, if_pos hak.symm]
      rw [assign_nomem hnt, hak]

/-- The assignment keeps the key list. -/
theorem assign_keys {α : Type} (k : String) (v : α)
    (l : List (String × α)) :
    ((l.map fun p => if p.1 = k then (k, v) else p).map Prod.fst) =
      l.map Prod.fst := by
  induction l with
  | nil => rfl
  | cons a t ih =>
    simp only [List.map_cons, ih]
    by_cases ha : a.1 = k
    · simp [ha]
    · simp [ha]

/-- Lookup after the assignment finds the new value when the key was
present. -/
theorem assign_lookup {α : Type} {k : String} {v dep : α} :
    ∀ {l : List (String × α)}, l.lookup k = some dep →
    (l.map fun p => if p.1 = k then (k, v) else p).lookup k = some v := by
  intro l
  induction l with
  | nil => intro h; cases h
  | cons a t ih =>
    obtain ⟨a1, a2⟩ := a
    intro hlk
    rw [List.lookup] at hlk
    rcases hb : (k == a1) with _ | _
    · rw [hb] at hlk
      have hne : a1 ≠ k := fun he => by simp [he] at hb
      rw [List.map_cons, if_neg hne, List.lookup, hb]
      exact ih hlk
    · have hak : k = a1 := by simpa using hb
      rw [List.map_cons, if_pos hak.symm, List.lookup]
      simp

/-- Pointwise relation between the two runs at the position of an updated
dependency entry (everything else reflexive). -/
theorem forall₂_assign {α : Type} {R : (String × α) → (String × α) → Prop}
    {k : String} {v dep : α} (hrefl : ∀ p, R p p) :
    ∀ {l : List (String × α)}, (l.map Prod.fst).Nodup →
    l.lookup k = some dep → R (k, dep) (k, v) →
    List.Forall₂ R l (l.map fun p => if p.1 = k then (k, v) else p) := by
  intro l
  induction l with
  | nil => intro _ h _; cases h
  | cons a t ih =>
    obtain ⟨a1, a2⟩ := a
    intro hnd hlk hkv
    rw [List.map_cons] at hnd
    rw [List.lookup] at hlk
    rcases hb : (k == a1) with _ | _
    · rw [hb] at hlk
      have hne : a1 ≠ k := fun he => by simp [he] at hb
      rw [List.map_cons, if_neg hne]
      exact List.Forall₂.cons (hrefl _) (ih (List.Nodup.of_cons hnd) hlk hkv)
    · rw [hb] at hlk
      cases hlk
      have hak : k = a1 := by simpa using hb
      have hnt : k ∉ t.map Prod.fst := by
        rw [hak]
        exact (List.nodup_cons.mp hnd).1
      rw [List.map_cons, if_pos hak.symm, assign_nomem hnt]
      subst hak
      exact List.Forall₂.cons hkv (List.forall₂_same.mpr fun x _ => hrefl x)

/-- The selector options of a union read only the branch titles, which a
base-preserving branch update keeps. -/
theorem enumFrom_titles {bs bs' : List JSchema}
    (h : List.Forall₂ (fun b b' : JSchema => b'.sh.base = b.sh.base) bs bs') :
    ∀ n : Nat, (List.enumFrom n bs).map (fun p =>
        (JVal.num (p.1 : ℚ),
         match p.2.sh.base.title with
         | some t => JVal.str t
         | none => JVal.undef)) =
      (List.enumFrom n bs').map (fun p =>
        (JVal.num (p.1 : ℚ),
         match p.2.sh.base.title with
         | some t => JVal.str t
         | none => JVal.undef)) := by
  induction h with
  | nil => intro n; rfl
  | @cons p q t t' hpq _ ih =>
    intro n
    simp only [List.enumFrom, List.map_cons]
    rw [hpq]
    exact congrArg _ (ih (n + 1))

/-- The union selector field is unchanged by a base-preserving update of
the branch list. -/
theorem selectorField_congr (mode : UnionMode) {bs bs' : List JSchema}
    (h : List.Forall₂ (fun b b' : JSchema => b'.sh.base = b.sh.base) bs bs') :
    selectorField mode bs' = selectorField mode bs := by
  have hl : bs'.enum.map (fun p =>
      (JVal.num (p.1 : ℚ),
       match p.2.sh.base.title with
       | some t => JVal.str t
       | none => JVal.undef)) =
      bs.enum.map (fun p =>
      (JVal.num (p.1 : ℚ),
       match p.2.sh.base.title with
       | some t => JVal.str t
       | none => JVal.undef)) := (enumFrom_titles h 0).symm
  rw [selectorField, selectorField, hl]

/-- `isConst` reads only scalar keys. -/
theorem isConstS_congr {a b : JSchema} (h : b.sh.base = a.sh.base) :
    isConstS b = isConstS a := by
  rw [isConstS, isConstS, h]

/-- The discriminated-union check is stable under an update of the
dependency schema that keeps `oneOf` presence and each member's property
skeleton. -/
theorem discOkCheck_congr {dep dep' : JSchema} (k : String)
    (hpres : dep'.sh.oneOfL.isNone = dep.sh.oneOfL.isNone)
    (hmem : List.Forall₂ (fun o o' => PropsSkel o o')
      (dep.sh.oneOfL.getD []) (dep'.sh.oneOfL.getD [])) :
    discOkCheck k dep' = discOkCheck k dep := by
  rcases h1 : dep.sh.oneOfL with _ | lo
  · have h2 : dep'.sh.oneOfL = none := by
      rw [h1] at hpres
      simpa using hpres
    rw [discOkCheck, discOkCheck, h1, h2]
  · rcases h2 : dep'.sh.oneOfL with _ | lo2
    · rw [h1, h2] at hpres
      simp at hpres
    · rw [h1, h2] at hmem
      simp only [Option.getD_some] at hmem
      rw [discOkCheck, discOkCheck, h1, h2]
      show List.all lo2 _ = List.all lo _
      refine (forall₂_all ?_ hmem).symm
      intro o o2 ho
      obtain ⟨hp, hf⟩ := ho
      rcases hop : o.sh.properties with _ | ps
      · have hop2 : o2.sh.properties = none := by
          rw [hop] at hp
          simpa using hp
        simp only [hop, hop2]
      · rcases hop2 : o2.sh.properties with _ | ps2
        · rw [hop, hop2] at hp
          simp at hp
        · rw [hop, hop2] at hf
          simp only [Option.getD_some] at hf
          simp only [hop, hop2]
          rcases forall₂_lookup (fun p q hpq => hpq.1) hf k with
            ⟨hn1, hn2⟩ | ⟨cs, cs2, hs1, hs2, _, hbase⟩
          · simp only [hn1, hn2]
          · simp only [hs1, hs2]
            exact (isConstS_congr hbase).symm

theorem depRel_refl (rS : Recur) (pk : List String)
    (p : String × JSchema) : depRel rS pk p p := ⟨rfl, .inl rfl⟩

/-- Chained dependency updates collapse: a second compilation of an
already-updated entry reproduces it. -/
theorem depRel_trans {rS : Recur} {pk : List String} (hg : RecurGood rS)
    {p q r : String × JSchema} (hwf : WfD p.2)
    (h1 : depRel rS pk p q) (h2 : depRel rS pk q r) : depRel rS pk p r := by
  obtain ⟨k1, c1⟩ := h1
  obtain ⟨k2, c2⟩ := h2
  refine ⟨k1.trans k2, ?_⟩
  rcases c1 with hq | ⟨hd, f, hc⟩
  · rcases c2 with hr | ⟨hd2, f2, hc2⟩
    · exact .inl (hr.trans hq)
    · rw [hq, ← k1] at hd2 hc2
      exact .inr ⟨hd2, f2, hc2⟩
  · rcases c2 with hr | ⟨hd2, f2, hc2⟩
    · rw [hr]
      exact .inr ⟨hd, f, hc⟩
    · have hfix := (hg _ _ _ _ hwf hc).1
      rw [← k1] at hc2
      rw [hfix] at hc2
      have hp2 : (f, q.2) = (f2, r.2) := Except.ok.inj hc2
      have hqr : q.2 = r.2 := (Prod.mk.inj hp2).2
      rw [← hqr]
      exact .inr ⟨hd, f, hc⟩

/-- Pointwise composition of dependency-entry evolutions. -/
theorem forall₂_depRel_trans {rS : Recur} {pk : List String}
    (hg : RecurGood rS) :
    ∀ {a b c : List (String × JSchema)}, (∀ p ∈ a, WfD p.2) →
    List.Forall₂ (depRel rS pk) a b → List.Forall₂ (depRel rS pk) b c →
    List.Forall₂ (depRel rS pk) a c := by
  intro a
  induction a with
  | nil =>
    intro b c _ h1 h2
    cases h1
    cases h2
    exact .nil
  | cons x t ih =>
    intro b c hwf h1 h2
    cases h1 with
    | cons hxy h1t =>
      cases h2 with
      | cons hyz h2t =>
        exact .cons (depRel_trans hg (hwf x (List.mem_cons_self _ _)) hxy hyz)
          (ih (fun p hp => hwf p (List.mem_cons_of_mem _ hp)) h1t h2t)

/-- Suffix-extension is transitive. -/
theorem suffix_trans {α : Type} {a b c : List α}
    (h1 : ∃ e, c = b ++ e) (h2 : ∃ e, b = a ++ e) : ∃ e, c = a ++ e := by
  obtain ⟨e1, he1⟩ := h1
  obtain ⟨e2, he2⟩ := h2
  exact ⟨e2 ++ e1, by rw [he1, he2, List.append_assoc]⟩

/-- A double append is a suffix extension. -/
theorem suffix_of_append2 {α : Type} (a b c : List α) :
    ∃ e, (a ++ b) ++ c = a ++ e := ⟨b ++ c, by rw [List.append_assoc]⟩

/-- First-run characterization of the property loop: `fields` and
`props` grow by suffixes, each produced property entry is the compiled
consumed one, and each dependency entry is replaced at most once by its
own compilation (which later steps reproduce). -/
theorem objPropsFold_char (rS rAC : Recur) (req : Option (List String))
    (pk : List String) (hg : RecurGood rS) :
    ∀ (L : List (String × JSchema)) (st stF : ObjFoldSt),
    (∀ p ∈ L, WfD p.2) → (∀ p ∈ st.deps, WfD p.2) →
    (st.deps.map Prod.fst).Nodup →
    objPropsFold rS rAC req pk L st = .ok stF →
    (∃ ext, stF.fields = st.fields ++ ext) ∧
    (∃ P, stF.props = st.props ++ P ∧ List.Forall₂ (propRel rS pk) L P) ∧
    List.Forall₂ (depRel rS pk) st.deps stF.deps := by
  intro L
  induction L with
  | nil =>
    intro st stF _ _ _ h
    cases h
    exact ⟨⟨[], (List.append_nil _).symm⟩,
      ⟨[], (List.append_nil _).symm, .nil⟩,
      List.forall₂_same.mpr fun p _ => depRel_refl rS pk p⟩
  | cons kv rest ih =>
    intro st stF hLwf hDwf hnd h
    rw [objPropsFold.eq_2] at h
    obtain ⟨frc, hfrc, h2⟩ := bindOkInv h
    have hLwf2 : ∀ p ∈ rest, WfD p.2 :=
      fun p hp => hLwf p (List.mem_cons_of_mem _ hp)
    have h2r : (match List.lookup kv.1 st.deps with
        | none => objPropsFold rS rAC req pk rest
            { fields := st.fields ++ [setKeyReq req kv.1 frc.1],
              props := st.props ++ [(kv.1, frc.2)], deps := st.deps }
        | some dep =>
          if discOkCheck kv.1 dep then do
            let dfs ← discItemsFold rAC kv.1 (pk ++ [kv.1])
              (dep.sh.oneOfL.getD []) []
            objPropsFold rS rAC req pk rest
              { fields := (st.fields ++ [setKeyReq req kv.1 frc.1]) ++ dfs,
                props := st.props ++ [(kv.1, frc.2)], deps := st.deps }
          else do
            let fr2 ← rS dep (pk ++ [kv.1])
            objPropsFold rS rAC req pk rest
              { fields := (st.fields ++ [setKeyReq req kv.1 frc.1]) ++ [markHide fr2.1],
                props := st.props ++ [(kv.1, frc.2)],
                deps := List.map
                  (fun p : String × JSchema =>
                    if p.1 = kv.1 then (kv.1, fr2.2) else p)
                  st.deps }) = .ok stF := h2
    clear h2 h
    split at h2r
    · rename_i heq
      obtain ⟨hfields, ⟨P, hP, hF⟩, hdeps⟩ :=
        ih { fields := st.fields ++ [setKeyReq req kv.1 frc.1],
             props := st.props ++ [(kv.1, frc.2)], deps := st.deps }
          stF hLwf2 hDwf hnd h2r
      refine ⟨suffix_trans hfields ⟨_, rfl⟩,
        ⟨(kv.1, frc.2) :: P,
         hP.trans (List.append_assoc st.props [(kv.1, frc.2)] P),
         .cons ⟨rfl, frc.1, hfrc⟩ hF⟩,
        hdeps⟩
    · rename_i dep heq
      have hlk : List.lookup kv.1 st.deps = some dep := heq
      have hwfdep : WfD dep := hDwf _ (lookupMem hlk)
      split at h2r
      · rename_i hdisc
        obtain ⟨dfs, hdfs, h3⟩ := bindOkInv h2r
        obtain ⟨hfields, ⟨P, hP, hF⟩, hdeps⟩ :=
          ih { fields := (st.fields ++ [setKeyReq req kv.1 frc.1]) ++ dfs,
               props := st.props ++ [(kv.1, frc.2)], deps := st.deps }
            stF hLwf2 hDwf hnd h3
        refine ⟨suffix_trans hfields (suffix_of_append2 st.fields _ dfs),
          ⟨(kv.1, frc.2) :: P,
           hP.trans (List.append_assoc st.props [(kv.1, frc.2)] P),
           .cons ⟨rfl, frc.1, hfrc⟩ hF⟩,
          hdeps⟩
      · rename_i hdisc
        have hdiscf : discOkCheck kv.1 dep = false :=
          Bool.not_eq_true _ ▸ Bool.of_not_eq_true hdisc
        obtain ⟨fr2, hfr2, h3⟩ := bindOkInv h2r
        have hwf2 : WfD fr2.2 := (hg dep _ fr2.1 fr2.2 hwfdep hfr2).2.2
        have hDwf2 : ∀ p ∈ st.deps.map
            (fun p => if p.1 = kv.1 then (kv.1, fr2.2) else p), WfD p.2 := by
          intro p hp
          obtain ⟨p0, hp0, hpe⟩ := List.mem_map.mp hp
          by_cases hk : p0.1 = kv.1
          · rw [if_pos hk] at hpe
            rw [← hpe]
            exact hwf2
          · rw [if_neg hk] at hpe
            rw [← hpe]
            exact hDwf p0 hp0
        have hnd2 : ((st.deps.map
            (fun p => if p.1 = kv.1 then (kv.1, fr2.2) else p)).map Prod.fst).Nodup := by
          rw [assign_keys]
          exact hnd
        obtain ⟨hfields, ⟨P, hP, hF⟩, hdeps⟩ :=
          ih { fields := (st.fields ++ [setKeyReq req kv.1 frc.1]) ++ [markHide fr2.1],
               props := st.props ++ [(kv.1, frc.2)],
               deps := List.map
                 (fun p : String × JSchema =>
                   if p.1 = kv.1 then (kv.1, fr2.2) else p)
                 st.deps }
            stF hLwf2 hDwf2 hnd2 h3
        have hstep : List.Forall₂ (depRel rS pk) st.deps
            (st.deps.map (fun p => if p.1 = kv.1 then (kv.1, fr2.2) else p)) :=
          forall₂_assign (depRel_refl rS pk) hnd hlk
            ⟨rfl, .inr ⟨hdiscf, fr2.1, hfr2⟩⟩
        refine ⟨suffix_trans hfields (suffix_of_append2 st.fields _ [markHide fr2.1]),
          ⟨(kv.1, frc.2) :: P,
           hP.trans (List.append_assoc st.props [(kv.1, frc.2)] P),
           .cons ⟨rfl, frc.1, hfrc⟩ hF⟩,
          forall₂_depRel_trans hg hDwf hstep hdeps⟩

/-- Dropping across a double append. -/
theorem drop_mid2 {α : Type} (a b c : List α) :
    ((a ++ b) ++ c).drop a.length = b ++ c := by
  rw [List.append_assoc, List.drop_left]

/-- Dropping across a triple append. -/
theorem drop_mid3 {α : Type} (a b c e : List α) :
    (((a ++ b) ++ c) ++ e).drop a.length = b ++ (c ++ e) := by
  rw [List.append_assoc, List.append_assoc, List.drop_left]

/-- Rerunning the property loop on the properties it produced, starting
from the dependency map it produced, reproduces the produced fields and
properties and leaves the dependency map fixed. -/
theorem objPropsFold_rerun (rS rAC : Recur) (req : Option (List String))
    (pk : List String) (hg : RecurGood rS) :
    ∀ (L L₂ : List (String × JSchema)) (st st₂ stF : ObjFoldSt),
    List.Forall₂ (propRel rS pk) L L₂ →
    (∀ p ∈ L, WfD p.2) → (∀ p ∈ st.deps, WfD p.2) →
    (st.deps.map Prod.fst).Nodup →
    st₂.deps = stF.deps →
    objPropsFold rS rAC req pk L st = .ok stF →
    objPropsFold rS rAC req pk L₂ st₂ =
      .ok { fields := st₂.fields ++ stF.fields.drop st.fields.length,
            props := st₂.props ++ L₂,
            deps := stF.deps } := by
  intro L
  induction L with
  | nil =>
    intro L₂ st st₂ stF hL2 _ _ _ hdeq h
    cases hL2
    cases h
    rw [objPropsFold]
    obtain ⟨f2, p2, d2⟩ := st₂
    simp only at hdeq
    subst hdeq
    simp [List.drop_length]
    rfl
  | cons kv rest ih =>
    intro L₂ st st₂ stF hL2 hLwf hDwf hnd hdeq h
    obtain ⟨q, rest₂, hq, hFrest, rfl⟩ :
        ∃ q rest₂, propRel rS pk kv q ∧
          List.Forall₂ (propRel rS pk) rest rest₂ ∧ L₂ = q :: rest₂ := by
      cases hL2 with
      | cons hpq ht => exact ⟨_, _, hpq, ht, rfl⟩
    obtain ⟨q1, q2⟩ := q
    obtain ⟨hq1, fv, hfv⟩ := hq
    simp only at hq1 hfv
    subst hq1
    have hwfkv : WfD kv.2 := hLwf kv (List.mem_cons_self _ _)
    have hLwf2 : ∀ p ∈ rest, WfD p.2 :=
      fun p hp => hLwf p (List.mem_cons_of_mem _ hp)
    have hgf := hg kv.2 (pk ++ [kv.1]) fv q2 hwfkv hfv
    have hfix : rS q2 (pk ++ [kv.1]) = .ok (fv, q2) := hgf.1
    rw [objPropsFold.eq_2] at h
    obtain ⟨frc, hfrc, h2⟩ := bindOkInv h
    obtain rfl : frc = (fv, q2) := by
      rw [hfv] at hfrc
      exact (Except.ok.inj hfrc).symm
    have h2r : (match List.lookup kv.1 st.deps with
        | none => objPropsFold rS rAC req pk rest
            { fields := st.fields ++ [setKeyReq req kv.1 fv],
              props := st.props ++ [(kv.1, q2)], deps := st.deps }
        | some dep =>
          if discOkCheck kv.1 dep then do
            let dfs ← discItemsFold rAC kv.1 (pk ++ [kv.1])
              (dep.sh.oneOfL.getD []) []
            objPropsFold rS rAC req pk rest
              { fields := (st.fields ++ [setKeyReq req kv.1 fv]) ++ dfs,
                props := st.props ++ [(kv.1, q2)], deps := st.deps }
          else do
            let fr2 ← rS dep (pk ++ [kv.1])
            objPropsFold rS rAC req pk rest
              { fields := (st.fields ++ [setKeyReq req kv.1 fv]) ++ [markHide fr2.1],
                props := st.props ++ [(kv.1, q2)],
                deps := List.map
                  (fun p : String × JSchema =>
                    if p.1 = kv.1 then (kv.1, fr2.2) else p)
                  st.deps }) = .ok stF := h2
    clear h2 h hfrc
    have hrunA : objPropsFold rS rAC req pk ((kv.1, q2) :: rest₂) st₂ =
        (match List.lookup kv.1 st₂.deps with
        | none => objPropsFold rS rAC req pk rest₂
            { fields := st₂.fields ++ [setKeyReq req kv.1 fv],
              props := st₂.props ++ [(kv.1, q2)], deps := st₂.deps }
        | some dep =>
          if discOkCheck kv.1 dep then do
            let dfs ← discItemsFold rAC kv.1 (pk ++ [kv.1])
              (dep.sh.oneOfL.getD []) []
            objPropsFold rS rAC req pk rest₂
              { fields := (st₂.fields ++ [setKeyReq req kv.1 fv]) ++ dfs,
                props := st₂.props ++ [(kv.1, q2)], deps := st₂.deps }
          else do
            let fr2 ← rS dep (pk ++ [kv.1])
            objPropsFold rS rAC req pk rest₂
              { fields := (st₂.fields ++ [setKeyReq req kv.1 fv]) ++ [markHide fr2.1],
                props := st₂.props ++ [(kv.1, q2)],
                deps := List.map
                  (fun p : String × JSchema =>
                    if p.1 = kv.1 then (kv.1, fr2.2) else p)
                  st₂.deps }) := by
      rw [objPropsFold.eq_2, hfix]
      rfl
    rw [hrunA, hdeq]
    split at h2r
    · rename_i heq
      obtain ⟨⟨ext, hext⟩, _, hdeps⟩ := objPropsFold_char rS rAC req pk hg rest
        { fields := st.fields ++ [setKeyReq req kv.1 fv],
          props := st.props ++ [(kv.1, q2)], deps := st.deps }
        stF hLwf2 hDwf hnd h2r
      have hext2 : stF.fields = (st.fields ++ [setKeyReq req kv.1 fv]) ++ ext := hext
      rcases forall₂_lookup (fun p q hpq => hpq.1) hdeps kv.1 with
        ⟨hn1, hn2⟩ | ⟨v, v', hs1, hs2, _⟩
      · simp only [hn2]
        have hIH2 : objPropsFold rS rAC req pk rest₂
            { fields := st₂.fields ++ [setKeyReq req kv.1 fv],
              props := st₂.props ++ [(kv.1, q2)], deps := stF.deps } =
            .ok { fields := (st₂.fields ++ [setKeyReq req kv.1 fv]) ++
                    stF.fields.drop (st.fields ++ [setKeyReq req kv.1 fv]).length,
                  props := (st₂.props ++ [(kv.1, q2)]) ++ rest₂,
                  deps := stF.deps } :=
          ih rest₂
            { fields := st.fields ++ [setKeyReq req kv.1 fv],
              props := st.props ++ [(kv.1, q2)], deps := st.deps }
            { fields := st₂.fields ++ [setKeyReq req kv.1 fv],
              props := st₂.props ++ [(kv.1, q2)], deps := stF.deps }
            stF hFrest hLwf2 hDwf hnd rfl h2r
        have hd1 : stF.fields.drop st.fields.length =
            setKeyReq req kv.1 fv :: ext := by
          rw [hext2, drop_mid2]
          rfl
        have hd2 : stF.fields.drop
            (st.fields ++ [setKeyReq req kv.1 fv]).length = ext := by
          rw [hext2, List.drop_left]
        refine hIH2.trans ?_
        rw [hd1, hd2]
        simp [List.append_assoc]
      · rw [hs1] at heq
        cases heq
    · rename_i dep heq
      split at h2r
      · rename_i hdisc
        obtain ⟨dfs, hdfs, h3⟩ := bindOkInv h2r
        obtain ⟨⟨ext, hext⟩, _, hdeps⟩ := objPropsFold_char rS rAC req pk hg rest
          { fields := (st.fields ++ [setKeyReq req kv.1 fv]) ++ dfs,
            props := st.props ++ [(kv.1, q2)], deps := st.deps }
          stF hLwf2 hDwf hnd h3
        have hext2 : stF.fields =
            ((st.fields ++ [setKeyReq req kv.1 fv]) ++ dfs) ++ ext := hext
        rcases forall₂_lookup (fun p q hpq => hpq.1) hdeps kv.1 with
          ⟨hn1, hn2⟩ | ⟨v, v', hs1, hs2, hrel⟩
        · rw [hn1] at heq
          cases heq
        · rw [heq] at hs1
          cases hs1
          obtain ⟨_, hrel2⟩ := hrel
          have hveq : v' = dep := by
            rcases hrel2 with he | ⟨hdf, _⟩
            · exact he
            · rw [hdf] at hdisc
              simp at hdisc
          subst hveq
          simp only [hs2, hdisc, if_true]
          rw [hdfs]
          have hIH2 : objPropsFold rS rAC req pk rest₂
              { fields := (st₂.fields ++ [setKeyReq req kv.1 fv]) ++ dfs,
                props := st₂.props ++ [(kv.1, q2)], deps := stF.deps } =
              .ok { fields := ((st₂.fields ++ [setKeyReq req kv.1 fv]) ++ dfs) ++
                      stF.fields.drop
                        ((st.fields ++ [setKeyReq req kv.1 fv]) ++ dfs).length,
                    props := (st₂.props ++ [(kv.1, q2)]) ++ rest₂,
                    deps := stF.deps } :=
            ih rest₂
              { fields := (st.fields ++ [setKeyReq req kv.1 fv]) ++ dfs,
                props := st.props ++ [(kv.1, q2)], deps := st.deps }
              { fields := (st₂.fields ++ [setKeyReq req kv.1 fv]) ++ dfs,
                props := st₂.props ++ [(kv.1, q2)], deps := stF.deps }
              stF hFrest hLwf2 hDwf hnd rfl h3
          have hd1 : stF.fields.drop st.fields.length =
              setKeyReq req kv.1 fv :: (dfs ++ ext) := by
            rw [hext2, drop_mid3]
            rfl
          have hd2 : stF.fields.drop
              ((st.fields ++ [setKeyReq req kv.1 fv]) ++ dfs).length = ext := by
            rw [hext2, List.drop_left]
          refine hIH2.trans ?_
          rw [hd1, hd2]
          simp [List.append_assoc]
      · rename_i hdisc
        have hdiscf : discOkCheck kv.1 dep = false := Bool.of_not_eq_true hdisc
        obtain ⟨fr2, hfr2, h3⟩ := bindOkInv h2r
        have hwfdep : WfD dep := hDwf _ (lookupMem heq)
        have hgd := hg dep (pk ++ [kv.1]) fr2.1 fr2.2 hwfdep hfr2
        have hfix2 : rS fr2.2 (pk ++ [kv.1]) = .ok (fr2.1, fr2.2) := hgd.1
        have hdisc2 : discOkCheck kv.1 fr2.2 = false :=
          (hgd.2.1 kv.1).trans hdiscf
        have hDwf2 : ∀ p ∈ List.map
            (fun p : String × JSchema =>
              if p.1 = kv.1 then (kv.1, fr2.2) else p) st.deps, WfD p.2 := by
          intro p hp
          obtain ⟨p0, hp0, hpe⟩ := List.mem_map.mp hp
          by_cases hk : p0.1 = kv.1
          · rw [if_pos hk] at hpe
            rw [← hpe]
            exact hgd.2.2
          · rw [if_neg hk] at hpe
            rw [← hpe]
            exact hDwf p0 hp0
        have hnd2 : ((List.map
            (fun p : String × JSchema =>
              if p.1 = kv.1 then (kv.1, fr2.2) else p) st.deps).map Prod.fst).Nodup := by
          rw [assign_keys]
          exact hnd
        obtain ⟨⟨ext, hext⟩, _, hdeps⟩ := objPropsFold_char rS rAC req pk hg rest
          { fields := (st.fields ++ [setKeyReq req kv.1 fv]) ++ [markHide fr2.1],
            props := st.props ++ [(kv.1, q2)],
            deps := List.map
              (fun p : String × JSchema =>
                if p.1 = kv.1 then (kv.1, fr2.2) else p) st.deps }
          stF hLwf2 hDwf2 hnd2 h3
        have hext2 : stF.fields =
            ((st.fields ++ [setKeyReq req kv.1 fv]) ++ [markHide fr2.1]) ++ ext := hext
        have hlkA : (List.map
            (fun p : String × JSchema =>
              if p.1 = kv.1 then (kv.1, fr2.2) else p) st.deps).lookup kv.1 =
            some fr2.2 := assign_lookup heq
        rcases forall₂_lookup (fun p q hpq => hpq.1) hdeps kv.1 with
          ⟨hn1, hn2⟩ | ⟨v, v', hs1, hs2, hrel⟩
        · rw [hn1] at hlkA
          cases hlkA
        · rw [hlkA] at hs1
          cases hs1
          obtain ⟨_, hrel2⟩ := hrel
          have hveq : v' = fr2.2 := by
            rcases hrel2 with he | ⟨_, f3, hc3⟩
            · exact he
            · rw [hfix2] at hc3
              exact ((Prod.mk.inj (Except.ok.inj hc3)).2).symm
          subst hveq
          have hkeysA := forall₂_keys (fun p q hpq => hpq.1) hdeps
          have hndF : (stF.deps.map Prod.fst).Nodup := by
            rw [← hkeysA, assign_keys]
            exact hnd
          have hassign : (List.map
              (fun p : String × JSchema =>
                if p.1 = kv.1 then (kv.1, fr2.2) else p) stF.deps) = stF.deps :=
            assign_self hndF hs2
          simp only [hs2, hdisc2, Bool.false_eq_true, if_false]
          rw [hfix2]
          have hIH2 : objPropsFold rS rAC req pk rest₂
              { fields := (st₂.fields ++ [setKeyReq req kv.1 fv]) ++ [markHide fr2.1],
                props := st₂.props ++ [(kv.1, q2)],
                deps := List.map
                  (fun p : String × JSchema =>
                    if p.1 = kv.1 then (kv.1, fr2.2) else p) stF.deps } =
              .ok { fields := ((st₂.fields ++ [setKeyReq req kv.1 fv]) ++ [markHide fr2.1]) ++
                      stF.fields.drop
                        ((st.fields ++ [setKeyReq req kv.1 fv]) ++ [markHide fr2.1]).length,
                    props := (st₂.props ++ [(kv.1, q2)]) ++ rest₂,
                    deps := stF.deps } := by
            rw [hassign]
            exact ih rest₂
              { fields := (st.fields ++ [setKeyReq req kv.1 fv]) ++ [markHide fr2.1],
                props := st.props ++ [(kv.1, q2)],
                deps := List.map
                  (fun p : String × JSchema =>
                    if p.1 = kv.1 then (kv.1, fr2.2) else p) st.deps }
              { fields := (st₂.fields ++ [setKeyReq req kv.1 fv]) ++ [markHide fr2.1],
                props := st₂.props ++ [(kv.1, q2)], deps := stF.deps }
              stF hFrest hLwf2 hDwf2 hnd2 rfl h3
          have hd1 : stF.fields.drop st.fields.length =
              setKeyReq req kv.1 fv :: ([markHide fr2.1] ++ ext) := by
            rw [hext2, drop_mid3]
            rfl
          have hd2 : stF.fields.drop
              ((st.fields ++ [setKeyReq req kv.1 fv]) ++ [markHide fr2.1]).length = ext := by
            rw [hext2, List.drop_left]
          refine hIH2.trans ?_
          rw [hd1, hd2]
          simp [List.append_assoc]

/-- First-run characterization of the union branch loop. -/
theorem unionBranchesFold_char (rAC : Recur) (pk : List String) :
    ∀ (bs : List JSchema) (acc out : List FieldOut × List JSchema),
    unionBranchesFold rAC pk bs acc = .ok out →
    ∃ e1 e2, out.1 = acc.1 ++ e1 ∧ out.2 = acc.2 ++ e2 ∧
      List.Forall₂ (fun b b' => ∃ f, rAC b pk = .ok (f, b')) bs e2 := by
  intro bs
  induction bs with
  | nil =>
    intro acc out h
    cases h
    exact ⟨[], [], (List.append_nil _).symm, (List.append_nil _).symm, .nil⟩
  | cons b rest ih =>
    intro acc out h
    rw [unionBranchesFold.eq_2] at h
    obtain ⟨frb, hfrb, h2⟩ := bindOkInv h
    obtain ⟨e1, e2, he1, he2, hF⟩ := ih _ out h2
    refine ⟨markHide frb.1 :: e1, frb.2 :: e2, ?_, ?_, .cons ⟨frb.1, hfrb⟩ hF⟩
    · exact he1.trans (List.append_assoc acc.1 [markHide frb.1] e1)
    · exact he2.trans (List.append_assoc acc.2 [frb.2] e2)

/-- Rerunning the union branch loop on the updated branches reproduces
the same output. -/
theorem unionBranchesFold_rerun (rAC : Recur) (pk : List String)
    (hg : RecurGood rAC) :
    ∀ {bs bs₂ : List JSchema},
    List.Forall₂ (fun b b' => ∃ f, rAC b pk = .ok (f, b')) bs bs₂ →
    (∀ b ∈ bs, WfD b) →
    ∀ (acc out : List FieldOut × List JSchema),
    unionBranchesFold rAC pk bs acc = .ok out →
    unionBranchesFold rAC pk bs₂ acc = .ok out := by
  intro bs bs₂ hF
  induction hF with
  | nil => intro _ acc out h; exact h
  | @cons b b₂ rest rest₂ hb hrest ih =>
    intro hwf acc out h
    obtain ⟨f, hf⟩ := hb
    rw [unionBranchesFold.eq_2] at h
    obtain ⟨frb, hfrb, h2⟩ := bindOkInv h
    obtain rfl : frb = (f, b₂) := by
      rw [hf] at hfrb
      exact (Except.ok.inj hfrb).symm
    have hfx : rAC b₂ pk = .ok (f, b₂) :=
      (hg b pk f b₂ (hwf b (List.mem_cons_self _ _)) hf).1
    rw [unionBranchesFold.eq_2, hfx]
    exact ih (fun c hc => hwf c (List.mem_cons_of_mem _ hc)) _ out h2

/-- First-run characterization of a union build. -/
theorem buildUnion_char (rAC : Recur) (pk : List String) (mode : UnionMode)
    (bs : List JSchema) (u : FieldOut) (bs' : List JSchema)
    (h : buildUnion rAC pk mode bs = .ok (u, bs')) :
    List.Forall₂ (fun b b' => ∃ f, rAC b pk = .ok (f, b')) bs bs' := by
  rw [buildUnion] at h
  obtain ⟨br, hbr, h2⟩ := bindOkInv h
  obtain ⟨e1, e2, _, he2, hF⟩ := unionBranchesFold_char rAC pk bs _ br hbr
  cases h2
  rw [he2]
  exact hF

/-- Rebuilding a union from its own updated branch list reproduces the
union field and the branch list. -/
theorem buildUnion_rerun (rAC : Recur) (pk : List String) (mode : UnionMode)
    (hg : RecurGood rAC) (hp : RecurPres rAC)
    (bs : List JSchema) (u : FieldOut) (bs' : List JSchema)
    (hwf : ∀ b ∈ bs, WfD b)
    (h : buildUnion rAC pk mode bs = .ok (u, bs')) :
    buildUnion rAC pk mode bs' = .ok (u, bs') := by
  have hF := buildUnion_char rAC pk mode bs u bs' h
  have hbase : List.Forall₂ (fun b b' : JSchema => b'.sh.base = b.sh.base) bs bs' := by
    clear h
    induction hF with
    | nil => exact .nil
    | @cons b b₂ rest rest₂ hb hrest ih =>
      obtain ⟨f, hf⟩ := hb
      exact .cons ((hp b pk f b₂ (hwf b (List.mem_cons_self _ _)) hf).1)
        (ih (fun c hc => hwf c (List.mem_cons_of_mem _ hc)))
  rw [buildUnion] at h ⊢
  obtain ⟨br, hbr, h2⟩ := bindOkInv h
  have hbr2 := unionBranchesFold_rerun rAC pk hg hF hwf ([], []) br hbr
  rw [hbr2, okBind, selectorField_congr mode hbase]
  exact h2

/-- `guessType` reads only the `type` keyword and property presence. -/
theorem guessType_congr {t s : JSchema}
    (h1 : t.sh.base.typ = s.sh.base.typ)
    (h2 : t.sh.properties.isSome = s.sh.properties.isSome) :
    guessType t = guessType s := by
  unfold guessType
  rw [h1, h2]

/-- The base descriptor reads only the guessed type and scalar keys. -/
theorem mkBaseField_congr (opts : CompileOptions) {t s : JSchema}
    (h1 : guessType t = guessType s) (h2 : t.sh.base = s.sh.base) :
    mkBaseField opts t = mkBaseField opts s := by
  unfold mkBaseField
  rw [h1, h2]

/-- Transport a pointwise consequence along the produced-property
relation. -/
theorem forall₂_propRel_map {rS : Recur} {pk : List String}
    {Q : (String × JSchema) → (String × JSchema) → Prop}
    (himp : ∀ p q, WfD p.2 → propRel rS pk p q → Q p q) :
    ∀ {L P : List (String × JSchema)}, (∀ p ∈ L, WfD p.2) →
    List.Forall₂ (propRel rS pk) L P → List.Forall₂ Q L P := by
  intro L P hwf h
  induction h with
  | nil => exact .nil
  | @cons p q t t' hpq _ ih =>
    exact .cons (himp p q (hwf p (List.mem_cons_self _ _)) hpq)
      (ih (fun c hc => hwf c (List.mem_cons_of_mem _ hc)))

/-- Transport a pointwise consequence along the compiled-branch
relation. -/
theorem forall₂_brel_map {r : Recur} {pk : List String}
    {Q : JSchema → JSchema → Prop}
    (himp : ∀ b q, WfD b → (∃ f, r b pk = .ok (f, q)) → Q b q) :
    ∀ {L P : List JSchema}, (∀ b ∈ L, WfD b) →
    List.Forall₂ (fun b b' => ∃ f, r b pk = .ok (f, b')) L P →
    List.Forall₂ Q L P := by
  intro L P hwf h
  induction h with
  | nil => exact .nil
  | @cons p q t t' hpq _ ih =>
    exact .cons (himp p q (hwf p (List.mem_cons_self _ _)) hpq)
      (ih (fun c hc => hwf c (List.mem_cons_of_mem _ hc)))

/-- Transport a pointwise consequence along the dependency-entry
relation. -/
theorem forall₂_depRel_map {rS : Recur} {pk : List String}
    {Q : (String × JSchema) → (String × JSchema) → Prop}
    (himp : ∀ p q, WfD p.2 → depRel rS pk p q → Q p q) :
    ∀ {L P : List (String × JSchema)}, (∀ p ∈ L, WfD p.2) →
    List.Forall₂ (depRel rS pk) L P → List.Forall₂ Q L P := by
  intro L P hwf h
  induction h with
  | nil => exact .nil
  | @cons p q t t' hpq _ ih =>
    exact .cons (himp p q (hwf p (List.mem_cons_self _ _)) hpq)
      (ih (fun c hc => hwf c (List.mem_cons_of_mem _ hc)))

/-- Each right element of a `Forall₂` is relationally reached. -/
theorem forall₂_right_mem {α β : Type} {Q : α → β → Prop} :
    ∀ {L : List α} {P : List β}, List.Forall₂ Q L P →
    ∀ q ∈ P, ∃ p, Q p q := by
  intro L P h
  induction h with
  | nil => intro q hq; cases hq
  | @cons p q t t' hpq _ ih =>
    intro x hx
    rcases List.mem_cons.mp hx with rfl | hx2
    · exact ⟨p, hpq⟩
    · exact ih x hx2

/-- A plain node's compile pass, written as a clean switch over the
guessed type with the shared tail `postPipe` (the join-point form the
`do` elaborator produces is definitionally this). -/
theorem compileField_plain_eq (g : Nat) (opts : CompileOptions)
    (s : JSchema) (pk : List String)
    (href : s.sh.base.ref = none) (hall : s.sh.allOfL = none) :
    compileField (g + 1) opts s pk =
      (match guessType s with
      | some (.tname "null") =>
        postPipe g opts s (addValidatorName (mkBaseField opts s) "null", s)
      | some (.tname "boolean") => do
        let lab ← segLabelE pk
        postPipe g opts s
          ((.mk { (mkBaseField opts s).sh with
            tmplOpts := { (mkBaseField opts s).sh.tmplOpts with
              label := lab, descr := s.sh.base.descr } } : FieldOut), s)
      | some (.tname "number") => do
        let fN ← numberCase (mkBaseField opts s) s pk
        postPipe g opts s (fN, s)
      | some (.tname "integer") => do
        let fN ← numberCase (mkBaseField opts s) s pk
        postPipe g opts s (fN, s)
      | some (.tname "string") => do
        let fS ← stringCase (mkBaseField opts s) s pk
        postPipe g opts s (fS, s)
      | some (.tname "array") => do
        let fr ← arrayCase g opts.rootDefs (mkBaseField opts s) s pk
        postPipe g opts s fr
      | some (.tname "object") =>
        if s.sh.properties.isNone && s.sh.oneOfL.isNone then
          match opts.testSpec with
          | some t => postPipe g opts s (t, s)
          | none => postPipe g opts s
              ((.mk { (mkBaseField opts s).sh with
                type_ := some (.tname "rawobject"),
                fieldGroup := some [] } : FieldOut), s)
        else do
          let st ← objPropsFold (fun c p => compileField g opts c p)
            (fun c p => compileField g
              { opts with autoClearOpt := some true } c p)
            s.sh.base.requiredL pk (s.sh.properties.getD [])
            ({ deps := (resolveDependencies s).2 } : ObjFoldSt)
          match s.sh.oneOfL with
          | some lo => do
            let u ← buildUnion (fun c p => compileField g
              { opts with autoClearOpt := some true } c p) pk .oneOf lo
            objAnyStep g opts s s pk st ([u.1], some u.2)
          | none => objAnyStep g opts s s pk st ([], none)
      | _ => postPipe g opts s (mkBaseField opts s, s)) := by
  rw [compileField, resolve_plain g s opts.rootDefs href hall, okBind]
  rfl

/-- Any compile pass, with the switch written cleanly over the resolved
node. -/
theorem compileField_eq (g : Nat) (opts : CompileOptions)
    (s : JSchema) (pk : List String) :
    compileField (g + 1) opts s pk = (do
      let r ← resolveSchemaF (g + 1) s opts.rootDefs
      (match guessType r with
      | some (.tname "null") =>
        postPipe g opts s (addValidatorName (mkBaseField opts r) "null", r)
      | some (.tname "boolean") => do
        let lab ← segLabelE pk
        postPipe g opts s
          ((.mk { (mkBaseField opts r).sh with
            tmplOpts := { (mkBaseField opts r).sh.tmplOpts with
              label := lab, descr := r.sh.base.descr } } : FieldOut), r)
      | some (.tname "number") => do
        let fN ← numberCase (mkBaseField opts r) r pk
        postPipe g opts s (fN, r)
      | some (.tname "integer") => do
        let fN ← numberCase (mkBaseField opts r) r pk
        postPipe g opts s (fN, r)
      | some (.tname "string") => do
        let fS ← stringCase (mkBaseField opts r) r pk
        postPipe g opts s (fS, r)
      | some (.tname "array") => do
        let fr ← arrayCase g opts.rootDefs (mkBaseField opts r) r pk
        postPipe g opts s fr
      | some (.tname "object") =>
        if r.sh.properties.isNone && r.sh.oneOfL.isNone then
          match opts.testSpec with
          | some t => postPipe g opts s (t, r)
          | none => postPipe g opts s
              ((.mk { (mkBaseField opts r).sh with
                type_ := some (.tname "rawobject"),
                fieldGroup := some [] } : FieldOut), r)
        else do
          let st ← objPropsFold (fun c p => compileField g opts c p)
            (fun c p => compileField g
              { opts with autoClearOpt := some true } c p)
            r.sh.base.requiredL pk (r.sh.properties.getD [])
            ({ deps := (resolveDependencies r).2 } : ObjFoldSt)
          match r.sh.oneOfL with
          | some lo => do
            let u ← buildUnion (fun c p => compileField g
              { opts with autoClearOpt := some true } c p) pk .oneOf lo
            objAnyStep g opts s r pk st ([u.1], some u.2)
          | none => objAnyStep g opts s r pk st ([], none)
      | _ => postPipe g opts s (mkBaseField opts r, r))) := by
  rw [compileField]
  rfl

/-- The document slot of the compile result when the node carries a
`$ref` or `allOf`: the original node, untouched. -/
theorem postPipe_snd (g : Nat) (opts : CompileOptions) (s : JSchema)
    (fr : FieldOut × JSchema) (f : FieldOut) (s' : JSchema)
    (hc : (s.sh.base.ref.isNone && s.sh.allOfL.isNone) = false)
    (h : postPipe g opts s fr = .ok (f, s')) : s' = s := by
  obtain ⟨f4, _, hp⟩ := bindOkInv h
  have hp2 := (Prod.mk.inj (Except.ok.inj hp)).2
  rw [← hp2, if_neg]
  simp [hc]

/-- A compile pass of a node with unresolved composition never mutates
the document node. -/
theorem run_snd (g : Nat) (opts : CompileOptions) (s : JSchema)
    (pk : List String) (f : FieldOut) (s' : JSchema)
    (hc : (s.sh.base.ref.isNone && s.sh.allOfL.isNone) = false)
    (h : compileField (g + 1) opts s pk = .ok (f, s')) : s' = s := by
  rw [compileField_eq] at h
  obtain ⟨r, hres, h2⟩ := bindOkInv h
  split at h2
  · exact postPipe_snd _ _ _ _ _ _ hc h2
  · obtain ⟨lab, _, h3⟩ := bindOkInv h2
    exact postPipe_snd _ _ _ _ _ _ hc h3
  · obtain ⟨fN, _, h3⟩ := bindOkInv h2
    exact postPipe_snd _ _ _ _ _ _ hc h3
  · obtain ⟨fN, _, h3⟩ := bindOkInv h2
    exact postPipe_snd _ _ _ _ _ _ hc h3
  · obtain ⟨fS, _, h3⟩ := bindOkInv h2
    exact postPipe_snd _ _ _ _ _ _ hc h3
  · obtain ⟨fr, _, h3⟩ := bindOkInv h2
    exact postPipe_snd _ _ _ _ _ _ hc h3
  · split at h2
    · split at h2
      · exact postPipe_snd _ _ _ _ _ _ hc h2
      · exact postPipe_snd _ _ _ _ _ _ hc h2
    · obtain ⟨st, _, h3⟩ := bindOkInv h2
      split at h3
      · obtain ⟨u, _, h4⟩ := bindOkInv h3
        unfold objAnyStep at h4
        split at h4
        · obtain ⟨u2, _, h5⟩ := bindOkInv h4
          exact postPipe_snd _ _ _ _ _ _ hc h5
        · exact postPipe_snd _ _ _ _ _ _ hc h4
      · unfold objAnyStep at h3
        split at h3
        · obtain ⟨u2, _, h5⟩ := bindOkInv h3
          exact postPipe_snd _ _ _ _ _ _ hc h5
        · exact postPipe_snd _ _ _ _ _ _ hc h3
  · exact postPipe_snd _ _ _ _ _ _ hc h2

/-- The object update rewrites `properties` to the recompiled list. -/
theorem objUpdate_props (s : JSchema) (st : ObjFoldSt)
    (u1 u2 : List FieldOut × Option (List JSchema)) :
    (objUpdate s st u1 u2).sh.properties =
      match s.sh.properties with
      | some _ => some st.props
      | none => none := rfl

/-- The object update rewrites `oneOf` to the compiled union branches. -/
theorem objUpdate_oneOf (s : JSchema) (st : ObjFoldSt)
    (u1 u2 : List FieldOut × Option (List JSchema)) :
    (objUpdate s st u1 u2).sh.oneOfL =
      match u1.2 with
      | some l => some l
      | none => s.sh.oneOfL := rfl

/-- The object update rewrites `anyOf` to the compiled union branches. -/
theorem objUpdate_anyOf (s : JSchema) (st : ObjFoldSt)
    (u1 u2 : List FieldOut × Option (List JSchema)) :
    (objUpdate s st u1 u2).sh.anyOfL =
      match u2.2 with
      | some l => some l
      | none => s.sh.anyOfL := rfl

/-- Invert one union step against an arbitrary continuation. -/
theorem unionStep_inv {rAC : Recur} {pk : List String} {mode : UnionMode}
    (o : Option (List JSchema))
    (K : List FieldOut × Option (List JSchema) →
      Except SchemaError (FieldOut × JSchema))
    {out : FieldOut × JSchema}
    (h : (match o with
      | some lo => do
        let u ← buildUnion rAC pk mode lo
        K ([u.1], some u.2)
      | none => K ([], none)) = .ok out) :
    ∃ U, UnionRes rAC pk mode o U ∧ K U = .ok out := by
  rcases o with _ | lo
  · exact ⟨([], none), .inl ⟨rfl, rfl⟩, h⟩
  · obtain ⟨u, hbu, h2⟩ := bindOkInv h
    exact ⟨([u.1], some u.2), .inr ⟨lo, u, rfl, hbu, rfl⟩, h2⟩

/-- A union step re-read from the updated keyword value yields the same
result. -/
theorem unionRes_rerun {rAC : Recur} {pk : List String} {mode : UnionMode}
    (hg : RecurGood rAC) (hp : RecurPres rAC)
    {o : Option (List JSchema)} {U : List FieldOut × Option (List JSchema)}
    (hwfo : ∀ b ∈ o.getD [], WfD b) (h : UnionRes rAC pk mode o U) :
    UnionRes rAC pk mode
      (match U.2 with | some l => some l | none => o) U := by
  rcases h with ⟨rfl, rfl⟩ | ⟨lo, u, rfl, hbu, rfl⟩
  · exact .inl ⟨rfl, rfl⟩
  · refine .inr ⟨u.2, (u.1, u.2), rfl, ?_, rfl⟩
    exact buildUnion_rerun rAC pk mode hg hp lo u.1 u.2
      (by simpa using hwfo) hbu

/-- Run the `anyOf` step forward from its recorded outcome. -/
theorem objAnyStep_run (g : Nat) (opts : CompileOptions) (R : JSchema)
    (pk : List String) (st : ObjFoldSt)
    (U1 U2 : List FieldOut × Option (List JSchema))
    (out : FieldOut × JSchema)
    (hu2R : UnionRes (fun c p => compileField g
      { opts with autoClearOpt := some true } c p) pk .anyOf R.sh.anyOfL U2)
    (hfinR : objFinish g opts R R st U1 U2 = .ok out) :
    objAnyStep g opts R R pk st U1 = .ok out := by
  unfold objAnyStep
  rcases hu2R with ⟨hAny, rfl⟩ | ⟨la, u, hAny, hbu, rfl⟩
  · simp only [hAny]
    exact hfinR
  · simp only [hAny]
    rw [hbu, okBind]
    exact hfinR

/-- Run the whole object case forward from its recorded outcomes. -/
theorem objElse_run (g : Nat) (opts : CompileOptions) (R : JSchema)
    (pk : List String) (st : ObjFoldSt)
    (U1 U2 : List FieldOut × Option (List JSchema))
    (out : FieldOut × JSchema)
    (hrefR : R.sh.base.ref = none) (hallR : R.sh.allOfL = none)
    (hgR : guessType R = some (.tname "object"))
    (hcondR : (R.sh.properties.isNone && R.sh.oneOfL.isNone) = false)
    (hfoldR : objPropsFold (fun c p => compileField g opts c p)
      (fun c p => compileField g
        { opts with autoClearOpt := some true } c p)
      R.sh.base.requiredL pk (R.sh.properties.getD [])
      ({ deps := (resolveDependencies R).2 } : ObjFoldSt) = .ok st)
    (hu1R : UnionRes (fun c p => compileField g
      { opts with autoClearOpt := some true } c p) pk .oneOf R.sh.oneOfL U1)
    (hu2R : UnionRes (fun c p => compileField g
      { opts with autoClearOpt := some true } c p) pk .anyOf R.sh.anyOfL U2)
    (hfinR : objFinish g opts R R st U1 U2 = .ok out) :
    compileField (g + 1) opts R pk = .ok out := by
  rw [compileField_plain_eq g opts R pk hrefR hallR]
  simp only [hgR]
  simp only [hcondR, Bool.false_eq_true, if_false]
  rw [hfoldR, okBind]
  rcases hu1R with ⟨hOne, rfl⟩ | ⟨lo, u, hOne, hbu, rfl⟩
  · simp only [hOne]
    exact objAnyStep_run g opts R pk st ([], none) U2 out hu2R hfinR
  · simp only [hOne]
    rw [hbu, okBind]
    exact objAnyStep_run g opts R pk st ([u.1], some u.2) U2 out hu2R hfinR

/-- Rebuild the object assembly on the updated document node. -/
theorem objFinish_rerun (g : Nat) (opts : CompileOptions) (s R : JSchema)
    (st : ObjFoldSt) (U1 U2 : List FieldOut × Option (List JSchema))
    (f4 : FieldOut)
    (hmb : mkBaseField opts R = mkBaseField opts s)
    (hRU : (JSchema.mk { R.sh with
        properties := match R.sh.properties with
          | some _ => some st.props
          | none => none,
        depsS := st.deps,
        oneOfL := match U1.2 with
          | some l => some l
          | none => R.sh.oneOfL,
        anyOfL := match U2.2 with
          | some l => some l
          | none => R.sh.anyOfL }) = R)
    (happ : applyEnumBlock (g + 1) R
      (applyXsfBlock opts.exprCompiles R
        (applyConstBlock R
          (.mk { (mkBaseField opts s).sh with
            fieldGroup := some (st.fields ++ U1.1 ++ U2.1) } : FieldOut))) =
      .ok f4) :
    objFinish g opts R R st U1 U2 = .ok (f4, R) := by
  unfold objFinish
  rw [hmb, hRU]
  show (do
    let f4b ← applyEnumBlock (g + 1) R
      (applyXsfBlock opts.exprCompiles R
        (applyConstBlock R (.mk { (mkBaseField opts s).sh with
          fieldGroup := some (st.fields ++ U1.1 ++ U2.1) } : FieldOut)))
    pure (f4b,
      if R.sh.base.ref.isNone && R.sh.allOfL.isNone then R else R)) = _
  rw [happ, okBind, ite_self]
  rfl

/-- The compile fixpoint bundle, by induction on the recursion bound: a
successful compile of a well-formed node leaves a document node whose
re-compilation returns the same descriptor and the same node, with
scalar keys, property skeleton, discriminated-union checks,
well-formedness and the definitions block preserved. -/
theorem compileField_fix : ∀ (fuel : Nat) (opts : CompileOptions)
    (s : JSchema) (pk : List String) (f : FieldOut) (s' : JSchema),
    WfD s → compileField fuel opts s pk = .ok (f, s') →
    compileField fuel opts s' pk = .ok (f, s') ∧
    s'.sh.base = s.sh.base ∧
    PropsSkel s s' ∧
    (∀ k, discOkCheck k s' = discOkCheck k s) ∧
    WfD s' ∧
    s'.sh.defs = s.sh.defs := by
  intro fuel
  induction fuel with
  | zero => intro opts s pk f s' _ h; exact absurd h (by simp [compileField])
  | succ g ihg =>
    intro opts s pk f s' hwf h
    have h0 := h
    rcases hpl : (s.sh.base.ref.isNone && s.sh.allOfL.isNone) with _ | _
    · have hs' : s' = s := run_snd g opts s pk f s' hpl h
      subst hs'
      exact ⟨h0, rfl, ⟨rfl, List.forall₂_same.mpr fun p _ => ⟨rfl, rfl⟩⟩,
        fun k => rfl, hwf, rfl⟩
    · have hrefN : s.sh.base.ref = none := by
        have := (Bool.and_eq_true _ _).mp hpl
        exact Option.isNone_iff_eq_none.mp this.1
      have hallN : s.sh.allOfL = none := by
        have := (Bool.and_eq_true _ _).mp hpl
        exact Option.isNone_iff_eq_none.mp this.2
      have hM := (compileField_plain_eq g opts s pk hrefN hallN).symm.trans h
      clear h
      split at hM
      · -- null
        obtain ⟨f4, happ, hpp⟩ := bindOkInv hM
        have hpp2 : (Except.ok (f4,
            if s.sh.base.ref.isNone && s.sh.allOfL.isNone then s else s) :
            Except SchemaError (FieldOut × JSchema)) = .ok (f, s') := hpp
        cases hpp2
        rw [ite_self] at h0 ⊢
        exact ⟨h0, rfl, ⟨rfl, List.forall₂_same.mpr fun p _ => ⟨rfl, rfl⟩⟩,
          fun k => rfl, hwf, rfl⟩
      · -- boolean
        obtain ⟨lab, hlab, hM2⟩ := bindOkInv hM
        obtain ⟨f4, happ, hpp⟩ := bindOkInv hM2
        have hpp2 : (Except.ok (f4,
            if s.sh.base.ref.isNone && s.sh.allOfL.isNone then s else s) :
            Except SchemaError (FieldOut × JSchema)) = .ok (f, s') := hpp
        cases hpp2
        rw [ite_self] at h0 ⊢
        exact ⟨h0, rfl, ⟨rfl, List.forall₂_same.mpr fun p _ => ⟨rfl, rfl⟩⟩,
          fun k => rfl, hwf, rfl⟩
      · -- number
        obtain ⟨fN, hN, hM2⟩ := bindOkInv hM
        obtain ⟨f4, happ, hpp⟩ := bindOkInv hM2
        have hpp2 : (Except.ok (f4,
            if s.sh.base.ref.isNone && s.sh.allOfL.isNone then s else s) :
            Except SchemaError (FieldOut × JSchema)) = .ok (f, s') := hpp
        cases hpp2
        rw [ite_self] at h0 ⊢
        exact ⟨h0, rfl, ⟨rfl, List.forall₂_same.mpr fun p _ => ⟨rfl, rfl⟩⟩,
          fun k => rfl, hwf, rfl⟩
      · -- integer
        obtain ⟨fN, hN, hM2⟩ := bindOkInv hM
        obtain ⟨f4, happ, hpp⟩ := bindOkInv hM2
        have hpp2 : (Except.ok (f4,
            if s.sh.base.ref.isNone && s.sh.allOfL.isNone then s else s) :
            Except SchemaError (FieldOut × JSchema)) = .ok (f, s') := hpp
        cases hpp2
        rw [ite_self] at h0 ⊢
        exact ⟨h0, rfl, ⟨rfl, List.forall₂_same.mpr fun p _ => ⟨rfl, rfl⟩⟩,
          fun k => rfl, hwf, rfl⟩
      · -- string
        obtain ⟨fS, hS, hM2⟩ := bindOkInv hM
        obtain ⟨f4, happ, hpp⟩ := bindOkInv hM2
        have hpp2 : (Except.ok (f4,
            if s.sh.base.ref.isNone && s.sh.allOfL.isNone then s else s) :
            Except SchemaError (FieldOut × JSchema)) = .ok (f, s') := hpp
        cases hpp2
        rw [ite_self] at h0 ⊢
        exact ⟨h0, rfl, ⟨rfl, List.forall₂_same.mpr fun p _ => ⟨rfl, rfl⟩⟩,
          fun k => rfl, hwf, rfl⟩
      · -- array
        rename_i heq
        obtain ⟨fr, hac, hp⟩ := bindOkInv hM
        obtain ⟨lab, hlab, hac2⟩ := bindOkInv hac
        have hac3 : (match s.sh.items with
            | some it => do
              let it2 ← resolveSchemaF g it opts.rootDefs
              pure (arrayBounds (mkBaseField opts s) s lab,
                (.mk { s.sh with items := some it2 } : JSchema))
            | none => pure (arrayBounds (mkBaseField opts s) s lab, s)) =
            .ok fr := hac2
        rcases hitC : s.sh.items with _ | it
        · simp only [hitC] at hac3
          cases hac3
          obtain ⟨f4, happ, hpp⟩ := bindOkInv hp
          have hpp2 : (Except.ok (f4,
              if s.sh.base.ref.isNone && s.sh.allOfL.isNone then s else s) :
              Except SchemaError (FieldOut × JSchema)) = .ok (f, s') := hpp
          cases hpp2
          rw [ite_self] at h0 ⊢
          exact ⟨h0, rfl, ⟨rfl, List.forall₂_same.mpr fun p _ => ⟨rfl, rfl⟩⟩,
            fun k => rfl, hwf, rfl⟩
        · simp only [hitC] at hac3
          obtain ⟨it2, hit2, hpure⟩ := bindOkInv hac3
          cases hpure
          obtain ⟨f4, happ, hpp⟩ := bindOkInv hp
          have happ2 : applyEnumBlock (g + 1)
              (.mk { s.sh with items := some it2 } : JSchema)
              (applyXsfBlock opts.exprCompiles
                (.mk { s.sh with items := some it2 } : JSchema)
                (applyConstBlock
                  (.mk { s.sh with items := some it2 } : JSchema)
                  (arrayBounds (mkBaseField opts s) s lab))) = .ok f4 := happ
          have hpp2 : (Except.ok (f4,
              if s.sh.base.ref.isNone && s.sh.allOfL.isNone
              then (.mk { s.sh with items := some it2 } : JSchema) else s) :
              Except SchemaError (FieldOut × JSchema)) = .ok (f, s') := hpp
          cases hpp2
          have hite : (if s.sh.base.ref.isNone && s.sh.allOfL.isNone
              then (.mk { s.sh with items := some it2 } : JSchema) else s) =
              (.mk { s.sh with items := some it2 } : JSchema) := if_pos hpl
          rw [hite] at h0 ⊢
          refine ⟨?_, rfl, ⟨rfl, List.forall₂_same.mpr fun p _ => ⟨rfl, rfl⟩⟩,
            fun k => rfl, ?_, rfl⟩
          · have hgU : guessType (.mk { s.sh with items := some it2 } : JSchema) =
                some (.tname "array") := (guessType_congr rfl rfl).trans heq
            rw [compileField_plain_eq g opts
              (.mk { s.sh with items := some it2 } : JSchema) pk hrefN hallN]
            simp only [hgU]
            have hmb : mkBaseField opts
                (.mk { s.sh with items := some it2 } : JSchema) =
                mkBaseField opts s :=
              mkBaseField_congr opts (guessType_congr rfl rfl) rfl
            rw [hmb]
            have hacU : arrayCase g opts.rootDefs (mkBaseField opts s)
                (.mk { s.sh with items := some it2 } : JSchema) pk =
                .ok (arrayBounds (mkBaseField opts s) s lab,
                     (.mk { s.sh with items := some it2 } : JSchema)) := by
              show (do
                let lab2 ← segLabelE pk
                (match (JSchema.mk { s.sh with items := some it2 }).sh.items with
                | some it3 => do
                  let it4 ← resolveSchemaF g it3 opts.rootDefs
                  pure (arrayBounds (mkBaseField opts s)
                      (.mk { s.sh with items := some it2 } : JSchema) lab2,
                    (.mk { (JSchema.mk { s.sh with items := some it2 }).sh with
                      items := some it4 } : JSchema))
                | none => pure (arrayBounds (mkBaseField opts s)
                    (.mk { s.sh with items := some it2 } : JSchema) lab2,
                    (.mk { s.sh with items := some it2 } : JSchema)))) = _
              rw [hlab, okBind]
              have hitU : (JSchema.mk { s.sh with items := some it2 }).sh.items =
                  some it2 := rfl
              simp only [hitU]
              rw [resolveSchemaF_idem g it it2 opts.rootDefs hit2, okBind]
              rfl
            rw [hacU, okBind]
            show (do
              let f4b ← applyEnumBlock (g + 1)
                (.mk { s.sh with items := some it2 } : JSchema)
                (applyXsfBlock opts.exprCompiles
                  (.mk { s.sh with items := some it2 } : JSchema)
                  (applyConstBlock
                    (.mk { s.sh with items := some it2 } : JSchema)
                    (arrayBounds (mkBaseField opts s) s lab)))
              pure (f4b,
                if (JSchema.mk { s.sh with items := some it2 }).sh.base.ref.isNone &&
                    (JSchema.mk { s.sh with items := some it2 }).sh.allOfL.isNone
                then (.mk { s.sh with items := some it2 } : JSchema)
                else (.mk { s.sh with items := some it2 } : JSchema))) = _
            rw [happ2, okBind, ite_self]
            rfl
          · cases hwf with
            | mk sh nd ho ha hp2 hd => exact WfD.mk _ nd ho ha hp2 hd
      · -- object
        rename_i heq
        split at hM
        · -- raw object: no properties, no oneOf
          split at hM
          · -- test-specification hook
            obtain ⟨f4, happ, hpp⟩ := bindOkInv hM
            have hpp2 : (Except.ok (f4,
                if s.sh.base.ref.isNone && s.sh.allOfL.isNone then s else s) :
                Except SchemaError (FieldOut × JSchema)) = .ok (f, s') := hpp
            cases hpp2
            rw [ite_self] at h0 ⊢
            exact ⟨h0, rfl, ⟨rfl, List.forall₂_same.mpr fun p _ => ⟨rfl, rfl⟩⟩,
              fun k => rfl, hwf, rfl⟩
          · -- raw object leaf
            obtain ⟨f4, happ, hpp⟩ := bindOkInv hM
            have hpp2 : (Except.ok (f4,
                if s.sh.base.ref.isNone && s.sh.allOfL.isNone then s else s) :
                Except SchemaError (FieldOut × JSchema)) = .ok (f, s') := hpp
            cases hpp2
            rw [ite_self] at h0 ⊢
            exact ⟨h0, rfl, ⟨rfl, List.forall₂_same.mpr fun p _ => ⟨rfl, rfl⟩⟩,
              fun k => rfl, hwf, rfl⟩
        · -- structured object
          rename_i hcondF
          have hcond : (s.sh.properties.isNone && s.sh.oneOfL.isNone) = false :=
            Bool.eq_false_iff.mpr hcondF
          obtain ⟨st, hst, hM2⟩ := bindOkInv hM
          obtain ⟨U1, hu1, hM3⟩ := unionStep_inv s.sh.oneOfL
            (objAnyStep g opts s s pk st) hM2
          unfold objAnyStep at hM3
          obtain ⟨U2, hu2, hfin⟩ := unionStep_inv s.sh.anyOfL
            (objFinish g opts s s st U1) hM3
          obtain ⟨f4, happ, hpp⟩ := bindOkInv hfin
          have hpp2 : (Except.ok (f4,
              if s.sh.base.ref.isNone && s.sh.allOfL.isNone
              then objUpdate s st U1 U2 else s) :
              Except SchemaError (FieldOut × JSchema)) = .ok (f, s') := hpp
          cases hpp2
          have hite : (if s.sh.base.ref.isNone && s.sh.allOfL.isNone
              then objUpdate s st U1 U2 else s) = objUpdate s st U1 U2 :=
            if_pos hpl
          rw [hite]
          have hgS : RecurGood (fun c p => compileField g opts c p) := by
            intro s0 p0 f0 s0' hw hc
            obtain ⟨a, b, c, d, e, f5⟩ := ihg opts s0 p0 f0 s0' hw hc
            exact ⟨a, d, e⟩
          have hgAC : RecurGood (fun c p => compileField g
              { opts with autoClearOpt := some true } c p) := by
            intro s0 p0 f0 s0' hw hc
            obtain ⟨a, b, c, d, e, f5⟩ :=
              ihg { opts with autoClearOpt := some true } s0 p0 f0 s0' hw hc
            exact ⟨a, d, e⟩
          have hpAC : RecurPres (fun c p => compileField g
              { opts with autoClearOpt := some true } c p) := by
            intro s0 p0 f0 s0' hw hc
            obtain ⟨a, b, c, d, e, f5⟩ :=
              ihg { opts with autoClearOpt := some true } s0 p0 f0 s0' hw hc
            exact ⟨b, c⟩
          obtain ⟨⟨ext, hext⟩, ⟨P, hP, hPF⟩, hdeps⟩ :=
            objPropsFold_char (fun c p => compileField g opts c p)
              (fun c p => compileField g
                { opts with autoClearOpt := some true } c p)
              s.sh.base.requiredL pk hgS (s.sh.properties.getD [])
              ({ deps := (resolveDependencies s).2 } : ObjFoldSt) st
              hwf.propsMem hwf.depsMem hwf.depsNodup hst
          have hPP : st.props = P := hP
          have hskel : PropsSkel s (objUpdate s st U1 U2) := by
            constructor
            · rw [objUpdate_props]
              rcases hpr : s.sh.properties with _ | ps <;> simp [hpr]
            · rw [objUpdate_props]
              rcases hpr : s.sh.properties with _ | ps
              · simp only [hpr]
                exact List.Forall₂.nil
              · simp only [hpr, Option.getD_some]
                rw [hPP]
                have hPF2 : List.Forall₂
                    (propRel (fun c p => compileField g opts c p) pk) ps P := by
                  rw [hpr] at hPF
                  simpa using hPF
                have hwfps : ∀ p ∈ ps, WfD p.2 := by
                  have hx := hwf.propsMem
                  rw [hpr] at hx
                  simpa using hx
                exact forall₂_propRel_map (fun p q hw hpq => by
                  obtain ⟨hk, fv, hcv⟩ := hpq
                  exact ⟨hk, (ihg opts p.2 (pk ++ [p.1]) fv q.2 hw hcv).2.1⟩)
                  hwfps hPF2
          have hdisc : ∀ k, discOkCheck k (objUpdate s st U1 U2) =
              discOkCheck k s := by
            rcases hu1 with ⟨hOne, hU1⟩ | ⟨lo, u, hOne, hbu, hU1⟩ <;> subst hU1
            · intro k
              rfl
            · intro k
              refine discOkCheck_congr k ?_ ?_
              · rw [objUpdate_oneOf, hOne]
                rfl
              · rw [objUpdate_oneOf, hOne]
                have hbr := buildUnion_char (fun c p => compileField g
                    { opts with autoClearOpt := some true } c p)
                  pk .oneOf lo u.1 u.2 hbu
                have hwlo : ∀ b ∈ lo, WfD b := by
                  have hx := hwf.oneOfMem
                  rw [hOne] at hx
                  simpa using hx
                exact forall₂_brel_map (fun b q hw hbq => by
                  obtain ⟨fv, hcv⟩ := hbq
                  exact (ihg { opts with autoClearOpt := some true }
                    b pk fv q hw hcv).2.2.1) hwlo hbr
          have hkeys : s.sh.depsS.map Prod.fst = st.deps.map Prod.fst :=
            forall₂_keys (fun p q hpq => hpq.1) hdeps
          have honeW : ∀ c ∈ (objUpdate s st U1 U2).sh.oneOfL.getD [],
              WfD c := by
            rcases hu1 with ⟨hOne, hU1⟩ | ⟨lo, u, hOne, hbu, hU1⟩ <;> subst hU1
            · exact hwf.oneOfMem
            · intro c hc
              have hc2 : c ∈ u.2 := hc
              have hbr := buildUnion_char (fun c2 p2 => compileField g
                  { opts with autoClearOpt := some true } c2 p2)
                pk .oneOf lo u.1 u.2 hbu
              have hwlo : ∀ b ∈ lo, WfD b := by
                have hx := hwf.oneOfMem
                rw [hOne] at hx
                simpa using hx
              have hW : List.Forall₂ (fun b q2 : JSchema => WfD q2) lo u.2 :=
                forall₂_brel_map (fun b q2 hw hbq => by
                  obtain ⟨fv, hcv⟩ := hbq
                  exact (ihg { opts with autoClearOpt := some true }
                    b pk fv q2 hw hcv).2.2.2.2.1) hwlo hbr
              obtain ⟨p, hp⟩ := forall₂_right_mem hW c hc2
              exact hp
          have hanyW : ∀ c ∈ (objUpdate s st U1 U2).sh.anyOfL.getD [],
              WfD c := by
            rcases hu2 with ⟨hAny, hU2⟩ | ⟨la, u, hAny, hbu, hU2⟩ <;> subst hU2
            · exact hwf.anyOfMem
            · intro c hc
              have hc2 : c ∈ u.2 := hc
              have hbr := buildUnion_char (fun c2 p2 => compileField g
                  { opts with autoClearOpt := some true } c2 p2)
                pk .anyOf la u.1 u.2 hbu
              have hwla : ∀ b ∈ la, WfD b := by
                have hx := hwf.anyOfMem
                rw [hAny] at hx
                simpa using hx
              have hW : List.Forall₂ (fun b q2 : JSchema => WfD q2) la u.2 :=
                forall₂_brel_map (fun b q2 hw hbq => by
                  obtain ⟨fv, hcv⟩ := hbq
                  exact (ihg { opts with autoClearOpt := some true }
                    b pk fv q2 hw hcv).2.2.2.2.1) hwla hbr
              obtain ⟨p, hp⟩ := forall₂_right_mem hW c hc2
              exact hp
          have hpropsW : ∀ p ∈ (objUpdate s st U1 U2).sh.properties.getD [],
              WfD p.2 := by
            have hW : List.Forall₂ (fun a b : String × JSchema => WfD b.2)
                (s.sh.properties.getD []) P :=
              forall₂_propRel_map (fun a b hw hab => by
                obtain ⟨hk, fv, hcv⟩ := hab
                exact (ihg opts a.2 (pk ++ [a.1]) fv b.2 hw hcv).2.2.2.2.1)
                hwf.propsMem hPF
            intro p hp
            rw [objUpdate_props] at hp
            rcases hpr : s.sh.properties with _ | ps
            · rw [hpr] at hp
              simp at hp
            · rw [hpr] at hp
              have hp2 : p ∈ st.props := hp
              rw [hPP] at hp2
              obtain ⟨q, hq⟩ := forall₂_right_mem hW p hp2
              exact hq
          have hdepsW : ∀ p ∈ st.deps, WfD p.2 := by
            have hW : List.Forall₂ (fun a b : String × JSchema => WfD b.2)
                s.sh.depsS st.deps :=
              forall₂_depRel_map (fun a b hw hab => by
                obtain ⟨hk, hcc⟩ := hab
                rcases hcc with hb | ⟨hdd, fv, hcv⟩
                · rw [hb]
                  exact hw
                · exact (ihg opts a.2 (pk ++ [a.1]) fv b.2 hw hcv).2.2.2.2.1)
                hwf.depsMem hdeps
            intro p hp
            obtain ⟨q, hq⟩ := forall₂_right_mem hW p hp
            exact hq
          have hwfOU : WfD (objUpdate s st U1 U2) :=
            WfD.mk _ (hkeys ▸ hwf.depsNodup) honeW hanyW hpropsW hdepsW
          refine ⟨?_, rfl, hskel, hdisc, hwfOU, rfl⟩
          have hrefR : (objUpdate s st U1 U2).sh.base.ref = none := hrefN
          have hallR : (objUpdate s st U1 U2).sh.allOfL = none := hallN
          have hps : (objUpdate s st U1 U2).sh.properties.isSome =
              s.sh.properties.isSome := by
            rw [objUpdate_props]
            rcases hpr : s.sh.properties with _ | ps <;> simp [hpr]
          have hty : (objUpdate s st U1 U2).sh.base.typ = s.sh.base.typ := rfl
          have hgR : guessType (objUpdate s st U1 U2) =
              some (.tname "object") :=
            (guessType_congr hty hps).trans heq
          have hcondR : ((objUpdate s st U1 U2).sh.properties.isNone &&
              (objUpdate s st U1 U2).sh.oneOfL.isNone) = false := by
            have h1 : (objUpdate s st U1 U2).sh.properties.isNone =
                s.sh.properties.isNone := by
              rw [objUpdate_props]
              rcases hpr : s.sh.properties with _ | ps <;> simp [hpr]
            have h2 : (objUpdate s st U1 U2).sh.oneOfL.isNone =
                s.sh.oneOfL.isNone := by
              rcases hu1 with ⟨hOne, hU1⟩ | ⟨lo, u, hOne, hbu, hU1⟩ <;> subst hU1
              · rfl
              · rw [objUpdate_oneOf, hOne]
                rfl
            rw [h1, h2]
            exact hcond
          have hgd : (objUpdate s st U1 U2).sh.properties.getD [] =
              st.props := by
            rw [objUpdate_props]
            rcases hpr : s.sh.properties with _ | ps
            · simp only [hpr]
              rw [hpr] at hPF
              simp only [Option.getD_none] at hPF
              cases hPF
              rw [hPP]
              rfl
            · simp [hpr]
          have hfoldR : objPropsFold (fun c p => compileField g opts c p)
              (fun c p => compileField g
                { opts with autoClearOpt := some true } c p)
              (objUpdate s st U1 U2).sh.base.requiredL pk
              ((objUpdate s st U1 U2).sh.properties.getD [])
              ({ deps := (resolveDependencies (objUpdate s st U1 U2)).2 } :
                ObjFoldSt) = .ok st := by
            rw [hgd]
            exact objPropsFold_rerun (fun c p => compileField g opts c p)
              (fun c p => compileField g
                { opts with autoClearOpt := some true } c p)
              s.sh.base.requiredL pk hgS (s.sh.properties.getD []) st.props
              ({ deps := (resolveDependencies s).2 } : ObjFoldSt)
              ({ deps := (resolveDependencies (objUpdate s st U1 U2)).2 } :
                ObjFoldSt)
              st (by rw [hPP]; exact hPF) hwf.propsMem hwf.depsMem
              hwf.depsNodup rfl hst
          have hu1R : UnionRes (fun c p => compileField g
              { opts with autoClearOpt := some true } c p) pk .oneOf
              (objUpdate s st U1 U2).sh.oneOfL U1 :=
            unionRes_rerun hgAC hpAC hwf.oneOfMem hu1
          have hu2R : UnionRes (fun c p => compileField g
              { opts with autoClearOpt := some true } c p) pk .anyOf
              (objUpdate s st U1 U2).sh.anyOfL U2 :=
            unionRes_rerun hgAC hpAC hwf.anyOfMem hu2
          have hmbR : mkBaseField opts (objUpdate s st U1 U2) =
              mkBaseField opts s :=
            mkBaseField_congr opts (guessType_congr hty hps) rfl
          have hRU : (JSchema.mk { (objUpdate s st U1 U2).sh with
              properties := match (objUpdate s st U1 U2).sh.properties with
                | some _ => some st.props
                | none => none,
              depsS := st.deps,
              oneOfL := match U1.2 with
                | some l => some l
                | none => (objUpdate s st U1 U2).sh.oneOfL,
              anyOfL := match U2.2 with
                | some l => some l
                | none => (objUpdate s st U1 U2).sh.anyOfL }) =
              objUpdate s st U1 U2 := by
            rcases hu1 with ⟨hOne, hU1⟩ | ⟨lo, u, hOne, hbu, hU1⟩ <;>
              subst hU1 <;>
              rcases hu2 with ⟨hAny, hU2⟩ | ⟨la, u2, hAny, hbu2, hU2⟩ <;>
              subst hU2 <;>
              rcases hpr : s.sh.properties with _ | ps <;>
              simp only [objUpdate, hpr, hOne, hAny] <;> rfl
          have happ2 : applyEnumBlock (g + 1) (objUpdate s st U1 U2)
              (applyXsfBlock opts.exprCompiles (objUpdate s st U1 U2)
                (applyConstBlock (objUpdate s st U1 U2)
                  (.mk { (mkBaseField opts s).sh with
                    fieldGroup := some (st.fields ++ U1.1 ++ U2.1) } :
                    FieldOut))) = .ok f := happ
          have hfinR : objFinish g opts (objUpdate s st U1 U2)
              (objUpdate s st U1 U2) st U1 U2 =
              .ok (f, objUpdate s st U1 U2) :=
            objFinish_rerun g opts s (objUpdate s st U1 U2) st U1 U2 f
              hmbR hRU happ2
          exact objElse_run g opts (objUpdate s st U1 U2) pk st U1 U2
            (f, objUpdate s st U1 U2) hrefR hallR hgR hcondR hfoldR
            hu1R hu2R hfinR
      · -- default
        obtain ⟨f4, happ, hpp⟩ := bindOkInv hM
        have hpp2 : (Except.ok (f4,
            if s.sh.base.ref.isNone && s.sh.allOfL.isNone then s else s) :
            Except SchemaError (FieldOut × JSchema)) = .ok (f, s') := hpp
        cases hpp2
        rw [ite_self] at h0 ⊢
        exact ⟨h0, rfl, ⟨rfl, List.forall₂_same.mpr fun p _ => ⟨rfl, rfl⟩⟩,
          fun k => rfl, hwf, rfl⟩


/-- The concrete one-property object document is well formed. -/
theorem c9Schema_wf : WfD c9Schema := by
  refine WfD.mk _ (by simp) (fun c hc => absurd hc (by simp))
    (fun c hc => absurd hc (by simp)) ?_ (fun p hp => absurd hp (by simp))
  intro p hp
  have hp2 : p = ("num_key",
      (.mk { base := { typ := some (.single "number") } } : JSchema)) := by
    simpa using hp
  subst hp2
  exact WfD.mk _ (by simp) (fun c hc => absurd hc (by simp))
    (fun c hc => absurd hc (by simp)) (fun q hq => absurd hq (by simp))
    (fun q hq => absurd hq (by simp))

/-- C9: with fixed compile options and no test-specification override, a
successful `toFieldConfig` pass over a well-formed document is
deterministic against its own in-place document mutation: invoking
`toFieldConfig` again on the (possibly mutated) document yields the very
same field-descriptor tree — same kinds, labels, child order and keys —
and leaves the document fixed. -/
theorem c9_deterministic_recompilation (fuel : Nat) (ec : String → Bool)
    (schema : JSchema) (f : FieldOut) (d1 : JSchema)
    (hwf : WfD schema)
    (h : toFieldConfigF fuel ec none schema = .ok (f, d1)) :
    toFieldConfigF fuel ec none d1 = .ok (f, d1) := by
  rw [toFieldConfigF] at h ⊢
  obtain ⟨hfix, hbase, hskel, hdisc, hwf1, hdefs⟩ :=
    compileField_fix fuel
      { rootDefs := schema.sh.defs, autoClearOpt := none,
        exprCompiles := ec, testSpec := none } schema [] f d1 hwf h
  rw [hdefs]
  exact hfix

/-- The recompilation fixpoint witnessed on the concrete one-property
object document. -/
theorem c9_deterministic_recompilation_witness :
    WfD c9Schema ∧
    toFieldConfigF 2 (fun _ => false) none c9Result.2 = .ok c9Result :=
  ⟨c9Schema_wf,
   c9_deterministic_recompilation 2 (fun _ => false) c9Schema
     c9Result.1 c9Result.2 c9Schema_wf (by rfl)⟩


/-!  C10: heap-model lemmas for the deep-clone no-aliasing claim.  -/

/-- In-range references stay in range as the bound grows. -/
theorem refBelowB_mono {n m : Nat} (h : n ≤ m) {v : HVal}
    (hv : refBelowB n v = true) : refBelowB m v = true := by
  cases v with
  | vprim p => rfl
  | vref a =>
    have hv2 : a < n := by
      rw [refBelowB] at hv
      exact of_decide_eq_true hv
    rw [refBelowB]
    exact decide_eq_true (Nat.lt_of_lt_of_le hv2 h)

/-- Fresh references stay fresh as the base shrinks. -/
theorem refAtLeastB_mono {n m : Nat} (h : n ≤ m) {v : HVal}
    (hv : refAtLeastB m v = true) : refAtLeastB n v = true := by
  cases v with
  | vprim p => rfl
  | vref a =>
    have hv2 : m ≤ a := by
      rw [refAtLeastB] at hv
      exact of_decide_eq_true hv
    rw [refAtLeastB]
    exact decide_eq_true (Nat.le_trans h hv2)

/-- Extract the per-field range bound from heap well-formedness. -/
theorem heapWFB_mem {h : Heap} {a : Addr} {o : HObj}
    (hwf : heapWFB h = true) (hget : h.get? a = some o) :
    ∀ kv ∈ o, refBelowB h.length kv.2 = true := by
  intro kv hkv
  have ho : o ∈ h := by
    exact List.get?_mem hget
  have h1 := (List.all_eq_true.mp hwf) o ho
  exact (List.all_eq_true.mp h1) kv hkv

/-- Appending one object whose fields are in range preserves heap
well-formedness. -/
theorem heapWFB_snoc {h : Heap} {o : HObj}
    (hwf : heapWFB h = true)
    (ho : ∀ kv ∈ o, refBelowB (h ++ [o]).length kv.2 = true) :
    heapWFB (h ++ [o]) = true := by
  rw [heapWFB, List.all_append]
  refine (Bool.and_eq_true _ _).mpr ⟨?_, ?_⟩
  · rw [List.all_eq_true]
    intro p hp
    rw [List.all_eq_true]
    intro kv hkv
    have := (List.all_eq_true.mp ((List.all_eq_true.mp hwf) p hp)) kv hkv
    exact refBelowB_mono (by simp) this
  · simp only [List.all_cons, List.all_nil, Bool.and_true]
    rw [List.all_eq_true]
    exact ho

/-- The closed-region property is vacuous at the heap's length. -/
theorem regionClosed_refl (h : Heap) : regionClosedFrom h h.length := by
  intro i o hi hget
  have := List.get?_eq_none.mpr hi
  rw [this] at hget
  cases hget

/-- Compose closures across a grown heap. -/
theorem regionClosed_compose {h h2 : Heap} {n : Nat} {ext : List HObj}
    (hc1 : regionClosedFrom h n) (hn : n ≤ h.length)
    (hc2 : regionClosedFrom h2 h.length) (hext : h2 = h ++ ext) :
    regionClosedFrom h2 n := by
  intro i o hi hget kv hkv
  rcases Nat.lt_or_ge i h.length with hlt | hge
  · have hg : h.get? i = some o := by
      rw [hext, List.get?_append hlt] at hget
      exact hget
    exact hc1 i o hi hg kv hkv
  · exact refAtLeastB_mono hn (hc2 i o hge hget kv hkv)

/-- Appending one object whose fields are fresh preserves closure. -/
theorem regionClosed_snoc {h : Heap} {n : Nat} {o : HObj}
    (hc : regionClosedFrom h n)
    (ho : ∀ kv ∈ o, refAtLeastB n kv.2 = true) :
    regionClosedFrom (h ++ [o]) n := by
  intro i p hi hget kv hkv
  rcases Nat.lt_or_ge i h.length with hlt | hge
  · have hg : h.get? i = some p := by
      rw [List.get?_append hlt] at hget
      exact hget
    exact hc i p hi hg kv hkv
  · rcases Nat.lt_or_ge i (h ++ [o]).length with hlt2 | hge2
    · have hieq : i = h.length := by
        simp only [List.length_append, List.length_cons, List.length_nil] at hlt2
        omega
      subst hieq
      rw [List.get?_concat_length] at hget
      cases hget
      exact ho kv hkv
    · have := List.get?_eq_none.mpr hge2
      rw [this] at hget
      cases hget

/-- Every address reachable from a fresh value through a heap whose fresh
region is closed is itself fresh. -/
theorem reaches_fresh {h : Heap} {n : Nat} {v : HVal} {b : Addr}
    (hv : refAtLeastB n v = true) (hc : regionClosedFrom h n)
    (hr : Reaches h v b) : n ≤ b := by
  induction hr with
  | here a =>
    simpa [refAtLeastB] using hv
  | step a o k w b hget hmem hr2 ih =>
    have ha : n ≤ a := by simpa [refAtLeastB] using hv
    exact ih (hc a o ha hget (k, w) hmem)

/-- Invert a successful `Option` bind. -/
theorem obindInv {α β : Type} {m : Option α} {k : α → Option β} {b : β}
    (h : m >>= k = some b) : ∃ a, m = some a ∧ k a = some b := by
  cases m with
  | none => cases h
  | some a => exact ⟨a, rfl, h⟩

/-- Two heaps agreeing on a downward-closed low region denote low values
identically. -/
theorem denoteV_low_agree : ∀ (d : Nat) (h1 h2 : Heap) (n : Nat) (v : HVal),
    (∀ a, a < n → h1.get? a = h2.get? a) →
    (∀ a o, a < n → h1.get? a = some o →
      ∀ kv ∈ o, refBelowB n kv.2 = true) →
    refBelowB n v = true →
    denoteV d h1 v = denoteV d h2 v := by
  intro d
  induction d with
  | zero => intro h1 h2 n v _ _ _; rfl
  | succ e ih =>
    intro h1 h2 n v hag hcl hv
    cases v with
    | vprim p => rfl
    | vref a =>
      have ha : a < n := by
        rw [refBelowB] at hv
        exact of_decide_eq_true hv
      have hbothg := hag a ha
      rcases hga : h1.get? a with _ | o
      · have hgb : h2.get? a = none := hbothg.symm.trans hga
        simp only [denoteV, hga, hgb]
      · have hgb : h2.get? a = some o := hbothg.symm.trans hga
        simp only [denoteV, hga, hgb]
        refine congrArg DTree.dobj (List.map_congr_left ?_)
        intro kv hkv
        have hd := ih h1 h2 n kv.2 hag hcl (hcl a o ha hga kv hkv)
        rw [hd]

/-- Growing the heap does not change the denotation of in-range
values. -/
theorem denote_ext {h : Heap} (ext : List HObj) {v : HVal} (d : Nat)
    (hwf : heapWFB h = true) (hv : refBelowB h.length v = true) :
    denoteV d (h ++ ext) v = denoteV d h v :=
  (denoteV_low_agree d h (h ++ ext) h.length v
    (fun a ha => (List.get?_append ha).symm)
    (fun a o _ hg => heapWFB_mem hwf hg) hv).symm

/-- Transport a pointwise consequence that needs a property of the left
elements. -/
theorem forall₂_memL_imp {α β : Type} {R Q : α → β → Prop} {Pm : α → Prop}
    (himp : ∀ a b, Pm a → R a b → Q a b) :
    ∀ {L : List α} {P : List β}, (∀ a ∈ L, Pm a) →
    List.Forall₂ R L P → List.Forall₂ Q L P := by
  intro L P hm h
  induction h with
  | nil => exact .nil
  | @cons p q t t2 hpq _ ih =>
    exact .cons (himp p q (hm p (List.mem_cons_self _ _)) hpq)
      (ih (fun c hc => hm c (List.mem_cons_of_mem _ hc)))

/-- Transport a pointwise consequence that needs a property of the right
elements. -/
theorem forall₂_memR_imp {α β : Type} {R Q : α → β → Prop} {Pm : β → Prop}
    (himp : ∀ a b, Pm b → R a b → Q a b) :
    ∀ {L : List α} {P : List β}, (∀ b ∈ P, Pm b) →
    List.Forall₂ R L P → List.Forall₂ Q L P := by
  intro L P hm h
  induction h with
  | nil => exact .nil
  | @cons p q t t2 hpq _ ih =>
    exact .cons (himp p q (hm q (List.mem_cons_self _ _)) hpq)
      (ih (fun c hc => hm c (List.mem_cons_of_mem _ hc)))

/-- A pointwise image equality transfers to the mapped lists. -/
theorem forall₂_map_eq {α β γ : Type} {F : α → γ} {G : β → γ} :
    ∀ {L : List α} {P : List β},
    List.Forall₂ (fun a b => G b = F a) L P → P.map G = L.map F := by
  intro L P h
  induction h with
  | nil => rfl
  | cons hpq _ ih => simp [List.map_cons, hpq, ih]

/-- A heap mutation leaves every other address unchanged. -/
theorem setHeapField_get?_ne (h : Heap) (a : Addr) (k : String) (v : HVal)
    (i : Addr) (hne : i ≠ a) :
    (setHeapField h a k v).get? i = h.get? i := by
  rw [setHeapField]
  rcases hg : h.get? a with _ | o
  · rfl
  · exact List.get?_set_ne _ _ (Ne.symm hne)

/-- A field write only adds or overwrites the written key. -/
theorem setObjField_mem {o : HObj} {k : String} {v : HVal} :
    ∀ kv ∈ setObjField o k v, kv ∈ o ∨ kv = (k, v) := by
  intro kv hkv
  rw [setObjField] at hkv
  split at hkv
  · rcases List.mem_map.mp hkv with ⟨kv0, hkv0, heq⟩
    by_cases hb : kv0.1 = k
    · right
      rw [if_pos hb] at heq
      exact heq.symm
    · left
      rw [if_neg hb] at heq
      exact heq ▸ hkv0
  · rcases List.mem_append.mp hkv with h1 | h2
    · exact .inl h1
    · right
      simpa using h2

/-- Field-loop invariant of `cloneDeep`: the threaded heap only grows,
stays well formed and region-closed, and the produced fields are fresh,
in range, key-aligned, primitive-preserving and denotation-preserving. -/
theorem cloneFold_spec (fuel : Nat) (hCS : CSpec fuel) (n : Nat) :
    ∀ (flds : List (String × HVal)) (h0 : Heap) (acc : HObj)
      (r : Heap × HObj),
    heapWFB h0 = true → n ≤ h0.length → regionClosedFrom h0 n →
    (∀ kv ∈ flds, refBelowB n kv.2 = true) →
    List.foldlM (fun (acc2 : Heap × HObj) kv => do
        let hv ← cloneVal fuel acc2.1 kv.2
        pure (hv.1, acc2.2 ++ [(kv.1, hv.2)])) (h0, acc) flds = some r →
    (∃ ext, r.1 = h0 ++ ext) ∧ heapWFB r.1 = true ∧
    regionClosedFrom r.1 n ∧
    (∃ newf, r.2 = acc ++ newf ∧
      (∀ wv ∈ newf, refAtLeastB n wv.2 = true ∧
        refBelowB r.1.length wv.2 = true) ∧
      List.Forall₂ (fun kv wv : String × HVal => kv.1 = wv.1 ∧
        (∀ p, kv.2 = .vprim p → wv.2 = .vprim p) ∧
        (∀ d, d ≤ fuel → denoteV d r.1 wv.2 = denoteV d h0 kv.2))
        flds newf) := by
  intro flds
  induction flds with
  | nil =>
    intro h0 acc r hwf hn hcl hfl h
    rw [List.foldlM_nil] at h
    cases h
    exact ⟨⟨[], (List.append_nil _).symm⟩, hwf, hcl,
      ⟨[], (List.append_nil _).symm, fun wv hwv => absurd hwv (by simp), .nil⟩⟩
  | cons kv rest ih =>
    intro h0 acc r hwf hn hcl hfl h
    rw [List.foldlM_cons] at h
    obtain ⟨acc1, hF, hrest⟩ := obindInv h
    obtain ⟨hv, hcv, hpure⟩ := obindInv hF
    cases hpure
    have hblo : refBelowB h0.length kv.2 = true :=
      refBelowB_mono hn (hfl kv (List.mem_cons_self _ _))
    obtain ⟨⟨e1, he1⟩, hwf1, hal1, hbl1, hc1, hpp1, hden1⟩ :=
      hCS h0 kv.2 hv.1 hv.2 hwf hblo hcv
    have hn1 : n ≤ hv.1.length := by
      rw [he1, List.length_append]
      omega
    have hcln1 : regionClosedFrom hv.1 n :=
      regionClosed_compose hcl hn hc1 he1
    have hflr : ∀ kv2 ∈ rest, refBelowB n kv2.2 = true :=
      fun kv2 hk => hfl kv2 (List.mem_cons_of_mem _ hk)
    obtain ⟨⟨e2, he2⟩, hwfr, hclr, ⟨newf, hnewf, hprops, hF2⟩⟩ :=
      ih hv.1 (acc ++ [(kv.1, hv.2)]) r hwf1 hn1 hcln1 hflr hrest
    refine ⟨⟨e1 ++ e2, by rw [he2, he1, List.append_assoc]⟩, hwfr, hclr,
      ⟨(kv.1, hv.2) :: newf, by rw [hnewf, List.append_assoc]; rfl, ?_, ?_⟩⟩
    · intro wv hwv
      rcases List.mem_cons.mp hwv with rfl | hwv2
      · refine ⟨refAtLeastB_mono hn hal1, ?_⟩
        have hle : hv.1.length ≤ r.1.length := by
          rw [he2, List.length_append]
          omega
        exact refBelowB_mono hle hbl1
      · exact hprops wv hwv2
    · refine .cons ⟨rfl, ?_, ?_⟩ ?_
      · intro p hp
        exact hpp1 p hp
      · intro d hd
        have h1 : denoteV d r.1 hv.2 = denoteV d hv.1 hv.2 := by
          rw [he2]
          exact denote_ext e2 d hwf1 hbl1
        rw [h1, hden1 d hd]
      · refine forall₂_memL_imp ?_ hflr hF2
        intro a b hPa hRab
        obtain ⟨hk, hpp, hden⟩ := hRab
        refine ⟨hk, hpp, ?_⟩
        intro d hd
        rw [hden d hd, he1]
        exact denote_ext e1 d hwf (refBelowB_mono hn hPa)

/-- `cloneDeep` is correct at every recursion budget: the heap grows, the
result is fresh and closed, and every denotation within budget is
preserved. -/
theorem cloneVal_spec : ∀ fuel, CSpec fuel := by
  intro fuel
  induction fuel with
  | zero =>
    intro h v h2 v2 _ _ hc
    rw [cloneVal] at hc
    cases hc
  | succ f ihf =>
    intro h v h2 v2 hwf hbl hc
    cases v with
    | vprim p =>
      rw [cloneVal] at hc
      have hc2 : (some (h, HVal.vprim p) : Option (Heap × HVal)) =
          some (h2, v2) := hc
      cases hc2
      exact ⟨⟨[], (List.append_nil _).symm⟩, hwf, rfl, rfl,
        regionClosed_refl h, fun p2 hp2 => by cases hp2; rfl,
        fun d hd => rfl⟩
    | vref a =>
      have ha : a < h.length := by
        rw [refBelowB] at hbl
        exact of_decide_eq_true hbl
      rcases hget : h.get? a with _ | o
      · exact absurd ha (Nat.not_lt.mpr (List.get?_eq_none.mp hget))
      · have hc2 := hc
        simp only [cloneVal, hget] at hc2
        obtain ⟨r, hfold, hpure⟩ := obindInv hc2
        have hpure2 : (some (r.1 ++ [r.2], HVal.vref r.1.length) :
            Option (Heap × HVal)) = some (h2, v2) := hpure
        cases hpure2
        have hflds : ∀ kv ∈ o, refBelowB h.length kv.2 = true :=
          heapWFB_mem hwf hget
        obtain ⟨⟨ext, hext⟩, hwfr, hclr, ⟨newf, hnewf, hprops, hF2⟩⟩ :=
          cloneFold_spec f ihf h.length o h ([] : HObj) r hwf
            (Nat.le_refl _) (regionClosed_refl h) hflds hfold
        have hnewf2 : r.2 = newf := hnewf
        refine ⟨⟨ext ++ [r.2], by rw [hext, List.append_assoc]⟩,
          ?_, ?_, ?_, ?_, ?_, ?_⟩
        · refine heapWFB_snoc hwfr ?_
          intro kv hkv
          exact refBelowB_mono (by simp) (hprops kv (hnewf2 ▸ hkv)).2
        · rw [refAtLeastB]
          refine decide_eq_true ?_
          rw [hext, List.length_append]
          omega
        · rw [refBelowB]
          refine decide_eq_true ?_
          rw [List.length_append]
          simp
        · exact regionClosed_snoc hclr
            (fun kv hkv => (hprops kv (hnewf2 ▸ hkv)).1)
        · intro p hp
          cases hp
        · intro d hd
          cases d with
          | zero => rfl
          | succ e =>
            have hde : e ≤ f := Nat.succ_le_succ_iff.mp hd
            have hg2 : (r.1 ++ [r.2]).get? r.1.length = some r.2 :=
              List.get?_concat_length _ _
            simp only [denoteV, hg2, hget]
            refine congrArg DTree.dobj ?_
            rw [hnewf2]
            refine forall₂_map_eq
              (forall₂_memR_imp ?_ (fun b hb => hprops b hb) hF2)
            intro a2 b hPb hRab
            obtain ⟨hk, _, hden⟩ := hRab
            have h1 : denoteV e (r.1 ++ [newf]) b.2 = denoteV e r.1 b.2 :=
              denote_ext [newf] e hwfr hPb.2
            show (b.1, denoteV e (r.1 ++ [newf]) b.2) =
              (a2.1, denoteV e h a2.2)
            rw [hk, h1, hden e hde]

/-- `cloneDeep` preserves the readable `name` property. -/
theorem cloneVal_readName (fuel : Nat) {h : Heap} {v : HVal} {h2 : Heap}
    {v2 : HVal} {s : String}
    (hwf : heapWFB h = true)
    (hc : cloneVal fuel h v = some (h2, v2))
    (hrn : readName h v = some s) : readName h2 v2 = some s := by
  cases v with
  | vprim p =>
    simp only [readName] at hrn
    cases hrn
  | vref a =>
    cases fuel with
    | zero =>
      rw [cloneVal] at hc
      cases hc
    | succ f =>
      rcases hget : h.get? a with _ | o
      · simp only [readName, hget] at hrn
        cases hrn
      · simp only [readName, hget] at hrn
        rcases hlk : o.lookup "name" with _ | wv
        · rw [hlk] at hrn
          cases hrn
        · rw [hlk] at hrn
          rcases wv with p | aw
          · rcases p with _ | _ | bb | qq | ss
            · cases hrn
            · cases hrn
            · cases hrn
            · cases hrn
            · have hss : ss = s := Option.some.inj hrn
              subst hss
              simp only [cloneVal, hget] at hc
              obtain ⟨r, hfold, hpure⟩ := obindInv hc
              have hpure2 : (some (r.1 ++ [r.2], HVal.vref r.1.length) :
                  Option (Heap × HVal)) = some (h2, v2) := hpure
              cases hpure2
              obtain ⟨_, _, _, ⟨newf, hnewf, _, hF2⟩⟩ :=
                cloneFold_spec f (cloneVal_spec f) h.length o h ([] : HObj)
                  r hwf (Nat.le_refl _) (regionClosed_refl h)
                  (heapWFB_mem hwf hget) hfold
              have hnewf2 : r.2 = newf := hnewf
              rcases forall₂_lookup (fun p q hpq => hpq.1) hF2 "name" with
                ⟨hn1, _⟩ | ⟨cs, cs2, hs1, hs2, hR⟩
              · rw [hlk] at hn1
                cases hn1
              · rw [hlk] at hs1
                have hcs : cs = HVal.vprim (.str ss) :=
                  (Option.some.inj hs1).symm
                have hcs2 : cs2 = HVal.vprim (.str ss) :=
                  hR.2.1 (JPrim.str ss) (by rw [hcs])
                simp only [readName, List.get?_concat_length, hnewf2,
                  hs2, hcs2]
          · cases hrn

/-- Mutating a fresh address leaves the denotation of every in-range
value of the original heap unchanged. -/
theorem store_frame (st : StoreSt) (H : Heap) (ext : List HObj)
    (hwf : heapWFB st.heap = true)
    (hH : H = st.heap ++ ext)
    {b : Addr} (hb : st.heap.length ≤ b) (k : String) (w : HVal)
    {c : HVal} (hc : refBelowB st.heap.length c = true) (d : Nat) :
    denoteV d (setHeapField H b k w) c = denoteV d st.heap c := by
  refine (denoteV_low_agree d st.heap (setHeapField H b k w)
    st.heap.length c ?_ (fun a o _ hg => heapWFB_mem hwf hg) hc).symm
  intro a ha
  rw [setHeapField_get?_ne H b k w a
    (fun he => absurd (he ▸ ha) (Nat.not_lt.mpr hb))]
  rw [hH, List.get?_append ha]

/-- The tail of `setEditedClonedConfigByName`: the assembled wrapper
carries the overridden metadata, and mutating anything reachable from it
cannot change any in-range value of the original store heap. -/
theorem clonedFinal (st : StoreSt) (d : Nat) (H2 : Heap)
    (CF AS CO : HObj) (H4 HF : Heap)
    (cname user metaName metaVersion : String)
    (b : Addr) (k : String) (w : HVal) (c : HVal)
    (hwf : heapWFB st.heap = true)
    (hcb : refBelowB st.heap.length c = true)
    (hext : ∃ ext, H2 = st.heap ++ ext)
    (hwf2 : heapWFB H2 = true)
    (hcl2 : regionClosedFrom H2 st.heap.length)
    (hCF : ∀ kv ∈ CF, refAtLeastB st.heap.length kv.2 = true ∧
      refBelowB H2.length kv.2 = true)
    (hAS : AS = setObjField (setObjField CF metaName
        (HVal.vprim (.str (cname ++ "_clone"))))
      metaVersion (HVal.vprim (.num 0)))
    (hCO : CO = [("isNew", HVal.vprim (.bool true)),
      ("configData", HVal.vref H2.length),
      ("savedInBackend", HVal.vprim (.bool false)),
      ("name", HVal.vprim (.str (cname ++ "_clone"))),
      ("author", HVal.vprim (.str user)),
      ("version", HVal.vprim (.num 0)),
      ("description", HVal.vprim (.str ("cloned from " ++ cname))),
      ("testCases", HVal.vref (H2 ++ [AS]).length)])
    (hH4 : H4 = (H2 ++ [AS]) ++ [([] : HObj)])
    (hHF : HF = H4 ++ [CO]) :
    (∃ a o, (HVal.vref H4.length : HVal) = .vref a ∧ HF.get? a = some o ∧
      o.lookup "version" = some (.vprim (.num 0)) ∧
      o.lookup "isNew" = some (.vprim (.bool true)) ∧
      o.lookup "name" = some (.vprim (.str (cname ++ "_clone")))) ∧
    (Reaches HF (.vref H4.length) b →
      denoteV d (setHeapField HF b k w) c = denoteV d st.heap c) := by
  obtain ⟨ext, he⟩ := hext
  have hle2 : st.heap.length ≤ H2.length := by
    rw [he, List.length_append]
    omega
  have hASf : ∀ kv ∈ AS, refAtLeastB st.heap.length kv.2 = true ∧
      refBelowB H2.length kv.2 = true := by
    intro kv hkv
    rw [hAS] at hkv
    rcases setObjField_mem kv hkv with h1 | rfl
    · rcases setObjField_mem kv h1 with h2 | rfl
      · exact hCF kv h2
      · exact ⟨rfl, rfl⟩
    · exact ⟨rfl, rfl⟩
  constructor
  · subst hHF hH4 hCO
    refine ⟨_, _, rfl, List.get?_concat_length _ _, ?_, ?_, ?_⟩ <;> rfl
  · intro hr
    have hwf3 : heapWFB (H2 ++ [AS]) = true :=
      heapWFB_snoc hwf2 (fun kv hkv =>
        refBelowB_mono (by simp) (hASf kv hkv).2)
    have hwf4 : heapWFB H4 = true := by
      rw [hH4]
      exact heapWFB_snoc hwf3 (fun kv hkv => absurd hkv (by simp))
    have hwfF : heapWFB HF = true := by
      rw [hHF]
      refine heapWFB_snoc hwf4 ?_
      intro kv hkv
      rw [hCO] at hkv
      simp only [List.mem_cons, List.not_mem_nil, or_false] at hkv
      rcases hkv with rfl|rfl|rfl|rfl|rfl|rfl|rfl|rfl
      · rfl
      · rw [refBelowB]
        simp only [decide_eq_true_eq]
        rw [hH4]
        simp only [List.length_append, List.length_cons, List.length_nil]
        exact Nat.lt_succ_of_le (Nat.le_succ_of_le (Nat.le_succ _))
      · rfl
      · rfl
      · rfl
      · rfl
      · rfl
      · rw [refBelowB]
        simp only [decide_eq_true_eq]
        rw [hH4]
        simp only [List.length_append, List.length_cons, List.length_nil]
        exact Nat.lt_succ_of_le (Nat.le_succ _)
    have hcl3 : regionClosedFrom (H2 ++ [AS]) st.heap.length :=
      regionClosed_snoc hcl2 (fun kv hkv => (hASf kv hkv).1)
    have hcl4 : regionClosedFrom H4 st.heap.length := by
      rw [hH4]
      exact regionClosed_snoc hcl3 (fun kv hkv => absurd hkv (by simp))
    have hclF : regionClosedFrom HF st.heap.length := by
      rw [hHF]
      refine regionClosed_snoc hcl4 ?_
      intro kv hkv
      rw [hCO] at hkv
      simp only [List.mem_cons, List.not_mem_nil, or_false] at hkv
      rcases hkv with rfl|rfl|rfl|rfl|rfl|rfl|rfl|rfl
      · rfl
      · rw [refAtLeastB]
        exact decide_eq_true hle2
      · rfl
      · rfl
      · rfl
      · rfl
      · rfl
      · rw [refAtLeastB]
        simp only [decide_eq_true_eq]
        rw [List.length_append]
        omega
    have halF : refAtLeastB st.heap.length (HVal.vref H4.length) = true := by
      rw [refAtLeastB]
      simp only [decide_eq_true_eq]
      rw [hH4]
      simp only [List.length_append, List.length_cons, List.length_nil]
      omega
    have hextF : HF = st.heap ++ (ext ++ [AS] ++ [([] : HObj)] ++ [CO]) := by
      rw [hHF, hH4, he]
      simp [List.append_assoc]
    exact store_frame st HF (ext ++ [AS] ++ [([] : HObj)] ++ [CO]) hwf hextF
      (reaches_fresh halF hclF hr) k w hcb d

/-- C10: selecting a config for editing never aliases the store: both
`setEditedConfigByName` and `setEditedClonedConfigByName` place a deep
copy into the edited slot — the plain variant denotes exactly the stored
config found by name, the cloned variant additionally carries version 0,
`isNew` true and the `_clone`-suffixed name — and a subsequent mutation
of any field reachable from the edited value leaves the denotation of
every entry of the store's configs array unchanged. -/
theorem c10_edit_no_store_aliasing (fuel d : Nat) (st : StoreSt)
    (nm metaName metaVersion user : String)
    (h2 : Heap) (v : HVal) (b : Addr) (k : String) (w : HVal) (c : HVal)
    (hwf : heapWFB st.heap = true)
    (hcfg : st.configs.all (refBelowB st.heap.length) = true)
    (hc : c ∈ st.configs) :
    (setEditedConfigByName fuel st nm = some (h2, v) →
      (∃ c0, st.configs.find? (fun x => readName st.heap x == some nm) =
          some c0 ∧ (d ≤ fuel → denoteV d h2 v = denoteV d st.heap c0)) ∧
      (Reaches h2 v b →
        denoteV d (setHeapField h2 b k w) c = denoteV d st.heap c)) ∧
    (setEditedClonedConfigByName fuel st nm metaName metaVersion user =
        some (h2, v) →
      (∃ a o, v = .vref a ∧ h2.get? a = some o ∧
        o.lookup "version" = some (.vprim (.num 0)) ∧
        o.lookup "isNew" = some (.vprim (.bool true)) ∧
        o.lookup "name" = some (.vprim (.str (nm ++ "_clone")))) ∧
      (Reaches h2 v b →
        denoteV d (setHeapField h2 b k w) c = denoteV d st.heap c)) := by
  have hcb : refBelowB st.heap.length c = true :=
    (List.all_eq_true.mp hcfg) c hc
  constructor
  · intro hset
    rw [setEditedConfigByName, getConfigByName] at hset
    rcases hfind : st.configs.find?
        (fun x => readName st.heap x == some nm) with _ | c0
    · rw [hfind] at hset
      cases hset
    · rw [hfind] at hset
      have hclone : cloneVal fuel st.heap c0 = some (h2, v) := hset
      have hc0b : refBelowB st.heap.length c0 = true :=
        (List.all_eq_true.mp hcfg) c0 (List.mem_of_find?_eq_some hfind)
      obtain ⟨⟨ext, hext⟩, hwfc, hal, hblc, hclc, _, hden⟩ :=
        cloneVal_spec fuel st.heap c0 h2 v hwf hc0b hclone
      refine ⟨⟨c0, rfl, fun hd => hden d hd⟩, ?_⟩
      intro hr
      exact store_frame st h2 ext hwf hext
        (reaches_fresh hal hclc hr) k w hcb d
  · intro hset
    rw [setEditedClonedConfigByName] at hset
    obtain ⟨hcp, hget1, hrest⟩ := obindInv hset
    rcases hv2 : hcp.2 with p | aa
    · rw [hv2] at hrest
      cases hrest
    · rw [hv2] at hrest
      obtain ⟨a1, ha1, hrest2⟩ := obindInv hrest
      cases ha1
      obtain ⟨o0, hgeto, hrest3⟩ := obindInv hrest2
      obtain ⟨cname, hcn, hrest4⟩ := obindInv hrest3
      obtain ⟨hcd, hclone2, hpure⟩ := obindInv hrest4
      cases hpure
      rw [getConfigByName] at hget1
      rcases hfind : st.configs.find?
          (fun x => readName st.heap x == some nm) with _ | c0
      · rw [hfind] at hget1
        cases hget1
      · rw [hfind] at hget1
        have hclone1 : cloneVal fuel st.heap c0 = some (hcp.1, hcp.2) := hget1
        have hc0b : refBelowB st.heap.length c0 = true :=
          (List.all_eq_true.mp hcfg) c0 (List.mem_of_find?_eq_some hfind)
        obtain ⟨⟨e1, he1⟩, hwf1, hal1, hbl1, hcl1, _, hden1⟩ :=
          cloneVal_spec fuel st.heap c0 hcp.1 hcp.2 hwf hc0b hclone1
        have hn1 : st.heap.length ≤ hcp.1.length := by
          rw [he1, List.length_append]
          exact Nat.le_add_right _ _
        have hname0 : readName st.heap c0 = some nm := by
          have hpred := List.find?_some hfind
          simpa using hpred
        have hcname : cname = nm := by
          have hrn := cloneVal_readName fuel hwf hclone1 hname0
          rw [hv2, hcn] at hrn
          exact Option.some.inj hrn
        have hcdb : refBelowB hcp.1.length
            ((o0.lookup "configData").getD (.vprim .undef)) = true := by
          rcases hlk : o0.lookup "configData" with _ | cdv
          · rfl
          · exact heapWFB_mem hwf1 hgeto ("configData", cdv) (lookupMem hlk)
        obtain ⟨⟨e2, he2⟩, hwf2, hal2, hbl2, hcl2, _, hden2⟩ :=
          cloneVal_spec fuel hcp.1
            ((o0.lookup "configData").getD (.vprim .undef)) hcd.1 hcd.2
            hwf1 hcdb hclone2
        have hcl2s : regionClosedFrom hcd.1 st.heap.length :=
          regionClosed_compose hcl1 hn1 hcl2 he2
        have hCF : ∀ kv ∈ (match hcd.2 with
            | HVal.vref bb => (hcd.1.get? bb).getD []
            | HVal.vprim _ => ([] : HObj)),
            refAtLeastB st.heap.length kv.2 = true ∧
            refBelowB hcd.1.length kv.2 = true := by
          rcases hv2d : hcd.2 with p | bb
          · intro kv hkv
            simp at hkv
          · intro kv hkv
            have hkv3 : kv ∈ (hcd.1.get? bb).getD [] := hkv
            rcases hgb : hcd.1.get? bb with _ | ob
            · rw [hgb] at hkv3
              simp at hkv3
            · rw [hgb] at hkv3
              have hkv2 : kv ∈ ob := hkv3
              have hbb : hcp.1.length ≤ bb := by
                have hx := hal2
                rw [hv2d, refAtLeastB] at hx
                exact of_decide_eq_true hx
              exact ⟨refAtLeastB_mono hn1 (hcl2 bb ob hbb hgb kv hkv2),
                heapWFB_mem hwf2 hgb kv hkv2⟩
        have hres := clonedFinal st d hcd.1 _ _ _ _ _ cname user metaName
          metaVersion b k w c hwf hcb
          ⟨e1 ++ e2, by rw [he2, he1, List.append_assoc]⟩ hwf2 hcl2s hCF
          rfl rfl rfl rfl
        rw [← hcname]
        exact hres

/-- The no-aliasing bundle witnessed on the concrete two-object store. -/
theorem c10_edit_no_store_aliasing_witness :
    (heapWFB c10Store.heap = true ∧
     c10Store.configs.all (refBelowB c10Store.heap.length) = true ∧
     HVal.vref 0 ∈ c10Store.configs ∧
     (setEditedConfigByName 4 c10Store "cfg").isSome = true ∧
     (setEditedClonedConfigByName 4 c10Store "cfg" "name" "version"
       "user").isSome = true) ∧
    ((setEditedConfigByName 4 c10Store "cfg" =
        some (c10Res.1, c10Res.2) →
      (∃ c0, c10Store.configs.find?
          (fun x => readName c10Store.heap x == some "cfg") = some c0 ∧
        (3 ≤ 4 → denoteV 3 c10Res.1 c10Res.2 =
          denoteV 3 c10Store.heap c0)) ∧
      (Reaches c10Res.1 c10Res.2 4 →
        denoteV 3 (setHeapField c10Res.1 4 "y" (HVal.vprim (.num 5)))
            (HVal.vref 0) =
          denoteV 3 c10Store.heap (HVal.vref 0))) ∧
     (setEditedClonedConfigByName 4 c10Store "cfg" "name" "version"
         "user" = some (c10Res.1, c10Res.2) →
      (∃ a o, c10Res.2 = .vref a ∧ c10Res.1.get? a = some o ∧
        o.lookup "version" = some (.vprim (.num 0)) ∧
        o.lookup "isNew" = some (.vprim (.bool true)) ∧
        o.lookup "name" = some (.vprim (.str ("cfg" ++ "_clone")))) ∧
      (Reaches c10Res.1 c10Res.2 4 →
        denoteV 3 (setHeapField c10Res.1 4 "y" (HVal.vprim (.num 5)))
            (HVal.vref 0) =
          denoteV 3 c10Store.heap (HVal.vref 0)))) :=
  ⟨⟨by rfl, by rfl, by decide, by rfl, by rfl⟩,
   c10_edit_no_store_aliasing 4 3 c10Store "cfg" "name" "version" "user"
     c10Res.1 c10Res.2 4 "y" (HVal.vprim (.num 5)) (HVal.vref 0)
     (by rfl) (by rfl) (by decide)⟩

end Siembol
